import Mathlib

/-!
Strawberry: the filename organisation template engine.

A shallow embedding of `src/organize/organizeformat.cpp` (class `OrganizeFormat`)
and of the two rating functions of `ext/libstrawberry-tagreader/tagreaderbase.cpp`,
and theorems about them.

Modelling conventions.

* A `QString` is the list of its characters (`List Char`).
* `QRegularExpression::match(block, pos)` is a leftmost search in the text from
  `pos` on.  The two patterns of the file have no anchor and no look-behind, so
  the search only reads the text from `pos`; a loop of the form
  `for (m = re.match(block, pos); m.hasMatch(); m = re.match(block, pos))` is
  embedded with the pair `(done, rest)` = (`block` before `pos`, `block` from
  `pos`), and every loop carries a fuel counter that is started at the length of
  the text plus one.
* `int` and `qint64` values are `Int`; the code does no arithmetic on them that
  could overflow, apart from one division.
* What Qt and ICU decide for characters outside ASCII (`QChar::toUpper`,
  `QChar::decomposition`, `Utilities::Transliterate`) is a parameter
  (`External`).
* A character outside the Basic Multilingual Plane is two code units of a
  `QString`.  The one place where the code takes a single code unit of a text,
  `value[0]` in `TagValue`, gives the high surrogate of such a character; a
  `Char` cannot be a surrogate, so what stands for that code unit in the text is
  a parameter as well (`External.unpaired`).
* A `float` rating is a rational number.  The two rating functions only compare
  a rating with constants; they are embedded with the exact values of their
  decimal literals and, a second time, with the binary32 and binary64 values.
-/

namespace Strawberry

/-! ## Characters and Qt string primitives -/

/-- The character class `[a-zA-Z]` of `kTagPattern`. -/
def isTagLetter (c : Char) : Bool := c.isAlpha

/-- The opening brace. -/
def kOpen : Char := Char.ofNat 123

/-- The closing brace. -/
def kClose : Char := Char.ofNat 125

/-- The character class `[^{}]` of `kBlockPattern`. -/
def isNotBrace (c : Char) : Bool := !(c == kOpen || c == kClose)

/-- The predicate `QChar::isSpace`: the ASCII white space, U+0085, U+00A0 and the
characters of the Unicode separator categories Zs, Zl and Zp. -/
def isSpace (c : Char) : Bool :=
  let n := c.toNat
  n == 0x20 || (0x09 ≤ n && n ≤ 0x0d) || n == 0x85 || n == 0xa0 || n == 0x1680 ||
    (0x2000 ≤ n && n ≤ 0x200a) || n == 0x2028 || n == 0x2029 || n == 0x202f ||
    n == 0x205f || n == 0x3000

/-- The class `\s` of a `QRegularExpression` built without
`UseUnicodePropertiesOption`: space, tab, line feed, vertical tab, form feed and
carriage return. -/
def isRegexSpace (c : Char) : Bool :=
  let n := c.toNat
  n == 0x20 || (0x09 ≤ n && n ≤ 0x0d)

/-- The function `QString::trimmed`: white space removed from both ends. -/
def trimmed (s : List Char) : List Char :=
  (s.dropWhile isSpace).rdropWhile isSpace

/-- The scan of `QString::simplified`.  `started` says that a word has been
written, `gap` that white space has been read since the last written word; the
single space that stands for a run of white space is written when the next word
starts, so that no trailing space is ever written. -/
def simplifiedGo : Bool → Bool → List Char → List Char
  | _, _, [] => []
  | started, gap, c :: t =>
    if isSpace c then simplifiedGo started started t
    else if gap then ' ' :: c :: simplifiedGo true false t
    else c :: simplifiedGo true false t

/-- The function `QString::simplified`: white space removed from both ends and
every inner run of white space replaced by one space. -/
def simplified (s : List Char) : List Char := simplifiedGo false false s

/-- The function `QString::number` for an integer: decimal digits, with a minus
sign for a negative value. -/
def QString_number (n : Int) : List Char :=
  if n < 0 then '-' :: Nat.toDigits 10 n.natAbs else Nat.toDigits 10 n.toNat

/-- The function `QString::split` for the separator `/` (empty parts kept): the
empty text gives one empty part, and every `/` starts a new part. -/
def splitSlash : List Char → List (List Char)
  | [] => [[]]
  | c :: t =>
    if c = '/' then [] :: splitSlash t
    else
      match splitSlash t with
      | [] => [[c]]
      | part :: parts => (c :: part) :: parts

/-- The function `QStringList::join` for the separator `/`. -/
def joinSlash (parts : List (List Char)) : List Char := List.intercalate ['/'] parts

/-- The call `s.section('/', 0, -2)`: the text is split at `/`, the fields from
the first to the last but one are joined again; with one field only the end
index is negative and the answer is empty. -/
def section_0_m2 (s : List Char) : List Char := joinSlash (splitSlash s).dropLast

/-- The file name of a `QFileInfo`: the text after the last `/`. -/
def QFileInfo.fileName (p : List Char) : List Char := p.rtakeWhile (fun c => c != '/')

/-- The function `QFileInfo::path` (Unix build): empty for a `QFileInfo` made from
an empty string, `.` when there is no separator, `/` when the last separator is
the first character, the text before the last separator otherwise. -/
def QFileInfo.path (p : List Char) : List Char :=
  if p.isEmpty then []
  else if !p.contains '/' then ['.']
  else
    let dir := (p.rdropWhile (fun c => c != '/')).dropLast
    if dir.isEmpty then ['/'] else dir

/-- The function `QFileInfo::completeBaseName`: the file name up to (not
including) its last dot. -/
def QFileInfo.completeBaseName (p : List Char) : List Char :=
  let f := QFileInfo.fileName p
  if f.contains '.' then (f.rdropWhile (fun c => c != '.')).dropLast else f

/-- The function `QFileInfo::completeSuffix`: the file name after its first dot. -/
def QFileInfo.completeSuffix (p : List Char) : List Char :=
  let f := QFileInfo.fileName p
  if f.contains '.' then (f.dropWhile (fun c => c != '.')).drop 1 else []

/-- The function `QFileInfo::suffix`: the file name after its last dot. -/
def QFileInfo.suffix (p : List Char) : List Char :=
  let f := QFileInfo.fileName p
  if f.contains '.' then f.rtakeWhile (fun c => c != '.') else []

/-! ## The known tags -/

/-- The list `OrganizeFormat::kKnownTags`. -/
def kKnownTags : List (List Char) :=
  [ "title".toList, "album".toList, "artist".toList, "artistinitial".toList,
    "albumartist".toList, "composer".toList, "track".toList, "disc".toList,
    "year".toList, "originalyear".toList, "genre".toList, "comment".toList,
    "length".toList, "bitrate".toList, "samplerate".toList, "bitdepth".toList,
    "extension".toList, "performer".toList, "grouping".toList, "lyrics".toList ]

/-- The list `OrganizeFormat::kUniqueTags`. -/
def kUniqueTags : List (List Char) := [ "title".toList, "track".toList ]

/-! ## Regular expression matches -/

/-- Leftmost match of `kTagPattern` = `\%([a-zA-Z]*)` in a text: the text before
the match, `captured(1)` and the text after the match.  The match starts at the
first `%`; the greedy class takes the longest run of ASCII letters after it. -/
def matchTag : List Char → Option (List Char × List Char × List Char)
  | [] => none
  | c :: t =>
    if c = '%' then some ([], t.takeWhile isTagLetter, t.dropWhile isTagLetter)
    else (matchTag t).map fun r => (c :: r.1, r.2.1, r.2.2)

/-- A match of `kBlockPattern` = `\{([^{}]+)\}` that starts at the head of the
text: `captured(1)` and the text after the match.  The class `[^{}]+` cannot
step over a brace, so a match exists exactly when the head is an opening brace,
the longest run of non-brace characters after it is not empty and the character
after that run is a closing brace. -/
def matchBlockHere : List Char → Option (List Char × List Char)
  | [] => none
  | c :: t =>
    if c = kOpen then
      match t.takeWhile isNotBrace, t.dropWhile isNotBrace with
      | [], _ => none
      | _ :: _, [] => none
      | x :: xs, d :: post => if d = kClose then some (x :: xs, post) else none
    else none

/-- Leftmost match of `kBlockPattern` in a text: the text before the match,
`captured(1)` and the text after the match. -/
def matchBlock : List Char → Option (List Char × List Char × List Char)
  | [] => none
  | c :: t =>
    match matchBlockHere (c :: t) with
    | some (content, post) => some ([], content, post)
    | none => (matchBlock t).map fun r => (c :: r.1, r.2.1, r.2.2)

/-! ## The validator -/

/-- The three answers of a `QValidator`. -/
inductive QValidatorState where
  | Invalid
  | Intermediate
  | Acceptable
  deriving DecidableEq, Repr

/-- The first loop of `Validator::validate`: `block_level` is updated for each
character and the scan stops with `Invalid` (here `none`) as soon as the level
is below 0 or above 1; otherwise the final level is returned. -/
def validateBlocks : Int → List Char → Option Int
  | block_level, [] => some block_level
  | block_level, c :: t =>
    let level := if c = kOpen then block_level + 1
                 else if c = kClose then block_level - 1 else block_level
    if level < 0 ∨ level > 1 then none else validateBlocks level t

/-- The second loop of `Validator::validate`: every match of `kTagPattern` must
capture a known tag; the scan goes on after the match. -/
def validateTags : Nat → List Char → QValidatorState
  | 0, _ => QValidatorState.Acceptable
  | n + 1, rest =>
    match matchTag rest with
    | none => QValidatorState.Acceptable
    | some (_, tag, post) =>
      if kKnownTags.contains tag then validateTags n post else QValidatorState.Invalid

/-- The function `OrganizeFormat::Validator::validate`. -/
def Validator.validate (input : List Char) : QValidatorState :=
  match validateBlocks 0 input with
  | none => QValidatorState.Invalid
  | some block_level =>
    if block_level ≠ 0 then QValidatorState.Invalid
    else validateTags (input.length + 1) input

/-! ## The data model -/

/-- The metadata record: the accessors of `Song` (core/song.h) that this file
reads, each as the value it returns. -/
structure Song where
  title : List Char
  album : List Char
  artist : List Char
  composer : List Char
  performer : List Char
  grouping : List Char
  lyrics : List Char
  genre : List Char
  comment : List Char
  year : Int
  effective_originalyear : Int
  track : Int
  disc : Int
  length_nanosec : Int
  bitrate : Int
  samplerate : Int
  bitdepth : Int
  url_toLocalFile : List Char
  effective_albumartist : List Char
  is_compilation : Bool
  basefilename : List Char

/-- What the libraries decide for characters outside ASCII, and what stands for
a code unit that is not a character. -/
structure External where
  /-- The function `Utilities::Transliterate` (utilities/transliterate.h). -/
  Transliterate : List Char → List Char
  /-- The function `QChar::decomposition`. -/
  decomposition : Char → List Char
  /-- The function `QChar::toUpper` on a character outside ASCII. -/
  toUpperOther : Char → Char
  /-- A `QString` is a sequence of UTF-16 code units, and a surrogate without its
  partner is not a character: `unpaired n` is what stands in a text of characters
  for the lone code unit `n`. -/
  unpaired : Nat → Char

/-- The data members of `OrganizeFormat`. -/
structure OrganizeFormat where
  format_ : List Char
  remove_problematic_ : Bool
  remove_non_fat_ : Bool
  remove_non_ascii_ : Bool
  allow_ascii_ext_ : Bool
  replace_spaces_ : Bool

/-- The constructor `OrganizeFormat::OrganizeFormat`. -/
def OrganizeFormat.new (format : List Char) : OrganizeFormat :=
  { format_ := format, remove_problematic_ := false, remove_non_fat_ := false,
    remove_non_ascii_ := false, allow_ascii_ext_ := false, replace_spaces_ := true }

/-- The function `OrganizeFormat::set_format`. -/
def OrganizeFormat.set_format (self : OrganizeFormat) (v : List Char) : OrganizeFormat :=
  { self with format_ := v.map fun c => if c = Char.ofNat 92 then '/' else c }

/-- The function `OrganizeFormat::IsValid`. -/
def OrganizeFormat.IsValid (self : OrganizeFormat) : Bool :=
  Validator.validate self.format_ == QValidatorState.Acceptable

/-- The result class `GetFilenameForSongResult`; its default constructor gives the
empty file name and `false`. -/
structure GetFilenameForSongResult where
  filename : List Char
  unique_filename : Bool
  deriving DecidableEq, Repr

/-! ## Tag values -/

/-- The constant `kNsecPerSec` (utilities/timeconstants.h). -/
def kNsecPerSec : Int := 1000000000

/-- The function `QChar::toUpper`: ASCII lower case letters are mapped to upper
case, the other ASCII characters are unchanged. -/
def toUpper (ext : External) (c : Char) : Char :=
  if c.toNat < 128 then c.toUpper else ext.toUpperOther c

/-- The first UTF-16 code unit of a character outside the Basic Multilingual
Plane: its high surrogate. -/
def highSurrogate (c : Char) : Nat := 0xd800 + (c.toNat - 0x10000) / 0x400

/-- The expression `value[0].toUpper()` for a text with the first character `c`.
The index is an index of UTF-16 code units: for a character of the Basic
Multilingual Plane the code unit is the character, and its upper case is taken;
for another character it is the high surrogate alone, which has no upper case. -/
def firstUnitUpper (ext : External) (c : Char) : Char :=
  if c.toNat < 0x10000 then toUpper ext c else ext.unpaired (highSurrogate c)

/-- The call `value.replace(QRegularExpression("^the\\s+", CaseInsensitiveOption), "")`:
a leading `the` in any letter case that is followed by white space of the class
`\s` is removed together with the whole run of white space. -/
def removeLeadingThe (value : List Char) : List Char :=
  match value with
  | t :: h :: e :: c :: rest =>
    if (t = 't' ∨ t = 'T') ∧ (h = 'h' ∨ h = 'H') ∧ (e = 'e' ∨ e = 'E') ∧ isRegexSpace c = true
    then rest.dropWhile isRegexSpace else value
  | _ => value

/-- The class `[/\\]` of `kInvalidDirCharacters`. -/
def kInvalidDirCharacters (c : Char) : Bool := c == '/' || c == Char.ofNat 92

/-- The chain of comparisons at the head of `OrganizeFormat::TagValue`: the value
of the tag before the common treatment. -/
def TagValueDispatch (ext : External) (tag : List Char) (song : Song) : List Char :=
  if tag = "title".toList then song.title
  else if tag = "album".toList then song.album
  else if tag = "artist".toList then song.artist
  else if tag = "composer".toList then song.composer
  else if tag = "performer".toList then song.performer
  else if tag = "grouping".toList then song.grouping
  else if tag = "lyrics".toList then song.lyrics
  else if tag = "genre".toList then song.genre
  else if tag = "comment".toList then song.comment
  else if tag = "year".toList then QString_number song.year
  else if tag = "originalyear".toList then QString_number song.effective_originalyear
  else if tag = "track".toList then QString_number song.track
  else if tag = "disc".toList then QString_number song.disc
  else if tag = "length".toList then QString_number (song.length_nanosec.tdiv kNsecPerSec)
  else if tag = "bitrate".toList then QString_number song.bitrate
  else if tag = "samplerate".toList then QString_number song.samplerate
  else if tag = "bitdepth".toList then QString_number song.bitdepth
  else if tag = "extension".toList then QFileInfo.suffix song.url_toLocalFile
  else if tag = "artistinitial".toList then
    let value := trimmed song.effective_albumartist
    if !value.isEmpty then
      -- `value[0]` after the replacement; the first case is an index out of range
      match removeLeadingThe value with
      | [] => []
      | c :: _ => [firstUnitUpper ext c]
    else value
  else if tag = "albumartist".toList then
    if song.is_compilation then "Various Artists".toList else song.effective_albumartist
  else []

/-- The function `OrganizeFormat::TagValue`. -/
def OrganizeFormat.TagValue (ext : External) (self : OrganizeFormat) (tag : List Char)
    (song : Song) : List Char :=
  let value := TagValueDispatch ext tag song
  let value := if value = "0".toList ∨ value = "-1".toList then [] else value
  let value := if tag = "track".toList ∧ value.length = 1 then '0' :: value else value
  let value := value.filter fun c => !kInvalidDirCharacters c
  let value := if self.remove_problematic_ then value.filter fun c => c != '.' else value
  trimmed value

/-! ## Blocks and tags -/

/-- The second loop of `OrganizeFormat::ParseBlock` ("Now look for tags").  The
state is the text before `pos`, the text from `pos`, the flag behind
`have_tagdata` and the local `empty`; each match is replaced by its value and
`pos` moves behind the value. -/
def tagLoop (tagValue : List Char → List Char) :
    Nat → List Char → List Char → Bool → Bool → List Char × Bool × Bool
  | 0, done, rest, have_tagdata, empty => (done ++ rest, have_tagdata, empty)
  | n + 1, done, rest, have_tagdata, empty =>
    match matchTag rest with
    | none => (done ++ rest, have_tagdata, empty)
    | some (pre, tag, post) =>
      let value := tagValue tag
      if value.isEmpty then tagLoop tagValue n (done ++ pre ++ value) post have_tagdata true
      else if kUniqueTags.contains tag then
        tagLoop tagValue n (done ++ pre ++ value) post true empty
      else tagLoop tagValue n (done ++ pre ++ value) post have_tagdata empty

/-- The first loop of `OrganizeFormat::ParseBlock` ("Find any blocks first").
`parse` is the recursive call; the state is the text before `pos`, the text from
`pos` and the flag behind `have_tagdata`.  Each match is replaced by the value of
its content, or by nothing when the recursive call reports `any_empty`, and
`pos` moves behind the replacement. -/
def blockLoop (parse : List Char → Bool → List Char × Bool × Bool) :
    Nat → List Char → List Char → Bool → List Char × Bool
  | 0, done, rest, have_tagdata => (done ++ rest, have_tagdata)
  | n + 1, done, rest, have_tagdata =>
    match matchBlock rest with
    | none => (done ++ rest, have_tagdata)
    | some (pre, content, post) =>
      let r := parse content have_tagdata
      let value := if r.2.2 then [] else r.1
      blockLoop parse n (done ++ pre ++ value) post r.2.1

/-- The function `OrganizeFormat::ParseBlock` with a bound on the depth of the
recursion.  The arguments are the block and the flag behind `have_tagdata`
(a pointer that `GetFilenameForSong` always passes); the result is the returned
text, the flag behind `have_tagdata` and the value written to `any_empty`. -/
def ParseBlockFuel (tagValue : List Char → List Char) :
    Nat → List Char → Bool → List Char × Bool × Bool
  | 0, block, have_tagdata => (block, have_tagdata, false)
  | n + 1, block, have_tagdata =>
    let b := blockLoop (ParseBlockFuel tagValue n) (block.length + 1) [] block have_tagdata
    tagLoop tagValue (b.1.length + 1) [] b.1 b.2 false

/-- The function `OrganizeFormat::ParseBlock`.  The captured content of a block
is shorter than the block, so the length of the block plus one bounds the depth
of the recursion. -/
def OrganizeFormat.ParseBlock (ext : External) (self : OrganizeFormat) (block : List Char)
    (song : Song) (have_tagdata : Bool) : List Char × Bool × Bool :=
  ParseBlockFuel (fun tag => self.TagValue ext tag song) (block.length + 1) block have_tagdata

/-! ## The file name of a song -/

/-- The class `[:?*"<>|]` of `kProblematicCharacters`. -/
def kProblematicCharacters (c : Char) : Bool :=
  c == ':' || c == '?' || c == '*' || c == Char.ofNat 34 || c == '<' || c == '>' || c == '|'

/-- The characters that `kInvalidFatCharacters` does not match.  The class is
negated and case-insensitive: it keeps the ASCII letters and digits, the listed
punctuation and the two characters whose case folding is an ASCII letter
(U+017F, U+212A): a `QRegularExpression` is compiled in UTF mode, where
`PCRE2_CASELESS` makes `S` and `K` case-equivalent with these two. -/
def isFatCharacter (c : Char) : Bool :=
  c.isAlphanum || c == '!' || c == '#' || c == '$' || c == '%' || c == '&' ||
    c == Char.ofNat 39 || c == '(' || c == ')' || c == '-' || c == '@' || c == '^' ||
    c == '_' || c == Char.ofNat 96 || c == kOpen || c == kClose || c == '~' ||
    c == '/' || c == '.' || c == ' ' || c.toNat == 0x17f || c.toNat == 0x212a

/-- The characters of `kInvalidPrefixCharacters`. -/
def kInvalidPrefixCharacters : List Char := ['.']

/-- Lines 116 to 135 of `GetFilenameForSong`: the resolved text, replaced by the
base file name of the song when it is empty, and rebuilt from its directory and
the base file name of the song when its complete base name is empty. -/
def fallbackPath (resolved : List Char) (song : Song) : List Char :=
  let filepath := if resolved.isEmpty then song.basefilename else resolved
  if (QFileInfo.completeBaseName filepath).isEmpty then
    let path := QFileInfo.path filepath
    let filepath :=
      if !path.isEmpty then
        if path.getLast? ≠ some '/' then path ++ ['/'] else path
      else []
    filepath ++ song.basefilename
  else filepath

/-- The condition of line 137 of `GetFilenameForSong`. -/
def rejectedPath (filepath : List Char) : Bool :=
  filepath.isEmpty ||
    (filepath.contains '/' &&
      ((section_0_m2 filepath).isEmpty || (section_0_m2 filepath).isEmpty))

/-- The loop of lines 149 to 160 of `GetFilenameForSong` for one character. -/
def stripNonAscii (ext : External) (ascii : Nat) (c : Char) : List Char :=
  if c.toNat < ascii then [c]
  else
    match ext.decomposition c with
    | [] => []
    | d :: _ => if d.toNat < ascii then [d] else []

/-- Lines 141 to 165 of `GetFilenameForSong`: the removal of characters and
`simplified`. -/
def OrganizeFormat.sanitize (ext : External) (self : OrganizeFormat) (filepath : List Char) :
    List Char :=
  let filepath :=
    if self.remove_problematic_ then filepath.filter fun c => !kProblematicCharacters c
    else filepath
  let filepath :=
    if self.remove_non_fat_ || (self.remove_non_ascii_ && !self.allow_ascii_ext_) then
      ext.Transliterate filepath
    else filepath
  let filepath := if self.remove_non_fat_ then filepath.filter isFatCharacter else filepath
  let filepath :=
    if self.remove_non_ascii_ then
      let ascii := if self.allow_ascii_ext_ then 255 else 128
      filepath.flatMap (stripNonAscii ext ascii)
    else filepath
  simplified filepath

/-- Lines 189 to 195 of `GetFilenameForSong` for one part of the path. -/
def fixPart (part : List Char) : List Char :=
  let part :=
    if kInvalidPrefixCharacters.any fun c => part.head? == some c then part.drop 1 else part
  trimmed part

/-- Lines 170 to 177 of `GetFilenameForSong`: the extension given by the caller,
or else the complete suffix of the path, or else the complete suffix of the
local file of the song. -/
def resolveExtension (filepath : List Char) (song : Song) (extension : List Char) : List Char :=
  if extension.isEmpty then
    if (QFileInfo.completeSuffix filepath).isEmpty then
      QFileInfo.completeSuffix song.url_toLocalFile
    else QFileInfo.completeSuffix filepath
  else extension

/-- Lines 178 to 200 of `GetFilenameForSong`: the path is put together again from
its directory and its complete base name, the parts that start with a dot are
fixed, and the white space is replaced. -/
def OrganizeFormat.finishPath (self : OrganizeFormat) (filepath : List Char) : List Char :=
  let path := QFileInfo.path filepath
  let dir := if !path.isEmpty && path != ['.'] then path ++ ['/'] else []
  let filepath := dir ++ QFileInfo.completeBaseName filepath
  let filepath := joinSlash ((splitSlash filepath).map fixPart)
  if self.replace_spaces_ then filepath.map fun c => if isRegexSpace c then '_' else c
  else filepath

/-- Lines 167 to 206 of `GetFilenameForSong`: the extension is taken off the path
and appended again after the path has been fixed. -/
def OrganizeFormat.finish (self : OrganizeFormat) (filepath : List Char) (song : Song)
    (extension : List Char) (unique_filename : Bool) : GetFilenameForSongResult :=
  let extension := resolveExtension filepath song extension
  let filepath := self.finishPath filepath
  let filepath := if !extension.isEmpty then filepath ++ '.' :: extension else filepath
  { filename := filepath, unique_filename := unique_filename }

/-- The function `OrganizeFormat::GetFilenameForSong`. -/
def OrganizeFormat.GetFilenameForSong (ext : External) (self : OrganizeFormat) (song : Song)
    (extension : List Char) : GetFilenameForSongResult :=
  let r := self.ParseBlock ext self.format_ song false
  let filepath := fallbackPath r.1 song
  if rejectedPath filepath then { filename := [], unique_filename := false }
  else self.finish (self.sanitize ext filepath) song extension r.2.1

/-! ## The words of the specification -/

/-- A template read as the specification reads it: literal characters and
`%name` tokens. -/
inductive Token where
  | lit (c : Char)
  | tag (name : List Char)
  deriving DecidableEq, Repr

/-- The letters at the head of a list of tokens, and the tokens after them. -/
def absorbLetters : List Token → List Char × List Token
  | Token.lit c :: ts =>
    if isTagLetter c then ((c :: (absorbLetters ts).1), (absorbLetters ts).2)
    else ([], Token.lit c :: ts)
  | ts => ([], ts)

/-- The tokens of a template: a `%` with the longest run of ASCII letters after
it is a `%name` token, every other character is a literal. -/
def tokenize : List Char → List Token
  | [] => []
  | c :: t =>
    if c = '%' then Token.tag (absorbLetters (tokenize t)).1 :: (absorbLetters (tokenize t)).2
    else Token.lit c :: tokenize t

/-- The names of the `%name` tokens of a template, from left to right. -/
def tagNames (s : List Char) : List (List Char) :=
  (tokenize s).filterMap fun tok =>
    match tok with
    | Token.lit _ => none
    | Token.tag name => some name

/-- A template in which every `%name` token is replaced by its value and every
other character is kept. -/
def substituteTags (tagValue : List Char → List Char) (s : List Char) : List Char :=
  (tokenize s).flatMap fun tok =>
    match tok with
    | Token.lit c => [c]
    | Token.tag name => tagValue name

/-- The depth counter of the specification after a text: the number of opening
braces minus the number of closing braces. -/
def braceDepth (s : List Char) : Int := (s.count kOpen : Int) - (s.count kClose : Int)

/-- The brace condition of the specification: the depth is never below 0, never
above 1, and is 0 at the end. -/
def BracesBalanced (s : List Char) : Prop :=
  (∀ k, k ≤ s.length → 0 ≤ braceDepth (s.take k) ∧ braceDepth (s.take k) ≤ 1) ∧
    braceDepth s = 0

/-- A text without braces. -/
def BraceFree (s : List Char) : Prop := ∀ c ∈ s, c ≠ kOpen ∧ c ≠ kClose

/-! ## Sample inputs -/

/-- A record with every text field empty and every number 0. -/
def emptySong : Song :=
  { title := [], album := [], artist := [], composer := [], performer := [], grouping := [],
    lyrics := [], genre := [], comment := [], year := 0, effective_originalyear := 0,
    track := 0, disc := 0, length_nanosec := 0, bitrate := 0, samplerate := 0, bitdepth := 0,
    url_toLocalFile := [], effective_albumartist := [], is_compilation := false,
    basefilename := [] }

/-- The local file `/music/x.mp3` with its base file name and nothing else. -/
def fileSong : Song :=
  { emptySong with url_toLocalFile := "/music/x.mp3".toList, basefilename := "x.mp3".toList }

/-- Libraries that leave every character as it is and decompose none. -/
def plainExternal : External :=
  { Transliterate := fun s => s, decomposition := fun _ => [], toUpperOther := fun c => c,
    unpaired := fun _ => Char.ofNat 0xfffd }

/-- A format with every option off. -/
def plainFormat (format : List Char) : OrganizeFormat :=
  { OrganizeFormat.new format with replace_spaces_ := false }

instance BraceFree.decidable (s : List Char) : Decidable (BraceFree s) := by
  unfold BraceFree
  infer_instance

/-- Libraries that fold the letters U+00E9, U+017F and U+212A to `e`, `s` and `K`,
and know the decomposition of U+FF1F (FULLWIDTH QUESTION MARK), which is `?`. -/
def foldingExternal : External :=
  { Transliterate := fun s => s.map fun c =>
      if c.toNat = 0xe9 then 'e' else if c.toNat = 0x17f then 's'
      else if c.toNat = 0x212a then 'K' else c,
    decomposition := fun c => if c.toNat = 0xff1f then ['?'] else [],
    toUpperOther := fun c => c,
    unpaired := fun _ => Char.ofNat 0xfffd }

/-! ## The words of the specification on the returned path -/

/-- The returned path up to the appended extension: the value of `filepath` at
line 201 of `GetFilenameForSong`, when the path is not rejected at line 137. -/
def OrganizeFormat.pathBeforeExtension (ext : External) (self : OrganizeFormat) (song : Song) :
    List Char :=
  self.finishPath
    (self.sanitize ext (fallbackPath (self.ParseBlock ext self.format_ song false).1 song))

/-- The first text of a list that is not empty; the empty text when there is
none. -/
def firstNonEmpty : List (List Char) → List Char
  | [] => []
  | x :: rest => if x.isEmpty then firstNonEmpty rest else x

/-- The FAT-safe class as the specification lists it: ASCII letters, digits,
space and the listed punctuation. -/
def isFatSafe (c : Char) : Bool :=
  c.isAlphanum || c == ' ' || c == '!' || c == '#' || c == '$' || c == '%' || c == '&' ||
    c == Char.ofNat 39 || c == '(' || c == ')' || c == '-' || c == '@' || c == '^' ||
    c == '_' || c == Char.ofNat 96 || c == kOpen || c == kClose || c == '~' ||
    c == '/' || c == '.'

/-- The sanitization and path-finishing steps of `GetFilenameForSong` (lines 141
to 206) on a text, without extension override. -/
def OrganizeFormat.pipeline (ext : External) (self : OrganizeFormat) (song : Song)
    (s : List Char) : List Char :=
  (self.finish (self.sanitize ext s) song [] false).filename

/-- A character of a plain name: a character of the FAT-safe class other than
space, `.` and `/`. -/
def isPlainCharacter (c : Char) : Bool := isFatSafe c && c != ' ' && c != '.' && c != '/'

/-- The text has a block with an empty content: an opening brace that is directly
followed by a closing brace. -/
def hasEmptyBlock : List Char → Bool
  | a :: b :: t => (a == kOpen && b == kClose) || hasEmptyBlock (b :: t)
  | _ => false

instance BracesBalanced.decidable (s : List Char) : Decidable (BracesBalanced s) := by
  unfold BracesBalanced
  infer_instance

/-- A record with a value under every known tag. -/
def fullSong : Song :=
  { title := "T".toList, album := "A".toList, artist := "R".toList, composer := "C".toList,
    performer := "P".toList, grouping := "G".toList, lyrics := "L".toList, genre := "E".toList,
    comment := "M".toList, year := 1979, effective_originalyear := 1979, track := 3, disc := 2,
    length_nanosec := 5000000000, bitrate := 320, samplerate := 44100, bitdepth := 16,
    url_toLocalFile := "/music/x.mp3".toList, effective_albumartist := "B".toList,
    is_compilation := false, basefilename := "x.mp3".toList }

/-- No two neighbours in the text are both white space. -/
def NoDoubleSpace (s : List Char) : Prop :=
  s.Chain' fun a b => ¬ (isSpace a = true ∧ isSpace b = true)

/-! ## The rating in a POPM frame

The two functions of `TagReaderBase` compare a rating with constants and return
constants.  First with the ratings and the literals as exact values (`ℚ`), then
with the values that the literals have in the machine. -/

/-- The function `TagReaderBase::ConvertPOPMRating`. -/
def ConvertPOPMRating (POPM_rating : Int) : ℚ :=
  if POPM_rating < 0x01 then 0
  else if POPM_rating < 0x40 then 0.20
  else if POPM_rating < 0x80 then 0.40
  else if POPM_rating < 0xC0 then 0.60
  else if POPM_rating < 0xFC then 0.80
  else 1

/-- The function `TagReaderBase::ConvertToPOPMRating`. -/
def ConvertToPOPMRating (rating : ℚ) : Int :=
  if rating < 0.20 then 0x00
  else if rating < 0.40 then 0x01
  else if rating < 0.60 then 0x40
  else if rating < 0.80 then 0x80
  else if rating < 1 then 0xC0
  else 0xFF

/-- The value of a `float` literal in the machine: the binary32 number nearest to
the decimal, for the literals of `ConvertPOPMRating`; 0 and 1 are exact. -/
def binary32 (literal : ℚ) : ℚ :=
  if literal = 0.20 then 13421773 / 67108864
  else if literal = 0.40 then 13421773 / 33554432
  else if literal = 0.60 then 5033165 / 8388608
  else if literal = 0.80 then 13421773 / 16777216
  else literal

/-- The value of a `double` literal in the machine: the binary64 number nearest
to the decimal, for the literals of `ConvertToPOPMRating`; 1.0 is exact. -/
def binary64 (literal : ℚ) : ℚ :=
  if literal = 0.20 then 3602879701896397 / 18014398509481984
  else if literal = 0.40 then 3602879701896397 / 9007199254740992
  else if literal = 0.60 then 5404319552844595 / 9007199254740992
  else if literal = 0.80 then 3602879701896397 / 4503599627370496
  else literal

/-- The function `TagReaderBase::ConvertPOPMRating` with the machine values of
its `float` literals. -/
def ConvertPOPMRatingBinary (POPM_rating : Int) : ℚ :=
  if POPM_rating < 0x01 then binary32 0
  else if POPM_rating < 0x40 then binary32 0.20
  else if POPM_rating < 0x80 then binary32 0.40
  else if POPM_rating < 0xC0 then binary32 0.60
  else if POPM_rating < 0xFC then binary32 0.80
  else binary32 1

/-- The function `TagReaderBase::ConvertToPOPMRating` with the machine values of
its `double` literals; the `float` argument is compared as the `double` of the
same value. -/
def ConvertToPOPMRatingBinary (rating : ℚ) : Int :=
  if rating < binary64 0.20 then 0x00
  else if rating < binary64 0.40 then 0x01
  else if rating < binary64 0.60 then 0x40
  else if rating < binary64 0.80 then 0x80
  else if rating < binary64 1 then 0xC0
  else 0xFF

/-! ## Lemmas on tag matches and tokens -/

theorem absorbLetters_tokenize (t : List Char) :
    absorbLetters (tokenize t) = (t.takeWhile isTagLetter, tokenize (t.dropWhile isTagLetter)) := by
  induction t with
  | nil => simp [tokenize, absorbLetters]
  | cons c t ih =>
    by_cases hc : c = '%'
    · subst hc
      have h : isTagLetter '%' = false := by decide
      simp [tokenize, absorbLetters, h]
    · by_cases hl : isTagLetter c = true
      · simp [tokenize, hc, absorbLetters, hl, ih]
      · simp [tokenize, hc, absorbLetters, hl]

theorem tokenize_percent (t : List Char) :
    tokenize ('%' :: t) =
      Token.tag (t.takeWhile isTagLetter) :: tokenize (t.dropWhile isTagLetter) := by
  simp [tokenize, absorbLetters_tokenize]

theorem tokenize_lit (c : Char) (t : List Char) (hc : c ≠ '%') :
    tokenize (c :: t) = Token.lit c :: tokenize t := by
  simp [tokenize, hc]

theorem tokenize_append (pre s : List Char) (hpre : '%' ∉ pre) :
    tokenize (pre ++ s) = pre.map Token.lit ++ tokenize s := by
  induction pre with
  | nil => simp
  | cons c pre ih =>
    have hc : c ≠ '%' := fun h => hpre (by simp [h])
    have hp : '%' ∉ pre := fun h => hpre (by simp [h])
    simp [tokenize_lit _ _ hc, ih hp]

theorem matchTag_none (s : List Char) (h : matchTag s = none) : '%' ∉ s := by
  induction s with
  | nil => simp
  | cons c t ih =>
    by_cases hc : c = '%'
    · simp [matchTag, hc] at h
    · simp only [matchTag, hc, if_false, Option.map_eq_none'] at h
      simp [ih h, Ne.symm hc]

theorem matchTag_some (s pre tag post : List Char) (h : matchTag s = some (pre, tag, post)) :
    '%' ∉ pre ∧ ∃ t, s = pre ++ '%' :: t ∧ tag = t.takeWhile isTagLetter ∧
      post = t.dropWhile isTagLetter := by
  induction s generalizing pre with
  | nil => simp [matchTag] at h
  | cons c t ih =>
    by_cases hc : c = '%'
    · simp only [matchTag, hc, if_true, Option.some.injEq, Prod.mk.injEq] at h
      obtain ⟨h1, h2, h3⟩ := h
      subst h1
      exact ⟨by simp, t, by simp [hc], h2.symm, h3.symm⟩
    · simp only [matchTag, hc, if_false, Option.map_eq_some'] at h
      obtain ⟨r, hr, hr2⟩ := h
      obtain ⟨r1, r2, r3⟩ := r
      simp only [Prod.mk.injEq] at hr2
      obtain ⟨h1, h2, h3⟩ := hr2
      subst h1 h2 h3
      obtain ⟨hp, u, hu, htag, hpost⟩ := ih r1 hr
      exact ⟨by simp [hp, Ne.symm hc], u, by simp [hu], htag, hpost⟩

theorem matchTag_post_length (s pre tag post : List Char)
    (h : matchTag s = some (pre, tag, post)) : post.length < s.length := by
  obtain ⟨_, t, hs, _, hpost⟩ := matchTag_some s pre tag post h
  have hd : (t.dropWhile isTagLetter).length ≤ t.length :=
    (List.dropWhile_sublist _).length_le
  subst hs hpost
  simp
  omega

theorem tokenize_of_match (s pre tag post : List Char)
    (h : matchTag s = some (pre, tag, post)) :
    tokenize s = pre.map Token.lit ++ Token.tag tag :: tokenize post := by
  obtain ⟨hp, t, hs, htag, hpost⟩ := matchTag_some s pre tag post h
  subst hs htag hpost
  rw [tokenize_append _ _ hp, tokenize_percent]

theorem tokenize_of_no_match (s : List Char) (h : matchTag s = none) :
    tokenize s = s.map Token.lit := by
  have := tokenize_append s [] (matchTag_none s h)
  simpa [tokenize] using this

theorem substituteTags_of_match (tv : List Char → List Char) (s pre tag post : List Char)
    (h : matchTag s = some (pre, tag, post)) :
    substituteTags tv s = pre ++ tv tag ++ substituteTags tv post := by
  simp [substituteTags, tokenize_of_match s pre tag post h, List.flatMap_append,
    List.flatMap_map, List.flatMap_cons]

theorem substituteTags_of_no_match (tv : List Char → List Char) (s : List Char)
    (h : matchTag s = none) : substituteTags tv s = s := by
  simp [substituteTags, tokenize_of_no_match s h, List.flatMap_map]

theorem tagNames_of_match (s pre tag post : List Char)
    (h : matchTag s = some (pre, tag, post)) : tagNames s = tag :: tagNames post := by
  simp [tagNames, tokenize_of_match s pre tag post h, List.filterMap_append,
    List.filterMap_map, List.filterMap_cons]

theorem tagNames_of_no_match (s : List Char) (h : matchTag s = none) : tagNames s = [] := by
  simp [tagNames, tokenize_of_no_match s h, List.filterMap_map]


/-! ## Lemmas on the two tag loops -/

theorem tagLoop_spec (tv : List Char → List Char) (n : Nat) :
    ∀ (done rest : List Char) (have_tagdata empty : Bool), rest.length < n →
      tagLoop tv n done rest have_tagdata empty =
        (done ++ substituteTags tv rest,
          have_tagdata ||
            (tagNames rest).any (fun name => kUniqueTags.contains name && !(tv name).isEmpty),
          empty || (tagNames rest).any (fun name => (tv name).isEmpty)) := by
  induction n with
  | zero => intro _ rest _ _ h; simp at h
  | succ n ih =>
    intro done rest have_tagdata empty hlen
    cases hm : matchTag rest with
    | none =>
      simp [tagLoop, hm, substituteTags_of_no_match tv rest hm, tagNames_of_no_match rest hm]
    | some r =>
      obtain ⟨pre, tag, post⟩ := r
      have hpost : post.length < n := by
        have := matchTag_post_length rest pre tag post hm
        omega
      have hs := substituteTags_of_match tv rest pre tag post hm
      have ht := tagNames_of_match rest pre tag post hm
      simp only [tagLoop, hm]
      by_cases hv : (tv tag).isEmpty = true
      · simp [hv, ih _ _ _ _ hpost, hs, ht]
      · by_cases hu : tag ∈ kUniqueTags
        · simp [hv, hu, ih _ _ _ _ hpost, hs, ht]
        · simp [hv, hu, ih _ _ _ _ hpost, hs, ht]

theorem validateTags_spec (n : Nat) :
    ∀ rest : List Char, rest.length < n →
      (validateTags n rest = QValidatorState.Acceptable ↔
        ∀ name ∈ tagNames rest, name ∈ kKnownTags) := by
  induction n with
  | zero => intro rest h; simp at h
  | succ n ih =>
    intro rest hlen
    cases hm : matchTag rest with
    | none => simp [validateTags, hm, tagNames_of_no_match rest hm]
    | some r =>
      obtain ⟨pre, tag, post⟩ := r
      have hpost : post.length < n := by
        have := matchTag_post_length rest pre tag post hm
        omega
      simp only [validateTags, hm, tagNames_of_match rest pre tag post hm]
      by_cases hk : kKnownTags.contains tag = true
      · have hk' : tag ∈ kKnownTags := by simpa using hk
        simp [hk, ih post hpost, hk']
      · have hk' : tag ∉ kKnownTags := by simpa using hk
        simp [hk, hk']

/-! ## Lemmas on the brace scan -/

theorem braceDepth_nil : braceDepth [] = 0 := by simp [braceDepth]

theorem braceDepth_cons (c : Char) (t : List Char) :
    braceDepth (c :: t) =
      (if c = kOpen then 1 else if c = kClose then -1 else 0) + braceDepth t := by
  have hne : kOpen ≠ kClose := by decide
  by_cases h1 : c = kOpen
  · subst h1
    simp [braceDepth, List.count_cons, hne]
    omega
  · by_cases h2 : c = kClose
    · subst h2
      simp [braceDepth, List.count_cons, hne.symm]
      omega
    · simp [braceDepth, List.count_cons, h1, h2, Ne.symm h1, Ne.symm h2]

theorem validateBlocks_spec (s : List Char) :
    ∀ level result : Int,
      (validateBlocks level s = some result ↔
        (∀ k, 1 ≤ k → k ≤ s.length →
            0 ≤ level + braceDepth (s.take k) ∧ level + braceDepth (s.take k) ≤ 1) ∧
          result = level + braceDepth s) := by
  induction s with
  | nil =>
    intro level result
    simp only [validateBlocks, Option.some.injEq, List.length_nil, braceDepth_nil, add_zero]
    constructor
    · intro h
      exact ⟨fun k h1 h2 => by omega, h.symm⟩
    · intro h
      exact h.2.symm
  | cons c t ih =>
    intro level result
    simp only [validateBlocks]
    generalize hd : (if c = kOpen then level + 1 else if c = kClose then level - 1 else level)
      = level1
    have hd2 : level1 = level + braceDepth [c] := by
      rw [braceDepth_cons, braceDepth_nil, ← hd]
      split_ifs <;> omega
    by_cases hr : level1 < 0 ∨ level1 > 1
    · simp only [hr, if_true]
      constructor
      · intro h; cases h
      · intro h
        have := h.1 1 (le_refl 1) (by simp)
        simp only [List.take_succ_cons, List.take_zero] at this
        omega
    · simp only [hr, if_false, ih level1 result]
      have hstep : ∀ u : List Char, level1 + braceDepth u = level + braceDepth (c :: u) := by
        intro u
        rw [braceDepth_cons c u, hd2, braceDepth_cons, braceDepth_nil]
        omega
      constructor
      · rintro ⟨h1, h2⟩
        refine ⟨?_, by rw [h2, hstep]⟩
        intro k hk1 hk2
        obtain ⟨j, rfl⟩ : ∃ j, k = j + 1 := ⟨k - 1, by omega⟩
        simp only [List.take_succ_cons, ← hstep]
        by_cases hj : j = 0
        · subst hj
          simp only [List.take_zero, braceDepth_nil, add_zero]
          omega
        · exact h1 j (by omega) (by simpa using hk2)
      · rintro ⟨h1, h2⟩
        refine ⟨?_, by rw [h2, hstep]⟩
        intro k hk1 hk2
        have := h1 (k + 1) (by omega) (by simpa using hk2)
        simpa only [List.take_succ_cons, ← hstep] using this

theorem validate_spec (input : List Char) :
    Validator.validate input = QValidatorState.Acceptable ↔
      BracesBalanced input ∧ ∀ name ∈ tagNames input, name ∈ kKnownTags := by
  have hb : ∀ result : Int, validateBlocks 0 input = some result ↔
      (∀ k, 1 ≤ k → k ≤ input.length →
          0 ≤ braceDepth (input.take k) ∧ braceDepth (input.take k) ≤ 1) ∧
        result = braceDepth input := by
    intro result
    simpa using validateBlocks_spec input 0 result
  have ht := validateTags_spec (input.length + 1) input (Nat.lt_succ_self _)
  have hbal : BracesBalanced input ↔ validateBlocks 0 input = some 0 := by
    rw [hb 0]
    constructor
    · rintro ⟨h1, h2⟩
      exact ⟨fun k _ hk => h1 k hk, h2.symm⟩
    · rintro ⟨h1, h2⟩
      refine ⟨fun k hk => ?_, h2.symm⟩
      by_cases hk0 : k = 0
      · subst hk0; simp [braceDepth_nil]
      · exact h1 k (by omega) hk
  rw [hbal]
  unfold Validator.validate
  cases hv : validateBlocks 0 input with
  | none => simp
  | some level =>
    by_cases hl : level = 0
    · subst hl; simp [ht]
    · have : ¬ (some level = some (0 : Int)) := by simpa using hl
      simp [hl]

/-! ## The names of the tokens, said without the tokens -/

theorem tagNames_percent (t : List Char) :
    tagNames ('%' :: t) = t.takeWhile isTagLetter :: tagNames (t.dropWhile isTagLetter) := by
  simp [tagNames, tokenize_percent]

theorem tagNames_lit (c : Char) (t : List Char) (hc : c ≠ '%') :
    tagNames (c :: t) = tagNames t := by
  simp [tagNames, tokenize_lit c t hc]

theorem dropWhile_append_stop {α : Type} (p : α → Bool) (a : List α) (b : α) (c : List α)
    (hb : p b = false) : (a ++ b :: c).dropWhile p = a.dropWhile p ++ b :: c := by
  induction a with
  | nil => simp [List.dropWhile, hb]
  | cons x a ih =>
    by_cases hx : p x = true
    · simp [List.dropWhile, hx, ih]
    · simp [List.dropWhile, hx]

theorem takeWhile_append_stop {α : Type} (p : α → Bool) (a : List α) (b : α) (c : List α)
    (ha : ∀ x ∈ a, p x = true) (hb : p b = false) : (a ++ b :: c).takeWhile p = a := by
  induction a with
  | nil => simp [List.takeWhile, hb]
  | cons x a ih =>
    have hx : p x = true := ha x (by simp)
    simp [List.takeWhile, hx, ih (fun y hy => ha y (by simp [hy]))]

theorem dropWhile_append_all {α : Type} (p : α → Bool) (a : List α) (b : α) (c : List α)
    (ha : ∀ x ∈ a, p x = true) (hb : p b = false) : (a ++ b :: c).dropWhile p = b :: c := by
  rw [dropWhile_append_stop p a b c hb]
  have : a.dropWhile p = [] := by simpa using ha
  simp [this]

theorem mem_tagNames_of_split (n : Nat) :
    ∀ pre post : List Char, pre.length ≤ n →
      post.takeWhile isTagLetter ∈ tagNames (pre ++ '%' :: post) := by
  induction n with
  | zero =>
    intro pre post h
    have : pre = [] := by simpa using h
    subst this
    simp [tagNames_percent]
  | succ n ih =>
    intro pre post h
    cases pre with
    | nil => simp [tagNames_percent]
    | cons c pre =>
      have hlen : pre.length ≤ n := by simpa using h
      by_cases hc : c = '%'
      · subst hc
        have hp : isTagLetter '%' = false := by decide
        simp only [List.cons_append, tagNames_percent, dropWhile_append_stop _ _ _ _ hp]
        refine List.mem_cons_of_mem _ (ih _ post ?_)
        exact le_trans (List.dropWhile_sublist _).length_le hlen
      · simp only [List.cons_append, tagNames_lit _ _ hc]
        exact ih pre post hlen

theorem split_of_mem_tagNames (n : Nat) :
    ∀ (s name : List Char), s.length ≤ n → name ∈ tagNames s →
      ∃ pre post, s = pre ++ '%' :: post ∧ name = post.takeWhile isTagLetter := by
  induction n with
  | zero =>
    intro s name h hm
    have : s = [] := by simpa using h
    subst this
    simp [tagNames, tokenize] at hm
  | succ n ih =>
    intro s name h hm
    cases hmt : matchTag s with
    | none => simp [tagNames_of_no_match s hmt] at hm
    | some r =>
      obtain ⟨pre, tag, post⟩ := r
      obtain ⟨_, t, hs, htag, hpost⟩ := matchTag_some s pre tag post hmt
      have hl := matchTag_post_length s pre tag post hmt
      rw [tagNames_of_match s pre tag post hmt, List.mem_cons] at hm
      rcases hm with hm | hm
      · exact ⟨pre, t, hs, by rw [hm, htag]⟩
      · obtain ⟨pre2, post2, hp2, hn2⟩ := ih post name (by omega) hm
        refine ⟨pre ++ '%' :: (t.takeWhile isTagLetter ++ pre2), post2, ?_, hn2⟩
        have ht : t = t.takeWhile isTagLetter ++ t.dropWhile isTagLetter :=
          (List.takeWhile_append_dropWhile _ _).symm
        rw [hs]
        conv_lhs => rw [ht, ← hpost, hp2]
        simp

theorem mem_tagNames_iff (s name : List Char) :
    name ∈ tagNames s ↔
      ∃ pre post, s = pre ++ '%' :: post ∧ name = post.takeWhile isTagLetter := by
  constructor
  · exact split_of_mem_tagNames s.length s name (le_refl _)
  · rintro ⟨pre, post, rfl, rfl⟩
    exact mem_tagNames_of_split pre.length pre post (le_refl _)


/-! ## Lemmas on blocks -/

theorem matchBlock_none_of_braceFree (s : List Char) (h : BraceFree s) : matchBlock s = none := by
  induction s with
  | nil => rfl
  | cons c t ih =>
    have hc : c ≠ kOpen := (h c (by simp)).1
    have ht : BraceFree t := fun x hx => h x (by simp [hx])
    simp [matchBlock, matchBlockHere, hc, ih ht]

theorem isNotBrace_of_braceFree (c : List Char) (h : BraceFree c) :
    ∀ x ∈ c, isNotBrace x = true := by
  intro x hx
  have := h x hx
  simp [isNotBrace, this.1, this.2]

theorem matchBlock_single (c : List Char) (hne : c ≠ []) (h : BraceFree c) :
    matchBlock (kOpen :: (c ++ [kClose])) = some ([], c, []) := by
  have hstop : isNotBrace kClose = false := by decide
  have h1 := takeWhile_append_stop isNotBrace c kClose [] (isNotBrace_of_braceFree c h) hstop
  have h2 := dropWhile_append_all isNotBrace c kClose [] (isNotBrace_of_braceFree c h) hstop
  cases c with
  | nil => exact absurd rfl hne
  | cons x xs =>
    simp only [matchBlock, matchBlockHere, if_true, h1, h2]

theorem ParseBlockFuel_succ (tv : List Char → List Char) (n : Nat) (block : List Char)
    (have_tagdata : Bool) :
    ParseBlockFuel tv (n + 1) block have_tagdata =
      tagLoop tv
        ((blockLoop (ParseBlockFuel tv n) (block.length + 1) [] block have_tagdata).1.length + 1)
        [] (blockLoop (ParseBlockFuel tv n) (block.length + 1) [] block have_tagdata).1
        (blockLoop (ParseBlockFuel tv n) (block.length + 1) [] block have_tagdata).2 false :=
  rfl

theorem ParseBlockFuel_braceFree (tv : List Char → List Char) (n : Nat) (s : List Char)
    (have_tagdata : Bool) (h : BraceFree s) :
    ParseBlockFuel tv (n + 1) s have_tagdata =
      (substituteTags tv s,
        have_tagdata ||
          (tagNames s).any (fun name => kUniqueTags.contains name && !(tv name).isEmpty),
        (tagNames s).any (fun name => (tv name).isEmpty)) := by
  have hb : blockLoop (ParseBlockFuel tv n) (s.length + 1) [] s have_tagdata
      = (s, have_tagdata) := by
    simp [blockLoop, matchBlock_none_of_braceFree s h]
  rw [ParseBlockFuel_succ, hb]
  rw [tagLoop_spec tv _ [] s have_tagdata false (Nat.lt_succ_self _)]
  simp

theorem ParseBlock_braceFree (ext : External) (self : OrganizeFormat) (s : List Char)
    (song : Song) (have_tagdata : Bool) (h : BraceFree s) :
    self.ParseBlock ext s song have_tagdata =
      (substituteTags (fun tag => self.TagValue ext tag song) s,
        have_tagdata ||
          (tagNames s).any (fun name =>
            kUniqueTags.contains name && !(self.TagValue ext name song).isEmpty),
        (tagNames s).any (fun name => (self.TagValue ext name song).isEmpty)) := by
  unfold OrganizeFormat.ParseBlock
  exact ParseBlockFuel_braceFree _ _ s have_tagdata h


/-! ## Lemmas on numbers and on values -/

theorem digitChar_isDigit (d : Nat) (h : d < 10) : (Nat.digitChar d).isDigit = true := by
  interval_cases d <;> decide

theorem toDigitsCore_isDigit (f : Nat) :
    ∀ (n : Nat) (ds : List Char), (∀ c ∈ ds, c.isDigit = true) →
      ∀ c ∈ Nat.toDigitsCore 10 f n ds, c.isDigit = true := by
  induction f with
  | zero => intro n ds h; simpa [Nat.toDigitsCore] using h
  | succ f ih =>
    intro n ds h
    have hd : (Nat.digitChar (n % 10)).isDigit = true := digitChar_isDigit _ (Nat.mod_lt _ (by omega))
    have hds : ∀ c ∈ Nat.digitChar (n % 10) :: ds, c.isDigit = true := by
      intro c hc
      rcases List.mem_cons.1 hc with hc | hc
      · rw [hc]; exact hd
      · exact h c hc
    simp only [Nat.toDigitsCore]
    split
    · exact hds
    · exact ih _ _ hds

theorem toDigits_isDigit (n : Nat) : ∀ c ∈ Nat.toDigits 10 n, c.isDigit = true :=
  toDigitsCore_isDigit (n + 1) n [] (by simp)

theorem toDigitsCore_length (f : Nat) :
    ∀ (n : Nat) (ds : List Char), ds.length ≤ (Nat.toDigitsCore 10 f n ds).length := by
  induction f with
  | zero => intro n ds; simp [Nat.toDigitsCore]
  | succ f ih =>
    intro n ds
    simp only [Nat.toDigitsCore]
    split
    · simp
    · exact le_trans (by simp) (ih _ _)

theorem toDigits_length (n : Nat) (h : 10 ≤ n) : 2 ≤ (Nat.toDigits 10 n).length := by
  obtain ⟨m, rfl⟩ : ∃ m, n = m + 1 := ⟨n - 1, by omega⟩
  have h1 : ¬ ((m + 1) / 10 = 0) := by omega
  have h2 : Nat.toDigits 10 (m + 1) =
      Nat.toDigitsCore 10 (m + 1) ((m + 1) / 10) [Nat.digitChar ((m + 1) % 10)] := by
    simp [Nat.toDigits, Nat.toDigitsCore, h1]
  rw [h2]
  simp only [Nat.toDigitsCore]
  split
  · simp
  · exact le_trans (by simp) (toDigitsCore_length _ _ _)

theorem trimmed_of_no_space (s : List Char) (h : ∀ c ∈ s, isSpace c = false) : trimmed s = s := by
  have h1 : s.dropWhile isSpace = s := by
    cases s with
    | nil => rfl
    | cons c t => simp [List.dropWhile, h c (by simp)]
  unfold trimmed
  rw [h1, List.rdropWhile_eq_self_iff]
  intro hl
  simp [h _ (List.getLast_mem hl)]

theorem trimmed_nil : trimmed [] = [] := rfl

theorem isDigit_facts (c : Char) (h : c.isDigit = true) :
    isSpace c = false ∧ kInvalidDirCharacters c = false ∧ c ≠ '.' ∧ c ≠ '-' := by
  have h1 : 48 ≤ c.toNat ∧ c.toNat ≤ 57 := by
    simp only [Char.isDigit, Bool.and_eq_true, decide_eq_true_eq] at h
    have a := h.1
    have b := h.2
    simp only [UInt32.le_def, Fin.le_def] at a b
    exact ⟨a, b⟩
  refine ⟨?_, ?_, ?_, ?_⟩
  · simp only [isSpace, Bool.or_eq_false_iff, Bool.and_eq_false_iff, beq_eq_false_iff_ne,
      decide_eq_false_iff_not]
    omega
  · have e1 : c ≠ '/' := by
      rintro rfl
      have : ('/' : Char).toNat = 47 := by decide
      omega
    have e2 : c ≠ Char.ofNat 92 := by
      rintro rfl
      have : (Char.ofNat 92).toNat = 92 := by decide
      omega
    simp [kInvalidDirCharacters, e1, e2]
  · rintro rfl
    have : ('.' : Char).toNat = 46 := by decide
    omega
  · rintro rfl
    have : ('-' : Char).toNat = 45 := by decide
    omega

theorem TagValueDispatch_track (ext : External) (song : Song) :
    TagValueDispatch ext "track".toList song = QString_number song.track := rfl


/-! ## Lemmas for the worked example -/

theorem blockLoop_step (parse : List Char → Bool → List Char × Bool × Bool) (n : Nat)
    (done rest pre content post : List Char) (have_tagdata : Bool)
    (hm : matchBlock rest = some (pre, content, post)) :
    blockLoop parse (n + 1) done rest have_tagdata =
      blockLoop parse n
        (done ++ pre ++ (if (parse content have_tagdata).2.2 then []
          else (parse content have_tagdata).1))
        post (parse content have_tagdata).2.1 := by
  simp only [blockLoop, hm]

theorem blockLoop_stop (parse : List Char → Bool → List Char × Bool × Bool) (n : Nat)
    (done rest : List Char) (have_tagdata : Bool) (hm : matchBlock rest = none) :
    blockLoop parse (n + 1) done rest have_tagdata = (done ++ rest, have_tagdata) := by
  simp only [blockLoop, hm]

theorem TagValue_congr (ext ext2 : External) (self : OrganizeFormat) (tag : List Char)
    (song song2 : Song) (h : TagValueDispatch ext tag song = TagValueDispatch ext2 tag song2) :
    self.TagValue ext tag song = self.TagValue ext2 tag song2 := by
  unfold OrganizeFormat.TagValue
  rw [h]

theorem example_resolution (tv : List Char → List Char)
    (h1 : tv "albumartist".toList = "Pink Floyd".toList)
    (h2 : tv "album".toList = "The Wall".toList)
    (h3 : tv "track".toList = "03".toList)
    (h4 : tv "title".toList = "Comfortably Numb".toList) :
    ParseBlockFuel tv 36
        ("%albumartist/%album/".toList ++ kOpen :: ("%track ".toList ++ kClose :: "%title".toList))
        false =
      ("Pink Floyd/The Wall/03 Comfortably Numb".toList, true, false) := by
  have hm : matchBlock ("%albumartist/%album/".toList ++
        kOpen :: ("%track ".toList ++ kClose :: "%title".toList)) =
      some ("%albumartist/%album/".toList, "%track ".toList, "%title".toList) := by decide
  have hm2 : matchBlock "%title".toList = none := by decide
  have htok1 : tokenize "%track ".toList = [Token.tag "track".toList, Token.lit ' '] := by
    decide
  have htok2 : tokenize "%albumartist/%album/03 %title".toList =
      [Token.tag "albumartist".toList, Token.lit '/', Token.tag "album".toList, Token.lit '/',
        Token.lit '0', Token.lit '3', Token.lit ' ', Token.tag "title".toList] := by
    decide
  have hinner : ParseBlockFuel tv 35 "%track ".toList false = ("03 ".toList, true, false) := by
    rw [ParseBlockFuel_braceFree tv 34 _ false (by decide)]
    simp only [substituteTags, tagNames, htok1, List.flatMap_cons, List.flatMap_nil,
      List.filterMap_cons, List.filterMap_nil, List.any_cons, List.any_nil, h3]
    decide
  have hb : blockLoop (ParseBlockFuel tv 35) 36 []
      ("%albumartist/%album/".toList ++ kOpen :: ("%track ".toList ++ kClose :: "%title".toList))
      false = ("%albumartist/%album/03 %title".toList, true) := by
    rw [blockLoop_step _ 35 _ _ _ _ _ _ hm, hinner, blockLoop_stop _ 34 _ _ _ hm2]
    decide
  rw [ParseBlockFuel_succ]
  have hlen : ("%albumartist/%album/".toList ++
      kOpen :: ("%track ".toList ++ kClose :: "%title".toList)).length + 1 = 36 := by decide
  rw [hlen, hb, tagLoop_spec tv _ [] _ true false (Nat.lt_succ_self _)]
  simp only [substituteTags, tagNames, htok2, List.flatMap_cons, List.flatMap_nil,
    List.filterMap_cons, List.filterMap_nil, List.any_cons, List.any_nil, h1, h2, h4]
  decide


/-! ## Lemmas on the path -/

theorem fallbackPath_of_baseName (resolved : List Char) (song : Song)
    (h : QFileInfo.completeBaseName resolved ≠ []) : fallbackPath resolved song = resolved := by
  have hr : resolved ≠ [] := by
    rintro rfl
    exact h (by decide)
  simp [fallbackPath, hr, h]

theorem sanitize_plain (ext : External) (self : OrganizeFormat) (filepath : List Char)
    (h1 : self.remove_problematic_ = false) (h2 : self.remove_non_fat_ = false)
    (h3 : self.remove_non_ascii_ = false) :
    self.sanitize ext filepath = simplified filepath := by
  simp [OrganizeFormat.sanitize, h1, h2, h3]

theorem finish_of_extension (self : OrganizeFormat) (filepath : List Char) (song : Song)
    (extension : List Char) (unique_filename : Bool) (h : extension ≠ []) :
    self.finish filepath song extension unique_filename =
      { filename := self.finishPath filepath ++ '.' :: extension,
        unique_filename := unique_filename } := by
  simp [OrganizeFormat.finish, resolveExtension, h]


/-! ## Lemmas on the test of line 137 -/

theorem splitSlash_length (s : List Char) : (splitSlash s).length = s.count '/' + 1 := by
  induction s with
  | nil => rfl
  | cons c t ih =>
    by_cases hc : c = '/'
    · subst hc
      simp [splitSlash, ih]
    · have hc2 : ¬ (('/' : Char) = c) := fun h => hc h.symm
      cases hsp : splitSlash t with
      | nil => rw [hsp] at ih; simp at ih
      | cons part parts =>
        rw [hsp] at ih
        simp only [splitSlash, hc, if_false, hsp, List.length_cons]
        rw [List.count_cons_of_ne (Ne.symm hc)]
        simpa using ih

theorem splitSlash_of_no_slash (s : List Char) (h : '/' ∉ s) : splitSlash s = [s] := by
  induction s with
  | nil => rfl
  | cons c t ih =>
    have hc : c ≠ '/' := fun e => h (by simp [e])
    have ht : '/' ∉ t := fun e => h (by simp [e])
    simp [splitSlash, hc, ih ht]

theorem joinSlash_cons_cons (x y : List Char) (l : List (List Char)) :
    joinSlash (x :: y :: l) = x ++ '/' :: joinSlash (y :: l) := by
  simp [joinSlash, List.intercalate, List.intersperse]

theorem joinSlash_singleton (x : List Char) : joinSlash [x] = x := by
  simp [joinSlash, List.intercalate, List.intersperse]

theorem section_0_m2_eq_nil (p : List Char) (hs : '/' ∈ p) :
    section_0_m2 p = [] ↔ ∃ name, p = '/' :: name ∧ '/' ∉ name := by
  cases p with
  | nil => simp at hs
  | cons c t =>
    have hlen := splitSlash_length t
    by_cases hc : c = '/'
    · subst hc
      cases hsp : splitSlash t with
      | nil => rw [hsp] at hlen; simp at hlen
      | cons part parts =>
        rw [hsp] at hlen
        cases parts with
        | nil =>
          have hcount : t.count '/' = 0 := by simpa using hlen.symm
          have hno : '/' ∉ t := List.count_eq_zero.1 hcount
          simp [section_0_m2, splitSlash, hsp, joinSlash_singleton, hno]
        | cons part2 parts2 =>
          have hcount : 0 < t.count '/' := by
            simp only [List.length_cons] at hlen
            omega
          have hyes : '/' ∈ t := List.count_pos_iff.1 hcount
          have hd : ([] :: part :: part2 :: parts2).dropLast
              = [] :: (part :: part2 :: parts2).dropLast := by simp [List.dropLast]
          have hd2 : (part :: part2 :: parts2).dropLast = part :: (part2 :: parts2).dropLast := by
            simp [List.dropLast]
          simp [section_0_m2, splitSlash, hsp, hd, hd2, joinSlash_cons_cons, hyes]
    · have ht : '/' ∈ t := by
        rcases List.mem_cons.1 hs with h | h
        · exact absurd h.symm hc
        · exact h
      have hcount : 0 < t.count '/' := List.count_pos_iff.2 ht
      cases hsp : splitSlash t with
      | nil => rw [hsp] at hlen; simp at hlen
      | cons part parts =>
        rw [hsp] at hlen
        cases parts with
        | nil => simp at hlen; omega
        | cons part2 parts2 =>
          have hd : ((c :: part) :: part2 :: parts2).dropLast
              = (c :: part) :: (part2 :: parts2).dropLast := by simp [List.dropLast]
          have hne : ∀ l : List (List Char), joinSlash ((c :: part) :: l) ≠ [] := by
            intro l
            cases l with
            | nil => simp [joinSlash_singleton]
            | cons y l => simp [joinSlash_cons_cons]
          simp [section_0_m2, splitSlash, hc, hsp, hd, hne, Ne.symm hc]

theorem rejectedPath_iff (p : List Char) :
    rejectedPath p = true ↔ p = [] ∨ ∃ name, p = '/' :: name ∧ '/' ∉ name := by
  have hc : p.contains '/' = true ↔ '/' ∈ p := by simp
  by_cases hs : '/' ∈ p
  · have hne : p ≠ [] := by rintro rfl; simp at hs
    have := section_0_m2_eq_nil p hs
    simp only [rejectedPath, Bool.or_self, Bool.or_eq_true, Bool.and_eq_true, List.isEmpty_iff,
      hc, hs, true_and, hne, false_or]
    exact this
  · simp only [rejectedPath, Bool.or_self, Bool.or_eq_true, Bool.and_eq_true, List.isEmpty_iff,
      hc, hs, false_and, or_false]
    constructor
    · intro h; exact Or.inl h
    · rintro (h | ⟨name, h, _⟩)
      · exact h
      · exact absurd (by simp [h]) hs


/-! ## Lemmas on a plain file name -/

theorem isAlphanum_range (c : Char) (h : c.isAlphanum = true) :
    (65 ≤ c.toNat ∧ c.toNat ≤ 90) ∨ (97 ≤ c.toNat ∧ c.toNat ≤ 122) ∨
      (48 ≤ c.toNat ∧ c.toNat ≤ 57) := by
  simp only [Char.isAlphanum, Char.isAlpha, Char.isUpper, Char.isLower, Char.isDigit,
    Bool.or_eq_true, Bool.and_eq_true, decide_eq_true_eq, UInt32.le_def, Fin.le_def] at h
  rcases h with (h | h) | h
  · exact Or.inl h
  · exact Or.inr (Or.inl h)
  · exact Or.inr (Or.inr h)

theorem char_ne_of_toNat (c d : Char) (h : c.toNat ≠ d.toNat) : c ≠ d := by
  rintro rfl
  exact h rfl

theorem isAlphanum_facts (c : Char) (h : c.isAlphanum = true) :
    c ≠ '/' ∧ c ≠ '.' ∧ isSpace c = false ∧ isRegexSpace c = false ∧
      kProblematicCharacters c = false ∧ isFatCharacter c = true ∧ c.toNat < 128 := by
  have hr := isAlphanum_range c h
  have e : ∀ d : Char, (d.toNat < 48 ∨ (57 < d.toNat ∧ d.toNat < 65) ∨
      (90 < d.toNat ∧ d.toNat < 97) ∨ 122 < d.toNat) → c ≠ d := by
    intro d hd
    apply char_ne_of_toNat
    omega
  refine ⟨e _ (by decide), e _ (by decide), ?_, ?_, ?_, ?_, by omega⟩
  · simp only [isSpace, Bool.or_eq_false_iff, Bool.and_eq_false_iff, beq_eq_false_iff_ne,
      decide_eq_false_iff_not]
    omega
  · simp only [isRegexSpace, Bool.or_eq_false_iff, Bool.and_eq_false_iff, beq_eq_false_iff_ne,
      decide_eq_false_iff_not]
    omega
  · simp only [kProblematicCharacters, Bool.or_eq_false_iff, beq_eq_false_iff_ne]
    exact ⟨⟨⟨⟨⟨⟨e _ (by decide), e _ (by decide)⟩, e _ (by decide)⟩, e _ (by decide)⟩,
      e _ (by decide)⟩, e _ (by decide)⟩, e _ (by decide)⟩
  · simp [isFatCharacter, h]

theorem rdropWhile_append_stop {α : Type} (p : α → Bool) (a : List α) (b : α) (c : List α)
    (hc : ∀ x ∈ c, p x = true) (hb : p b = false) :
    (a ++ b :: c).rdropWhile p = a ++ [b] := by
  have h := dropWhile_append_all p c.reverse b a.reverse (by simpa using hc) hb
  simp only [List.rdropWhile, List.reverse_append, List.reverse_cons, List.append_assoc,
    List.singleton_append, h]
  simp

theorem simplifiedGo_of_no_space (s : List Char) (h : ∀ c ∈ s, isSpace c = false)
    (started : Bool) : simplifiedGo started false s = s := by
  induction s generalizing started with
  | nil => rfl
  | cons c t ih =>
    have hc := h c (by simp)
    simp [simplifiedGo, hc, ih (fun x hx => h x (by simp [hx]))]

theorem simplified_of_no_space (s : List Char) (h : ∀ c ∈ s, isSpace c = false) :
    simplified s = s :=
  simplifiedGo_of_no_space s h false

/-- The facts about a file name `name.sfx` made of ASCII letters and digits. -/
theorem plainName_facts (name sfx : List Char)
    (hn : ∀ c ∈ name, c.isAlphanum = true) (hs : ∀ c ∈ sfx, c.isAlphanum = true) :
    '/' ∉ name ++ '.' :: sfx ∧
      QFileInfo.fileName (name ++ '.' :: sfx) = name ++ '.' :: sfx ∧
      QFileInfo.completeBaseName (name ++ '.' :: sfx) = name ∧
      QFileInfo.completeSuffix (name ++ '.' :: sfx) = sfx ∧
      QFileInfo.path (name ++ '.' :: sfx) = ['.'] := by
  have hno : '/' ∉ name ++ '.' :: sfx := by
    intro hm
    rcases List.mem_append.1 hm with h | h
    · exact (isAlphanum_facts _ (hn _ h)).1 rfl
    · rcases List.mem_cons.1 h with h | h
      · revert h; decide
      · exact (isAlphanum_facts _ (hs _ h)).1 rfl
  have hfile : QFileInfo.fileName (name ++ '.' :: sfx) = name ++ '.' :: sfx := by
    unfold QFileInfo.fileName
    rw [List.rtakeWhile_eq_self_iff]
    intro x hx
    have : x ≠ '/' := fun e => hno (e ▸ hx)
    simpa using this
  have hdot : (name ++ '.' :: sfx).contains '.' = true := by simp
  have hp1 : ∀ x ∈ sfx, (fun c : Char => c != '.') x = true := by
    intro x hx
    simpa using (isAlphanum_facts _ (hs _ hx)).2.1
  have hp2 : ∀ x ∈ name, (fun c : Char => c != '.') x = true := by
    intro x hx
    simpa using (isAlphanum_facts _ (hn _ hx)).2.1
  have hp3 : (fun c : Char => c != '.') '.' = false := by decide
  refine ⟨hno, hfile, ?_, ?_, ?_⟩
  · unfold QFileInfo.completeBaseName
    simp only [hfile, hdot, if_true]
    rw [rdropWhile_append_stop _ name '.' sfx hp1 hp3]
    simp
  · unfold QFileInfo.completeSuffix
    simp only [hfile, hdot, if_true]
    rw [dropWhile_append_all _ name '.' sfx hp2 hp3]
    simp
  · have hne : (name ++ '.' :: sfx).isEmpty = false := by simp
    have hc : (name ++ '.' :: sfx).contains '/' = false := by
      simpa using hno
    unfold QFileInfo.path
    simp only [hne, hc, Bool.not_false, if_true, Bool.false_eq_true, if_false]


/-! ## Lemmas on `trimmed` -/

theorem trimmed_sublist (s : List Char) : (trimmed s).Sublist s :=
  (List.rdropWhile_prefix isSpace _).sublist.trans (List.dropWhile_sublist _)

theorem mem_of_mem_trimmed (s : List Char) (c : Char) (h : c ∈ trimmed s) : c ∈ s :=
  (trimmed_sublist s).subset h

theorem trimmed_last_not_space (s : List Char) (c : Char) (h : (trimmed s).getLast? = some c) :
    isSpace c = false := by
  have hne : trimmed s ≠ [] := by
    intro e
    rw [e] at h
    simp at h
  have hl := List.rdropWhile_last_not isSpace (s.dropWhile isSpace) hne
  rw [List.getLast?_eq_getLast _ hne, Option.some.injEq] at h
  have h2 : (List.rdropWhile isSpace (s.dropWhile isSpace)).getLast hne = c := h
  rw [h2] at hl
  simpa using hl

theorem trimmed_head_not_space (s : List Char) (c : Char) (h : (trimmed s).head? = some c) :
    isSpace c = false := by
  obtain ⟨t, ht⟩ := List.rdropWhile_prefix isSpace (s.dropWhile isSpace)
  have hne : trimmed s ≠ [] := by
    intro e
    rw [e] at h
    simp at h
  cases htr : trimmed s with
  | nil => exact absurd htr hne
  | cons x xs =>
    rw [htr] at h
    have hx : x = c := by simpa using h
    have hd : s.dropWhile isSpace = x :: (xs ++ t) := by
      have : List.rdropWhile isSpace (s.dropWhile isSpace) = x :: xs := htr
      rw [this] at ht
      simpa using ht.symm
    have hw : s.dropWhile isSpace ≠ [] := by rw [hd]; simp
    have := List.head_dropWhile_not isSpace s hw
    simp only [hd, List.head_cons] at this
    rw [← hx]
    simpa using this


theorem TagValue_eq_trimmed (ext : External) (self : OrganizeFormat) (tag : List Char)
    (song : Song) :
    ∃ v : List Char, self.TagValue ext tag song =
      trimmed (if self.remove_problematic_ = true then
          (v.filter fun c => !kInvalidDirCharacters c).filter fun c => c != '.'
        else v.filter fun c => !kInvalidDirCharacters c) :=
  ⟨_, rfl⟩


/-! ## Lemmas on the characters of the returned path -/

theorem mem_simplifiedGo (s : List Char) :
    ∀ (started gap : Bool) (c : Char), c ∈ simplifiedGo started gap s →
      c = ' ' ∨ (c ∈ s ∧ isSpace c = false) := by
  induction s with
  | nil => intro _ _ c h; simp [simplifiedGo] at h
  | cons x t ih =>
    intro started gap c h
    have lift : (c = ' ' ∨ (c ∈ t ∧ isSpace c = false)) →
        c = ' ' ∨ (c ∈ x :: t ∧ isSpace c = false) := by
      rintro (h1 | ⟨h1, h2⟩)
      · exact Or.inl h1
      · exact Or.inr ⟨List.mem_cons_of_mem _ h1, h2⟩
    by_cases hx : isSpace x = true
    · simp only [simplifiedGo, hx, if_true] at h
      exact lift (ih _ _ c h)
    · have hx2 : isSpace x = false := by simpa using hx
      by_cases hg : gap = true
      · simp only [simplifiedGo, hx, Bool.false_eq_true, if_false, hg, if_true, List.mem_cons] at h
        cases h with
        | inl h1 => exact Or.inl h1
        | inr h2 =>
          cases h2 with
          | inl h1 => exact Or.inr ⟨by simp [h1], by rw [h1]; exact hx2⟩
          | inr h1 => exact lift (ih _ _ c h1)
      · simp only [simplifiedGo, hx, Bool.false_eq_true, if_false, hg, List.mem_cons] at h
        cases h with
        | inl h1 => exact Or.inr ⟨by simp [h1], by rw [h1]; exact hx2⟩
        | inr h1 => exact lift (ih _ _ c h1)

theorem mem_simplified (s : List Char) (c : Char) (h : c ∈ simplified s) :
    c = ' ' ∨ (c ∈ s ∧ isSpace c = false) :=
  mem_simplifiedGo s false false c h

theorem mem_splitSlash (s : List Char) :
    ∀ part ∈ splitSlash s, ∀ c ∈ part, c ∈ s ∧ c ≠ '/' := by
  induction s with
  | nil =>
    intro part hp c hc
    simp only [splitSlash, List.mem_singleton] at hp
    rw [hp] at hc
    simp at hc
  | cons x t ih =>
    intro part hp c hc
    by_cases hx : x = '/'
    · simp only [splitSlash, hx, if_true, List.mem_cons] at hp
      rcases hp with hp | hp
      · rw [hp] at hc; simp at hc
      · have := ih part hp c hc
        exact ⟨List.mem_cons_of_mem _ this.1, this.2⟩
    · cases hsp : splitSlash t with
      | nil =>
        simp only [splitSlash, hx, if_false, hsp, List.mem_singleton] at hp
        rw [hp] at hc
        have hcx : c = x := by simpa using hc
        exact ⟨by simp [hcx], by rw [hcx]; exact hx⟩
      | cons p ps =>
        simp only [splitSlash, hx, if_false, hsp, List.mem_cons] at hp
        rw [hsp] at ih
        rcases hp with hp | hp
        · rw [hp] at hc
          rcases List.mem_cons.1 hc with hc | hc
          · exact ⟨by simp [hc], by rw [hc]; exact hx⟩
          · have := ih p (by simp) c hc
            exact ⟨List.mem_cons_of_mem _ this.1, this.2⟩
        · have := ih part (by simp [hp]) c hc
          exact ⟨List.mem_cons_of_mem _ this.1, this.2⟩

theorem mem_joinSlash (l : List (List Char)) (c : Char) (h : c ∈ joinSlash l) :
    c = '/' ∨ ∃ p ∈ l, c ∈ p := by
  induction l with
  | nil => simp [joinSlash, List.intercalate] at h
  | cons x rest ih =>
    cases rest with
    | nil =>
      rw [joinSlash_singleton] at h
      exact Or.inr ⟨x, by simp, h⟩
    | cons y l =>
      rw [joinSlash_cons_cons, List.mem_append, List.mem_cons] at h
      rcases h with h | h | h
      · exact Or.inr ⟨x, by simp, h⟩
      · exact Or.inl h
      · rcases ih h with h1 | ⟨p, hp, hc⟩
        · exact Or.inl h1
        · exact Or.inr ⟨p, List.mem_cons_of_mem _ hp, hc⟩

theorem mem_fixPart (part : List Char) (c : Char) (h : c ∈ fixPart part) : c ∈ part := by
  unfold fixPart at h
  have h1 := mem_of_mem_trimmed _ _ h
  split at h1
  · exact List.mem_of_mem_drop h1
  · exact h1

theorem mem_fileName (p : List Char) (c : Char) (h : c ∈ QFileInfo.fileName p) : c ∈ p :=
  (List.rtakeWhile_suffix _ _).subset h

theorem mem_completeBaseName (p : List Char) (c : Char)
    (h : c ∈ QFileInfo.completeBaseName p) : c ∈ p := by
  unfold QFileInfo.completeBaseName at h
  simp only at h
  split at h
  · exact mem_fileName p c
      ((List.rdropWhile_prefix _ _).subset ((List.dropLast_sublist _).subset h))
  · exact mem_fileName p c h

theorem path_cases (p : List Char) :
    QFileInfo.path p = [] ∨ QFileInfo.path p = ['.'] ∨ QFileInfo.path p = ['/'] ∨
      QFileInfo.path p = (p.rdropWhile fun c => c != '/').dropLast := by
  unfold QFileInfo.path
  simp only
  split
  · exact Or.inl rfl
  · split
    · exact Or.inr (Or.inl rfl)
    · split
      · exact Or.inr (Or.inr (Or.inl rfl))
      · exact Or.inr (Or.inr (Or.inr rfl))

theorem mem_path (p : List Char) (c : Char) (h : c ∈ QFileInfo.path p) :
    c ∈ p ∨ c = '/' ∨ QFileInfo.path p = ['.'] := by
  rcases path_cases p with h1 | h1 | h1 | h1
  · rw [h1] at h; simp at h
  · exact Or.inr (Or.inr h1)
  · rw [h1] at h
    exact Or.inr (Or.inl (by simpa using h))
  · rw [h1] at h
    exact Or.inl ((List.rdropWhile_prefix _ _).subset ((List.dropLast_sublist _).subset h))

theorem mem_finishPath (self : OrganizeFormat) (p : List Char) (c : Char)
    (h : c ∈ self.finishPath p) : c ∈ p ∨ c = '/' ∨ c = '_' := by
  unfold OrganizeFormat.finishPath at h
  simp only at h
  have key : ∀ d, d ∈ joinSlash ((splitSlash
      ((if (!(QFileInfo.path p).isEmpty && QFileInfo.path p != ['.']) = true
          then QFileInfo.path p ++ ['/'] else []) ++ QFileInfo.completeBaseName p)).map fixPart) →
      d ∈ p ∨ d = '/' := by
    intro d hd
    rcases mem_joinSlash _ _ hd with hd | ⟨part, hpart, hd⟩
    · exact Or.inr hd
    · obtain ⟨q, hq, rfl⟩ := List.mem_map.1 hpart
      have hdq := (mem_splitSlash _ q hq d (mem_fixPart q d hd)).1
      rcases List.mem_append.1 hdq with hdq | hdq
      · split at hdq
        · rename_i hcond
          rcases List.mem_append.1 hdq with hdq | hdq
          · rcases mem_path p d hdq with h1 | h1 | h1
            · exact Or.inl h1
            · exact Or.inr h1
            · simp [h1] at hcond
          · exact Or.inr (by simpa using hdq)
        · simp at hdq
      · exact Or.inl (mem_completeBaseName p d hdq)
  split at h
  · obtain ⟨d, hd, hdc⟩ := List.mem_map.1 h
    by_cases hs : isRegexSpace d = true
    · rw [if_pos hs] at hdc
      exact Or.inr (Or.inr hdc.symm)
    · rw [if_neg hs] at hdc
      rw [← hdc]
      rcases key d hd with h1 | h1
      · exact Or.inl h1
      · exact Or.inr (Or.inl h1)
  · rcases key c h with h1 | h1
    · exact Or.inl h1
    · exact Or.inr (Or.inl h1)

theorem mem_stripNonAscii (ext : External) (ascii : Nat) (a c : Char)
    (h : c ∈ stripNonAscii ext ascii a) : c.toNat < ascii := by
  unfold stripNonAscii at h
  split at h
  · rename_i ha
    have : c = a := by simpa using h
    rw [this]; exact ha
  · split at h
    · simp at h
    · split at h
      · rename_i hd
        rw [List.mem_singleton.1 h]; exact hd
      · simp at h


/-! ## Lemmas on the FAT-safe class and on the stages of `sanitize` -/

theorem isAlphanum_lt (c : Char) (h : c.isAlphanum = true) : c.toNat < 128 := by
  have hr := isAlphanum_range c h
  omega

theorem isFatSafe_lt (c : Char) (h : isFatSafe c = true) : c.toNat < 128 := by
  simp only [isFatSafe, Bool.or_eq_true, beq_iff_eq] at h
  casesm* _ ∨ _
  all_goals first
    | (subst_vars; decide)
    | exact isAlphanum_lt c ‹_›

theorem sanitize_ascii (ext : External) (self : OrganizeFormat) (p : List Char)
    (h : self.remove_non_ascii_ = true) :
    ∃ t : List Char, self.sanitize ext p =
      simplified (t.flatMap
        (stripNonAscii ext (if self.allow_ascii_ext_ = true then 255 else 128))) := by
  unfold OrganizeFormat.sanitize
  simp only [h, if_true]
  exact ⟨_, rfl⟩

theorem isPlainCharacter_facts (c : Char) (h : isPlainCharacter c = true) :
    isFatSafe c = true ∧ c ≠ ' ' ∧ c ≠ '.' ∧ c ≠ '/' := by
  simpa [isPlainCharacter, and_assoc] using h

theorem isFatSafe_facts (c : Char) (h : isFatSafe c = true) :
    kProblematicCharacters c = false ∧ isFatCharacter c = true ∧ c.toNat < 128 ∧
      (c ≠ ' ' → isSpace c = false ∧ isRegexSpace c = false) := by
  have hlt := isFatSafe_lt c h
  refine ⟨?_, ?_, hlt, fun hsp => ?_⟩
  · simp only [isFatSafe, Bool.or_eq_true, beq_iff_eq] at h
    casesm* _ ∨ _
    all_goals first
      | (subst_vars; decide)
      | exact (isAlphanum_facts c ‹_›).2.2.2.2.1
  · simp only [isFatSafe, Bool.or_eq_true, beq_iff_eq] at h
    simp only [isFatCharacter, Bool.or_eq_true, beq_iff_eq]
    casesm* _ ∨ _
    all_goals simp [*]
  · simp only [isFatSafe, Bool.or_eq_true, beq_iff_eq] at h
    casesm* _ ∨ _
    all_goals first
      | exact absurd ‹c = ' '› hsp
      | (subst_vars; decide)
      | exact ⟨(isAlphanum_facts c ‹_›).2.2.1, (isAlphanum_facts c ‹_›).2.2.2.1⟩

theorem sanitize_of_clean (ext : External) (self : OrganizeFormat) (s : List Char)
    (hclean : ∀ c ∈ s, isSpace c = false ∧ kProblematicCharacters c = false ∧
      isFatCharacter c = true ∧ c.toNat < 128)
    (ht : ext.Transliterate s = s) : self.sanitize ext s = s := by
  have hf1 : s.filter (fun c => !kProblematicCharacters c) = s := by
    rw [List.filter_eq_self]
    intro c hc
    simp [(hclean c hc).2.1]
  have hf2 : s.filter isFatCharacter = s := by
    rw [List.filter_eq_self]
    intro c hc
    exact (hclean c hc).2.2.1
  have hf3 : ∀ ascii : Nat, 128 ≤ ascii → s.flatMap (stripNonAscii ext ascii) = s := by
    intro ascii ha
    have : ∀ l : List Char, (∀ c ∈ l, c.toNat < 128) →
        l.flatMap (stripNonAscii ext ascii) = l := by
      intro l
      induction l with
      | nil => intro _; rfl
      | cons c t ih =>
        intro hl
        have hc : c.toNat < ascii := lt_of_lt_of_le (hl c (by simp)) ha
        simp [List.flatMap_cons, stripNonAscii, hc, ih (fun x hx => hl x (by simp [hx]))]
    exact this _ (fun c hc => (hclean c hc).2.2.2)
  have hsimp : simplified s = s := simplified_of_no_space _ (fun c hc => (hclean c hc).1)
  unfold OrganizeFormat.sanitize
  cases self.remove_problematic_ <;> cases self.remove_non_fat_ <;>
    cases self.remove_non_ascii_ <;> cases self.allow_ascii_ext_ <;>
    simp [hf1, hf2, hf3, ht, hsimp]

theorem rtakeWhile_append_stop {α : Type} (p : α → Bool) (a : List α) (b : α) (c : List α)
    (hc : ∀ x ∈ c, p x = true) (hb : p b = false) : (a ++ b :: c).rtakeWhile p = c := by
  have h := takeWhile_append_stop p c.reverse b a.reverse (by simpa using hc) hb
  simp only [List.rtakeWhile, List.reverse_append, List.reverse_cons, List.append_assoc,
    List.singleton_append, h]
  simp

theorem joinSlash_cons_head (c : Char) (p : List Char) (ps : List (List Char)) :
    joinSlash ((c :: p) :: ps) = c :: joinSlash (p :: ps) := by
  cases ps with
  | nil => simp [joinSlash_singleton]
  | cons y l => simp [joinSlash_cons_cons]

theorem joinSlash_splitSlash (s : List Char) : joinSlash (splitSlash s) = s := by
  induction s with
  | nil => rfl
  | cons c t ih =>
    by_cases hc : c = '/'
    · cases hsp : splitSlash t with
      | nil =>
        have := splitSlash_length t
        rw [hsp] at this
        simp at this
      | cons y l =>
        rw [hsp] at ih
        simp [splitSlash, hc, hsp, joinSlash_cons_cons, ih]
    · cases hsp : splitSlash t with
      | nil =>
        have := splitSlash_length t
        rw [hsp] at this
        simp at this
      | cons y l =>
        rw [hsp] at ih
        simp [splitSlash, hc, hsp, joinSlash_cons_head, ih]

theorem fixPart_of_plain (part : List Char)
    (h : ∀ c ∈ part, c ≠ '.' ∧ isSpace c = false) : fixPart part = part := by
  have htr : trimmed part = part := trimmed_of_no_space _ (fun c hc => (h c hc).2)
  cases part with
  | nil => rfl
  | cons c t =>
    have hc : c ≠ '.' := (h c (by simp)).1
    simp [fixPart, kInvalidPrefixCharacters, hc, htr]

theorem fixParts_of_plain (s : List Char)
    (h : ∀ c ∈ s, c ≠ '.' ∧ isSpace c = false) :
    joinSlash ((splitSlash s).map fixPart) = s := by
  have : (splitSlash s).map fixPart = splitSlash s := by
    conv_rhs => rw [← List.map_id (splitSlash s)]
    apply List.map_congr_left
    intro part hp
    exact fixPart_of_plain part (fun c hc => h c (mem_splitSlash s part hp c hc).1)
  rw [this, joinSlash_splitSlash]

theorem map_replace_of_no_space (s : List Char) (h : ∀ c ∈ s, isRegexSpace c = false) :
    s.map (fun c => if isRegexSpace c = true then '_' else c) = s := by
  induction s with
  | nil => rfl
  | cons c t ih => simp [h c (by simp), ih (fun x hx => h x (by simp [hx]))]

/-- The parts of `QFileInfo` for a path `pre ++ name ++ '.' :: sfx`, where `pre`
is empty or ends with a slash and `name` and `sfx` have no slash and no dot. -/
theorem plainPath_facts (pre name sfx : List Char)
    (hpre : pre = [] ∨ ∃ d, d ≠ [] ∧ d ≠ ['.'] ∧ pre = d ++ ['/'])
    (hn : ∀ c ∈ name, c ≠ '/' ∧ c ≠ '.') (hs : ∀ c ∈ sfx, c ≠ '/' ∧ c ≠ '.') :
    QFileInfo.completeBaseName (pre ++ (name ++ '.' :: sfx)) = name ∧
      QFileInfo.completeSuffix (pre ++ (name ++ '.' :: sfx)) = sfx ∧
      (if (!(QFileInfo.path (pre ++ (name ++ '.' :: sfx))).isEmpty &&
            QFileInfo.path (pre ++ (name ++ '.' :: sfx)) != ['.']) = true
        then QFileInfo.path (pre ++ (name ++ '.' :: sfx)) ++ ['/'] else []) = pre := by
  have hfile_no : '/' ∉ name ++ '.' :: sfx := by
    intro hm
    rcases List.mem_append.1 hm with h | h
    · exact (hn _ h).1 rfl
    · rcases List.mem_cons.1 h with h | h
      · revert h; decide
      · exact (hs _ h).1 rfl
  have hq : ∀ x ∈ name ++ '.' :: sfx, (fun c : Char => c != '/') x = true := by
    intro x hx
    have : x ≠ '/' := fun e => hfile_no (e ▸ hx)
    simpa using this
  have hq2 : (fun c : Char => c != '/') '/' = false := by decide
  have hfile : QFileInfo.fileName (pre ++ (name ++ '.' :: sfx)) = name ++ '.' :: sfx := by
    unfold QFileInfo.fileName
    rcases hpre with h | ⟨d, _, _, h⟩
    · rw [h, List.nil_append, List.rtakeWhile_eq_self_iff]
      exact hq
    · rw [h, List.append_assoc, List.singleton_append]
      exact rtakeWhile_append_stop _ d '/' _ hq hq2
  have hdot : (name ++ '.' :: sfx).contains '.' = true := by simp
  have hp1 : ∀ x ∈ sfx, (fun c : Char => c != '.') x = true := by
    intro x hx
    simpa using (hs _ hx).2
  have hp2 : ∀ x ∈ name, (fun c : Char => c != '.') x = true := by
    intro x hx
    simpa using (hn _ hx).2
  have hp3 : (fun c : Char => c != '.') '.' = false := by decide
  refine ⟨?_, ?_, ?_⟩
  · unfold QFileInfo.completeBaseName
    simp only [hfile, hdot, if_true]
    rw [rdropWhile_append_stop _ name '.' sfx hp1 hp3]
    simp
  · unfold QFileInfo.completeSuffix
    simp only [hfile, hdot, if_true]
    rw [dropWhile_append_all _ name '.' sfx hp2 hp3]
    simp
  · rcases hpre with h | ⟨d, hd1, hd2, h⟩
    · have hne : (name ++ '.' :: sfx).isEmpty = false := by simp
      have hc : (name ++ '.' :: sfx).contains '/' = false := by simpa using hfile_no
      have hpath : QFileInfo.path (name ++ '.' :: sfx) = ['.'] := by
        unfold QFileInfo.path
        simp only [hne, hc, Bool.not_false, if_true, Bool.false_eq_true, if_false]
      rw [h, List.nil_append, hpath]
      decide
    · have hne : (d ++ '/' :: (name ++ '.' :: sfx)).isEmpty = false := by simp
      have hc : (d ++ '/' :: (name ++ '.' :: sfx)).contains '/' = true := by simp
      have hdrop : (d ++ '/' :: (name ++ '.' :: sfx)).rdropWhile (fun c => c != '/')
          = d ++ ['/'] := rdropWhile_append_stop _ d '/' _ hq hq2
      have hdne : d.isEmpty = false := by simpa using hd1
      have hpath : QFileInfo.path (d ++ '/' :: (name ++ '.' :: sfx)) = d := by
        unfold QFileInfo.path
        simp only [hne, hc, hdrop, List.dropLast_concat, hdne, Bool.not_true,
          Bool.false_eq_true, if_false]
      rw [h, List.append_assoc, List.singleton_append, hpath]
      have : (!d.isEmpty && d != ['.']) = true := by simp [hdne, hd2]
      rw [if_pos this]


/-! ## Lemmas on the initial of the artist -/

theorem isSpace_of_isRegexSpace (c : Char) (h : isRegexSpace c = true) : isSpace c = true := by
  simp only [isRegexSpace, Bool.or_eq_true, Bool.and_eq_true, beq_iff_eq,
    decide_eq_true_eq] at h
  simp only [isSpace, Bool.or_eq_true, Bool.and_eq_true, beq_iff_eq, decide_eq_true_eq]
  omega

theorem removeLeadingThe_ne_nil (t : List Char) (hne : t ≠ [])
    (hlast : isSpace (t.getLast hne) = false) : removeLeadingThe t ≠ [] := by
  unfold removeLeadingThe
  split
  · rename_i a b c d rest
    split
    · rename_i hcond
      intro hnil
      have hall : ∀ x ∈ rest, isRegexSpace x = true := by simpa using hnil
      have hmem : (a :: b :: c :: d :: rest).getLast hne ∈ d :: rest := by
        have : (a :: b :: c :: d :: rest).getLast hne = (d :: rest).getLast (by simp) := by
          simp [List.getLast_cons]
        rw [this]
        exact List.getLast_mem _
      have hsp : isRegexSpace ((a :: b :: c :: d :: rest).getLast hne) = true := by
        rcases List.mem_cons.1 hmem with h | h
        · rw [h]; exact hcond.2.2.2
        · exact hall _ h
      rw [isSpace_of_isRegexSpace _ hsp] at hlast
      cases hlast
    · exact hne
  · exact hne

theorem trimmed_getLast_not_space (s : List Char) (hne : trimmed s ≠ []) :
    isSpace ((trimmed s).getLast hne) = false :=
  trimmed_last_not_space s _ (List.getLast?_eq_getLast _ hne)

theorem TagValueDispatch_artistinitial (ext : External) (song : Song) :
    TagValueDispatch ext "artistinitial".toList song =
      if (trimmed song.effective_albumartist).isEmpty then []
      else
        match removeLeadingThe (trimmed song.effective_albumartist) with
        | [] => []
        | c :: _ => [firstUnitUpper ext c] := by
  have h : TagValueDispatch ext "artistinitial".toList song =
      (let value := trimmed song.effective_albumartist
       if !value.isEmpty then
        match removeLeadingThe value with
        | [] => []
        | c :: _ => [firstUnitUpper ext c]
       else value) := rfl
  rw [h]
  by_cases he : trimmed song.effective_albumartist = []
  · simp [he]
  · simp [he]

theorem TagValue_of_single (ext : External) (self : OrganizeFormat) (song : Song) (u : Char)
    (h : TagValueDispatch ext "artistinitial".toList song = [u]) :
    self.TagValue ext "artistinitial".toList song =
      if u = '0' ∨ kInvalidDirCharacters u = true ∨
          (self.remove_problematic_ = true ∧ u = '.') ∨ isSpace u = true then []
      else [u] := by
  have htrack : ¬ ("artistinitial".toList = "track".toList) := by decide
  unfold OrganizeFormat.TagValue
  simp only [h]
  by_cases h0 : u = '0'
  · subst h0
    cases self.remove_problematic_ <;> simp [trimmed_nil]
  · have hz : ¬ ([u] = "0".toList ∨ [u] = "-1".toList) := by
      rintro (e | e)
      · exact h0 (by simpa using e)
      · simp at e
    simp only [hz, if_false, htrack, false_and, h0, false_or]
    by_cases hd : kInvalidDirCharacters u = true
    · cases self.remove_problematic_ <;> simp [List.filter, hd, trimmed_nil]
    · have hd2 : kInvalidDirCharacters u = false := by simpa using hd
      by_cases hdot : u = '.'
      · subst hdot
        cases hrp : self.remove_problematic_
        · have : isSpace '.' = false := by decide
          simp [List.filter, hd2, trimmed_of_no_space ['.'] (by simp [this]), this]
        · simp [List.filter, hd2, trimmed_nil]
      · by_cases hsp : isSpace u = true
        · have htr : trimmed [u] = [] := by
            simp [trimmed, List.dropWhile, hsp, List.rdropWhile]
          cases self.remove_problematic_ <;> simp [List.filter, hd2, hdot, hsp, htr]
        · have hsp2 : isSpace u = false := by simpa using hsp
          have htr : trimmed [u] = [u] := trimmed_of_no_space [u] (by simp [hsp2])
          cases self.remove_problematic_ <;> simp [List.filter, hd2, hdot, hsp2, htr]

theorem highSurrogate_range (c : Char) (h : 0x10000 ≤ c.toNat) :
    0xd800 ≤ highSurrogate c ∧ highSurrogate c ≤ 0xdbff := by
  have hv : c.toNat < 0x110000 := by
    have := c.valid
    have hn : c.toNat = c.val.toNat := rfl
    rw [hn]
    rcases this with h1 | ⟨_, h2⟩
    · exact lt_trans h1 (by decide)
    · exact h2
  unfold highSurrogate
  omega

theorem firstUnitUpper_facts (ext : External) :
    (∀ c : Char, c.toNat < 0x10000 → firstUnitUpper ext c = toUpper ext c) ∧
      (∀ c : Char, 0x10000 ≤ c.toNat → firstUnitUpper ext c = ext.unpaired (highSurrogate c)) := by
  refine ⟨fun c h => ?_, fun c h => ?_⟩
  · simp [firstUnitUpper, h]
  · have hn : ¬ c.toNat < 0x10000 := by omega
    simp [firstUnitUpper, hn]

/-! ## Lemmas on templates whose blocks are not nested -/

theorem braceDepth_append (a b : List Char) :
    braceDepth (a ++ b) = braceDepth a + braceDepth b := by
  induction a with
  | nil => simp [braceDepth_nil]
  | cons c t ih =>
    rw [List.cons_append, braceDepth_cons, braceDepth_cons, ih]
    omega

theorem braceDepth_of_braceFree (s : List Char) (h : BraceFree s) : braceDepth s = 0 := by
  induction s with
  | nil => exact braceDepth_nil
  | cons c t ih =>
    have hc := h c (by simp)
    rw [braceDepth_cons, ih (fun x hx => h x (by simp [hx]))]
    simp [hc.1, hc.2]

theorem braceFree_iff_isNotBrace (s : List Char) :
    BraceFree s ↔ ∀ c ∈ s, isNotBrace c = true := by
  constructor
  · exact isNotBrace_of_braceFree s
  · intro h c hc
    have := h c hc
    simpa [isNotBrace, not_or] using this

theorem braceFree_append {a b : List Char} (ha : BraceFree a) (hb : BraceFree b) :
    BraceFree (a ++ b) := by
  intro c hc
  rcases List.mem_append.1 hc with h | h
  · exact ha c h
  · exact hb c h

theorem hasEmptyBlock_append_right (a b : List Char) (h : hasEmptyBlock (a ++ b) = false) :
    hasEmptyBlock b = false := by
  induction a with
  | nil => simpa using h
  | cons x t ih =>
    apply ih
    cases htb : t ++ b with
    | nil => rfl
    | cons y u =>
      rw [List.cons_append, htb] at h
      simp only [hasEmptyBlock, Bool.or_eq_false_iff] at h
      exact h.2

theorem hasEmptyBlock_of_empty_block (pre post : List Char) :
    hasEmptyBlock (pre ++ kOpen :: kClose :: post) = true := by
  induction pre with
  | nil => simp [hasEmptyBlock]
  | cons x t ih =>
    cases htb : t ++ kOpen :: kClose :: post with
    | nil => simp at htb
    | cons y u =>
      rw [htb] at ih
      rw [List.cons_append, htb]
      simp [hasEmptyBlock, ih]

theorem matchBlock_append (pre s : List Char) (h : BraceFree pre) :
    matchBlock (pre ++ s) = (matchBlock s).map fun r => (pre ++ r.1, r.2.1, r.2.2) := by
  induction pre with
  | nil =>
    rw [List.nil_append]
    cases matchBlock s <;> simp
  | cons c t ih =>
    have hc : c ≠ kOpen := (h c (by simp)).1
    have ht : BraceFree t := fun x hx => h x (by simp [hx])
    rw [List.cons_append]
    simp only [matchBlock, matchBlockHere, hc, if_false, ih ht]
    cases matchBlock s <;> simp

theorem matchBlock_block (c post : List Char) (hne : c ≠ []) (h : BraceFree c) :
    matchBlock (kOpen :: (c ++ kClose :: post)) = some ([], c, post) := by
  have hstop : isNotBrace kClose = false := by decide
  have h1 := takeWhile_append_stop isNotBrace c kClose post (isNotBrace_of_braceFree c h) hstop
  have h2 := dropWhile_append_all isNotBrace c kClose post (isNotBrace_of_braceFree c h) hstop
  cases c with
  | nil => exact absurd rfl hne
  | cons x xs =>
    simp only [matchBlock, matchBlockHere, if_true, h1, h2]

theorem first_brace (s : List Char) (h : ¬ BraceFree s) :
    ∃ pre b t, s = pre ++ b :: t ∧ BraceFree pre ∧ (b = kOpen ∨ b = kClose) := by
  induction s with
  | nil => exact absurd (fun c hc => absurd hc (List.not_mem_nil c)) h
  | cons x t ih =>
    by_cases hx : x = kOpen ∨ x = kClose
    · exact ⟨[], x, t, rfl, fun c hc => absurd hc (List.not_mem_nil c), hx⟩
    · have ht : ¬ BraceFree t := by
        intro hf
        apply h
        intro c hc
        rcases List.mem_cons.1 hc with e | e
        · rw [e]; exact ⟨fun e1 => hx (Or.inl e1), fun e2 => hx (Or.inr e2)⟩
        · exact hf c e
      obtain ⟨pre, b, u, hu, hpre, hb⟩ := ih ht
      refine ⟨x :: pre, b, u, by rw [hu]; rfl, ?_, hb⟩
      intro c hc
      rcases List.mem_cons.1 hc with e | e
      · rw [e]; exact ⟨fun e1 => hx (Or.inl e1), fun e2 => hx (Or.inr e2)⟩
      · exact hpre c e

/-- A text with balanced braces of depth at most 1 and without empty block has
no brace, or starts with a text without brace, a block with a content without
brace and not empty, and a rest of the same kind. -/
theorem flat_decomposition (s : List Char) (hbal : BracesBalanced s)
    (hne : hasEmptyBlock s = false) :
    BraceFree s ∨ ∃ pre c post, s = pre ++ kOpen :: (c ++ kClose :: post) ∧ BraceFree pre ∧
      BraceFree c ∧ c ≠ [] ∧ BracesBalanced post ∧ hasEmptyBlock post = false := by
  by_cases hfree : BraceFree s
  · exact Or.inl hfree
  · right
    have hdepth_open : braceDepth [kOpen] = 1 := by decide
    have hdepth_close : braceDepth [kClose] = -1 := by decide
    obtain ⟨pre, b, t, rfl, hpre, hb⟩ := first_brace s hfree
    have hd1 := hbal.1 (pre.length + 1) (by simp)
    rw [List.take_append, List.take_succ_cons, List.take_zero, braceDepth_append,
      braceDepth_of_braceFree _ hpre] at hd1
    have hbo : b = kOpen := by
      rcases hb with h | h
      · exact h
      · rw [h, hdepth_close] at hd1
        omega
    subst hbo
    by_cases htfree : BraceFree t
    · have := hbal.2
      rw [braceDepth_append, braceDepth_of_braceFree _ hpre,
        show kOpen :: t = [kOpen] ++ t from rfl, braceDepth_append, hdepth_open,
        braceDepth_of_braceFree _ htfree] at this
      omega
    · obtain ⟨c, d, post, rfl, hc, hd⟩ := first_brace t htfree
      have hw : pre ++ kOpen :: (c ++ d :: post) = (pre ++ kOpen :: (c ++ [d])) ++ post := by
        simp
      have hdep : braceDepth (pre ++ kOpen :: (c ++ [d])) = 1 + braceDepth [d] := by
        rw [braceDepth_append, braceDepth_of_braceFree _ hpre,
          show kOpen :: (c ++ [d]) = [kOpen] ++ (c ++ [d]) from rfl,
          braceDepth_append, braceDepth_append, hdepth_open, braceDepth_of_braceFree _ hc]
        omega
      rw [hw] at hbal hne
      have hd3 := hbal.1 (pre ++ kOpen :: (c ++ [d])).length (by simp)
      rw [List.take_left' rfl, hdep] at hd3
      have hdc : d = kClose := by
        rcases hd with h | h
        · rw [h, hdepth_open] at hd3
          omega
        · exact h
      subst hdc
      rw [hdepth_close] at hdep
      refine ⟨pre, c, post, rfl, hpre, hc, ?_, ?_, hasEmptyBlock_append_right _ _ hne⟩
      · intro hnil
        rw [← hw, hnil, List.nil_append, hasEmptyBlock_of_empty_block] at hne
        cases hne
      · constructor
        · intro k hk
          have := hbal.1 ((pre ++ kOpen :: (c ++ [kClose])).length + k) (by
            simp only [List.length_append]
            omega)
          rw [List.take_append, braceDepth_append, hdep] at this
          constructor <;> omega
        · have := hbal.2
          rw [braceDepth_append, hdep] at this
          omega


/-! ## Lemmas on the resolution of blocks that are not nested -/

theorem substituteTags_braceFree (tv : List Char → List Char)
    (htv : ∀ tag, BraceFree (tv tag)) (n : Nat) :
    ∀ s : List Char, s.length ≤ n → BraceFree s → BraceFree (substituteTags tv s) := by
  induction n with
  | zero =>
    intro s hlen _
    have : s = [] := by simpa using hlen
    subst this
    intro c hc
    simp [substituteTags, tokenize] at hc
  | succ n ih =>
    intro s hlen hs
    cases hm : matchTag s with
    | none => rw [substituteTags_of_no_match tv s hm]; exact hs
    | some r =>
      obtain ⟨pre, tag, post⟩ := r
      obtain ⟨_, t, hst, _, hpost⟩ := matchTag_some s pre tag post hm
      have hl := matchTag_post_length s pre tag post hm
      rw [substituteTags_of_match tv s pre tag post hm]
      have hpre : BraceFree pre := fun c hc => hs c (by rw [hst]; simp [hc])
      have hpostf : BraceFree post := by
        intro c hc
        apply hs c
        rw [hst]
        have : c ∈ t := by
          rw [hpost] at hc
          exact (List.dropWhile_sublist _).subset hc
        simp [this]
      exact braceFree_append (braceFree_append hpre (htv tag)) (ih post (by omega) hpostf)

theorem blockLoop_flat (parse : List Char → Bool → List Char × Bool × Bool)
    (hparse : ∀ c h, BraceFree c → BraceFree (parse c h).1) (n : Nat) :
    ∀ (rest : List Char), rest.length < n → BracesBalanced rest → hasEmptyBlock rest = false →
      ∀ (done : List Char) (have_tagdata : Bool), BraceFree done →
        BraceFree (blockLoop parse n done rest have_tagdata).1 := by
  induction n with
  | zero => intro rest h; simp at h
  | succ n ih =>
    intro rest hlen hbal hne done have_tagdata hdone
    rcases flat_decomposition rest hbal hne with hfree | ⟨pre, c, post, rfl, hpre, hc, hcne, hbal2, hne2⟩
    · rw [blockLoop_stop parse n done rest have_tagdata (matchBlock_none_of_braceFree rest hfree)]
      exact braceFree_append hdone hfree
    · have hm : matchBlock (pre ++ kOpen :: (c ++ kClose :: post)) = some (pre, c, post) := by
        rw [matchBlock_append pre _ hpre, matchBlock_block c post hcne hc]
        simp
      rw [blockLoop_step parse n done _ pre c post have_tagdata hm]
      apply ih post _ hbal2 hne2
      · apply braceFree_append (braceFree_append hdone hpre)
        split
        · intro x hx; simp at hx
        · exact hparse c have_tagdata hc
      · simp only [List.length_append, List.length_cons] at hlen
        omega

theorem TagValue_structure (ext : External) (self : OrganizeFormat) (tag : List Char)
    (song : Song) :
    ∃ v0 v : List Char,
      v0 = (if TagValueDispatch ext tag song = "0".toList ∨
          TagValueDispatch ext tag song = "-1".toList then []
        else TagValueDispatch ext tag song) ∧
      v = (if tag = "track".toList ∧ v0.length = 1 then '0' :: v0 else v0) ∧
      self.TagValue ext tag song =
        trimmed (if self.remove_problematic_ = true then
            (v.filter fun c => !kInvalidDirCharacters c).filter fun c => c != '.'
          else v.filter fun c => !kInvalidDirCharacters c) :=
  ⟨_, _, rfl, rfl, rfl⟩

theorem TagValue_braceFree_of_dispatch (ext : External) (self : OrganizeFormat) (song : Song)
    (tag : List Char) (h : BraceFree (TagValueDispatch ext tag song)) :
    BraceFree (self.TagValue ext tag song) := by
  obtain ⟨v0, v, hv0, hv, ht⟩ := TagValue_structure ext self tag song
  have h0 : BraceFree v0 := by
    rw [hv0]
    split
    · intro c hc; simp at hc
    · exact h
  have h1 : BraceFree v := by
    rw [hv]
    split
    · intro c hc
      rcases List.mem_cons.1 hc with e | e
      · rw [e]; decide
      · exact h0 c e
    · exact h0
  intro c hc
  rw [ht] at hc
  have h2 := mem_of_mem_trimmed _ _ hc
  apply h1 c
  split at h2
  · exact (List.mem_filter.1 (List.mem_filter.1 h2).1).1
  · exact (List.mem_filter.1 h2).1

theorem TagValueDispatch_unknown (ext : External) (tag : List Char) (song : Song)
    (h : tag ∉ kKnownTags) : TagValueDispatch ext tag song = [] := by
  have hn : ∀ name ∈ kKnownTags, tag ≠ name := fun name hname e => h (e ▸ hname)
  unfold TagValueDispatch
  rw [if_neg (hn "title".toList (by decide)), if_neg (hn "album".toList (by decide)),
    if_neg (hn "artist".toList (by decide)), if_neg (hn "composer".toList (by decide)),
    if_neg (hn "performer".toList (by decide)), if_neg (hn "grouping".toList (by decide)),
    if_neg (hn "lyrics".toList (by decide)), if_neg (hn "genre".toList (by decide)),
    if_neg (hn "comment".toList (by decide)), if_neg (hn "year".toList (by decide)),
    if_neg (hn "originalyear".toList (by decide)), if_neg (hn "track".toList (by decide)),
    if_neg (hn "disc".toList (by decide)), if_neg (hn "length".toList (by decide)),
    if_neg (hn "bitrate".toList (by decide)), if_neg (hn "samplerate".toList (by decide)),
    if_neg (hn "bitdepth".toList (by decide)), if_neg (hn "extension".toList (by decide)),
    if_neg (hn "artistinitial".toList (by decide)),
    if_neg (hn "albumartist".toList (by decide))]

theorem TagValue_braceFree_of_known (ext : External) (self : OrganizeFormat) (song : Song)
    (h : ∀ tag ∈ kKnownTags, BraceFree (TagValueDispatch ext tag song)) :
    ∀ tag, BraceFree (self.TagValue ext tag song) := by
  intro tag
  apply TagValue_braceFree_of_dispatch
  by_cases hk : tag ∈ kKnownTags
  · exact h tag hk
  · rw [TagValueDispatch_unknown ext tag song hk]
    intro c hc
    simp at hc


/-! ## Lemmas on valid templates, the dispatch and the rating -/

theorem ParseBlock_flat_braceFree (ext : External) (self : OrganizeFormat)
    (template : List Char) (song : Song) (have_tagdata : Bool)
    (hbal : BracesBalanced template) (hne : hasEmptyBlock template = false)
    (hval : ∀ tag ∈ kKnownTags, BraceFree (TagValueDispatch ext tag song)) :
    BraceFree (self.ParseBlock ext template song have_tagdata).1 := by
  have hval2 := TagValue_braceFree_of_known ext self song hval
  unfold OrganizeFormat.ParseBlock
  rw [ParseBlockFuel_succ]
  have hparse : ∀ c h, BraceFree c →
      BraceFree (ParseBlockFuel (fun tag => self.TagValue ext tag song) template.length c h).1 := by
    intro c h hc
    cases hl : template.length with
    | zero => exact hc
    | succ m =>
      rw [ParseBlockFuel_braceFree _ m c h hc]
      exact substituteTags_braceFree _ hval2 c.length c (le_refl _) hc
  have hb := blockLoop_flat _ hparse (template.length + 1) template (Nat.lt_succ_self _) hbal hne
    [] have_tagdata (fun c hc => absurd hc (List.not_mem_nil c))
  rw [tagLoop_spec _ _ [] _ _ false (Nat.lt_succ_self _)]
  exact substituteTags_braceFree _ hval2 _ _ (le_refl _) hb

theorem TagValue_option (ext : External) (self : OrganizeFormat) (tag : List Char)
    (song : Song) :
    self.TagValue ext tag song =
      ({ plainFormat [] with remove_problematic_ := self.remove_problematic_ }).TagValue
        ext tag song :=
  rfl

theorem TagValueDispatch_fullSong (ext : External) :
    ∀ name ∈ kKnownTags,
      TagValueDispatch ext name fullSong = TagValueDispatch plainExternal name fullSong := by
  intro name h
  simp only [kKnownTags, List.mem_cons, List.mem_singleton, List.not_mem_nil, or_false] at h
  casesm* _ ∨ _ <;> subst_vars <;> rfl

theorem TagValue_fullSong (b : Bool) :
    ∀ name ∈ kKnownTags,
      ({ plainFormat [] with remove_problematic_ := b }).TagValue plainExternal name fullSong
        ≠ [] := by
  cases b <;> decide


/-! ## Lemmas on the directory and the file name of a path -/

theorem split_last {α : Type} (p : α → Bool) (l : List α) (h : ∃ x ∈ l, p x = false) :
    ∃ a b c, l = a ++ b :: c ∧ p b = false ∧ ∀ x ∈ c, p x = true := by
  induction l with
  | nil => obtain ⟨x, hx, _⟩ := h; simp at hx
  | cons y t ih =>
    by_cases ht : ∃ x ∈ t, p x = false
    · obtain ⟨a, b, c, rfl, hb, hc⟩ := ih ht
      exact ⟨y :: a, b, c, rfl, hb, hc⟩
    · have hall : ∀ x ∈ t, p x = true := by
        intro x hx
        by_contra hpx
        exact ht ⟨x, hx, by simpa using hpx⟩
      obtain ⟨x, hx, hpx⟩ := h
      rcases List.mem_cons.1 hx with rfl | hx
      · exact ⟨[], x, t, rfl, hpx, hall⟩
      · rw [hall x hx] at hpx
        exact absurd hpx (by decide)

theorem ne_stop (b : Char) (c : List Char) (h : b ∉ c) : ∀ x ∈ c, (x != b) = true := by
  intro x hx
  simp only [bne_iff_ne, ne_eq]
  rintro rfl
  exact h hx

theorem fileName_append (d f : List Char) (hf : '/' ∉ f) :
    QFileInfo.fileName (d ++ '/' :: f) = f := by
  unfold QFileInfo.fileName
  exact rtakeWhile_append_stop _ d '/' f (ne_stop '/' f hf) (by decide)

theorem fileName_of_no_slash (f : List Char) (hf : '/' ∉ f) : QFileInfo.fileName f = f := by
  unfold QFileInfo.fileName
  rw [List.rtakeWhile_eq_self_iff]
  exact ne_stop '/' f hf

theorem path_append (d f : List Char) (hf : '/' ∉ f) :
    QFileInfo.path (d ++ '/' :: f) = if d = [] then ['/'] else d := by
  have hne : (d ++ '/' :: f).isEmpty = false := by cases d <;> rfl
  have hc : (d ++ '/' :: f).contains '/' = true := by simp
  have hr : (d ++ '/' :: f).rdropWhile (fun c => c != '/') = d ++ ['/'] :=
    rdropWhile_append_stop _ d '/' f (ne_stop '/' f hf) (by decide)
  unfold QFileInfo.path
  simp only [hne, hc, hr, Bool.not_true, Bool.false_eq_true, if_false, List.dropLast_concat,
    List.isEmpty_iff]

theorem path_of_no_slash (f : List Char) (hne : f ≠ []) (hf : '/' ∉ f) :
    QFileInfo.path f = ['.'] := by
  have h1 : f.isEmpty = false := by cases f with
    | nil => exact absurd rfl hne
    | cons _ _ => rfl
  have hc : f.contains '/' = false := by simpa using hf
  unfold QFileInfo.path
  simp only [h1, hc, Bool.not_false, Bool.false_eq_true, if_false, if_true]

theorem completeBaseName_eq_nil_iff (r : List Char) :
    QFileInfo.completeBaseName r = [] ↔
      QFileInfo.fileName r = [] ∨ ∃ e, QFileInfo.fileName r = '.' :: e ∧ '.' ∉ e := by
  unfold QFileInfo.completeBaseName
  simp only
  by_cases hdot : '.' ∈ QFileInfo.fileName r
  · have hc : (QFileInfo.fileName r).contains '.' = true := by simpa using hdot
    obtain ⟨a, b, e, hsplit, hb, he⟩ :=
      split_last (fun c => c != '.') (QFileInfo.fileName r) ⟨'.', hdot, by decide⟩
    have hb2 : b = '.' := by simpa using hb
    subst hb2
    have he2 : '.' ∉ e := fun hmem => by simpa using he '.' hmem
    rw [hc, if_pos rfl, hsplit, rdropWhile_append_stop _ a '.' e he (by decide),
      List.dropLast_concat]
    constructor
    · rintro rfl
      exact Or.inr ⟨e, rfl, he2⟩
    · rintro (h | ⟨e2, h, hne2⟩)
      · cases a <;> simp at h
      · cases a with
        | nil => rfl
        | cons x a2 =>
          exfalso
          simp only [List.cons_append, List.cons.injEq] at h
          exact hne2 (by rw [← h.2]; simp)
  · have hc : (QFileInfo.fileName r).contains '.' = false := by simpa using hdot
    rw [hc]
    simp only [Bool.false_eq_true, if_false]
    constructor
    · intro h; exact Or.inl h
    · rintro (h | ⟨e, h, _⟩)
      · exact h
      · exfalso; apply hdot; rw [h]; simp

theorem fallbackPath_directory (song : Song) (d f : List Char) (hf : '/' ∉ f)
    (hcb : QFileInfo.completeBaseName (d ++ '/' :: f) = []) :
    fallbackPath (d ++ '/' :: f) song =
      (if d.getLast? = some '/' then d else d ++ ['/']) ++ song.basefilename := by
  have hne : (d ++ '/' :: f).isEmpty = false := by cases d <;> rfl
  unfold fallbackPath
  simp only [hne, Bool.false_eq_true, if_false, hcb, List.isEmpty_nil, if_true,
    path_append d f hf]
  by_cases hd : d = []
  · subst hd
    simp
  · have hd2 : d.isEmpty = false := by cases d with
      | nil => exact absurd rfl hd
      | cons _ _ => rfl
    simp only [hd, if_false, hd2, Bool.not_false, if_true]
    by_cases hl : d.getLast? = some '/'
    · simp [hl]
    · simp [hl]

theorem fallbackPath_current (song : Song) (f : List Char) (hne : f ≠ []) (hf : '/' ∉ f)
    (hcb : QFileInfo.completeBaseName f = []) :
    fallbackPath f song = '.' :: '/' :: song.basefilename := by
  have h1 : f.isEmpty = false := by cases f with
    | nil => exact absurd rfl hne
    | cons _ _ => rfl
  unfold fallbackPath
  simp only [h1, Bool.false_eq_true, if_false, hcb, List.isEmpty_nil, if_true,
    path_of_no_slash f hne hf]
  simp


/-! ## Lemmas on the progress of the loops -/

theorem matchBlockHere_some (s c post : List Char) (h : matchBlockHere s = some (c, post)) :
    s = kOpen :: (c ++ kClose :: post) ∧ BraceFree c ∧ c ≠ [] := by
  cases s with
  | nil => simp [matchBlockHere] at h
  | cons x t =>
    simp only [matchBlockHere] at h
    by_cases hx : x = kOpen
    · rw [if_pos hx] at h
      have hsplit := List.takeWhile_append_dropWhile isNotBrace t
      split at h
      · exact absurd h (by simp)
      · exact absurd h (by simp)
      · rename_i y ys d rest htake hdrop
        by_cases hd : d = kClose
        · rw [if_pos hd] at h
          simp only [Option.some.injEq, Prod.mk.injEq] at h
          obtain ⟨hc, hp⟩ := h
          rw [htake, hdrop, hc, hd, hp] at hsplit
          refine ⟨by rw [hx, hsplit], ?_, by rw [← hc]; simp⟩
          rw [braceFree_iff_isNotBrace, ← hc, ← htake]
          intro z hz
          exact List.mem_takeWhile_imp hz
        · rw [if_neg hd] at h
          exact absurd h (by simp)
    · rw [if_neg hx] at h
      exact absurd h (by simp)

theorem matchBlock_some (s pre c post : List Char) (h : matchBlock s = some (pre, c, post)) :
    s = pre ++ kOpen :: (c ++ kClose :: post) ∧ BraceFree c ∧ c ≠ [] := by
  induction s generalizing pre with
  | nil => simp [matchBlock] at h
  | cons x t ih =>
    unfold matchBlock at h
    cases hh : matchBlockHere (x :: t) with
    | some r =>
      obtain ⟨c2, post2⟩ := r
      rw [hh] at h
      simp only [Option.some.injEq, Prod.mk.injEq] at h
      obtain ⟨h1, h2, h3⟩ := h
      subst h1 h2 h3
      simpa using matchBlockHere_some _ _ _ hh
    | none =>
      rw [hh] at h
      cases hm : matchBlock t with
      | none => rw [hm] at h; simp at h
      | some r =>
        obtain ⟨pre2, c2, post2⟩ := r
        rw [hm] at h
        simp only [Option.map_some', Option.some.injEq, Prod.mk.injEq] at h
        obtain ⟨h1, h2, h3⟩ := h
        subst h1 h2 h3
        obtain ⟨hs, hb, hne⟩ := ih pre2 hm
        exact ⟨by rw [hs]; simp, hb, hne⟩

theorem matchBlock_lengths (s pre c post : List Char) (h : matchBlock s = some (pre, c, post)) :
    post.length < s.length ∧ c.length < s.length := by
  obtain ⟨hs, _, _⟩ := matchBlock_some s pre c post h
  subst hs
  simp
  omega

theorem tagLoop_fuel (tv : List Char → List Char) (n : Nat) (done rest : List Char)
    (have_tagdata empty : Bool) (h : rest.length < n) :
    tagLoop tv n done rest have_tagdata empty =
      tagLoop tv (rest.length + 1) done rest have_tagdata empty := by
  rw [tagLoop_spec tv n done rest have_tagdata empty h,
    tagLoop_spec tv _ done rest have_tagdata empty (Nat.lt_succ_self _)]

theorem blockLoop_fuel (parse : List Char → Bool → List Char × Bool × Bool) (n : Nat) :
    ∀ (m : Nat) (done rest : List Char) (have_tagdata : Bool), rest.length < n →
      rest.length < m →
      blockLoop parse n done rest have_tagdata = blockLoop parse m done rest have_tagdata := by
  induction n with
  | zero => intro _ _ rest _ h; simp at h
  | succ n ih =>
    intro m done rest have_tagdata hn hm
    cases m with
    | zero => simp at hm
    | succ m =>
      cases hmatch : matchBlock rest with
      | none => rw [blockLoop_stop _ _ _ _ _ hmatch, blockLoop_stop _ _ _ _ _ hmatch]
      | some r =>
        obtain ⟨pre, c, post⟩ := r
        have hl := (matchBlock_lengths rest pre c post hmatch).1
        rw [blockLoop_step _ _ _ _ _ _ _ _ hmatch, blockLoop_step _ _ _ _ _ _ _ _ hmatch]
        exact ih m _ post _ (by omega) (by omega)

theorem blockLoop_congr (parse parse2 : List Char → Bool → List Char × Bool × Bool)
    (hp : ∀ c h, BraceFree c → c ≠ [] → parse c h = parse2 c h) (n : Nat) :
    ∀ (done rest : List Char) (have_tagdata : Bool),
      blockLoop parse n done rest have_tagdata = blockLoop parse2 n done rest have_tagdata := by
  induction n with
  | zero => intro _ _ _; rfl
  | succ n ih =>
    intro done rest have_tagdata
    cases hmatch : matchBlock rest with
    | none => rw [blockLoop_stop _ _ _ _ _ hmatch, blockLoop_stop _ _ _ _ _ hmatch]
    | some r =>
      obtain ⟨pre, c, post⟩ := r
      obtain ⟨_, hb, hne⟩ := matchBlock_some rest pre c post hmatch
      rw [blockLoop_step _ _ _ _ _ _ _ _ hmatch, blockLoop_step _ _ _ _ _ _ _ _ hmatch,
        hp c have_tagdata hb hne]
      exact ih _ _ _

theorem ParseBlockFuel_fuel (tv : List Char → List Char) (n : Nat) (block : List Char)
    (have_tagdata : Bool) (h : block.length < n) :
    ParseBlockFuel tv n block have_tagdata =
      ParseBlockFuel tv (block.length + 1) block have_tagdata := by
  cases n with
  | zero => simp at h
  | succ n =>
    rw [ParseBlockFuel_succ, ParseBlockFuel_succ]
    have hb : blockLoop (ParseBlockFuel tv n) (block.length + 1) [] block have_tagdata =
        blockLoop (ParseBlockFuel tv block.length) (block.length + 1) [] block have_tagdata := by
      cases hm : matchBlock block with
      | none => rw [blockLoop_stop _ _ _ _ _ hm, blockLoop_stop _ _ _ _ _ hm]
      | some r =>
        obtain ⟨pre, c, post⟩ := r
        have hl := (matchBlock_lengths block pre c post hm).2
        apply blockLoop_congr
        intro c2 h2 hc2 _
        obtain ⟨k, hk⟩ : ∃ k, n = k + 1 := ⟨n - 1, by omega⟩
        obtain ⟨j, hj⟩ : ∃ j, block.length = j + 1 := ⟨block.length - 1, by omega⟩
        rw [hk, hj, ParseBlockFuel_braceFree tv k c2 h2 hc2,
          ParseBlockFuel_braceFree tv j c2 h2 hc2]
    rw [hb]

theorem validateTags_fuel (n : Nat) :
    ∀ (m : Nat) (rest : List Char), rest.length < n → rest.length < m →
      validateTags n rest = validateTags m rest := by
  induction n with
  | zero => intro _ rest h; simp at h
  | succ n ih =>
    intro m rest hn hm
    cases m with
    | zero => simp at hm
    | succ m =>
      cases hmatch : matchTag rest with
      | none => simp only [validateTags, hmatch]
      | some r =>
        obtain ⟨pre, tag, post⟩ := r
        have hl := matchTag_post_length rest pre tag post hmatch
        simp only [validateTags, hmatch]
        split
        · exact ih m post (by omega) (by omega)
        · rfl


/-! ## Lemmas on the white space of the returned path -/

theorem noDoubleSpace_nil : NoDoubleSpace [] := List.chain'_nil

theorem noDoubleSpace_of_contiguous {a b : List Char} (h : NoDoubleSpace b) (hi : a <:+: b) :
    NoDoubleSpace a :=
  List.Chain'.infix h hi

theorem noDoubleSpace_cons (c : Char) (l : List Char) (hc : isSpace c = false)
    (hl : NoDoubleSpace l) : NoDoubleSpace (c :: l) := by
  unfold NoDoubleSpace at *
  rw [List.chain'_cons']
  refine ⟨fun y _ hy => ?_, hl⟩
  rw [hc] at hy
  exact absurd hy.1 (by decide)

theorem noDoubleSpace_join (a : List Char) (c : Char) (b : List Char) (hc : isSpace c = false)
    (ha : NoDoubleSpace a) (hb : NoDoubleSpace b) : NoDoubleSpace (a ++ c :: b) := by
  induction a with
  | nil => exact noDoubleSpace_cons c b hc hb
  | cons x t ih =>
    unfold NoDoubleSpace at *
    rw [List.cons_append, List.chain'_cons']
    rw [List.chain'_cons'] at ha
    refine ⟨fun y hy => ?_, ih ha.2⟩
    cases t with
    | nil =>
      simp only [List.nil_append, List.head?_cons, Option.mem_def, Option.some.injEq] at hy
      subst hy
      intro h
      rw [hc] at h
      exact absurd h.2 (by decide)
    | cons z u => exact ha.1 y (by simpa using hy)

theorem noDoubleSpace_simplifiedGo (s : List Char) :
    ∀ started gap : Bool, NoDoubleSpace (simplifiedGo started gap s) := by
  induction s with
  | nil => intro _ _; exact noDoubleSpace_nil
  | cons c t ih =>
    intro started gap
    unfold simplifiedGo
    by_cases hc : isSpace c = true
    · rw [if_pos hc]
      exact ih _ _
    · have hc2 : isSpace c = false := by simpa using hc
      rw [if_neg hc]
      split
      · have h := noDoubleSpace_cons c _ hc2 (ih true false)
        unfold NoDoubleSpace at *
        rw [List.chain'_cons']
        refine ⟨fun y hy => ?_, h⟩
        simp only [List.head?_cons, Option.mem_def, Option.some.injEq] at hy
        subst hy
        intro h2
        rw [hc2] at h2
        exact absurd h2.2 (by decide)
      · exact noDoubleSpace_cons c _ hc2 (ih _ _)

theorem noDoubleSpace_simplified (s : List Char) : NoDoubleSpace (simplified s) :=
  noDoubleSpace_simplifiedGo s false false

theorem trimmed_contiguous (s : List Char) : trimmed s <:+: s :=
  (List.rdropWhile_prefix isSpace _).isInfix.trans (List.dropWhile_suffix isSpace).isInfix

theorem fixPart_contiguous (part : List Char) : fixPart part <:+: part := by
  unfold fixPart
  simp only
  split
  · exact (trimmed_contiguous _).trans (List.drop_suffix 1 part).isInfix
  · exact trimmed_contiguous _

theorem splitSlash_parts (s : List Char) :
    ∃ p ps, splitSlash s = p :: ps ∧ p <+: s ∧ ∀ q ∈ ps, q <:+: s := by
  induction s with
  | nil => exact ⟨[], [], rfl, List.prefix_refl _, fun q hq => absurd hq (List.not_mem_nil q)⟩
  | cons c t ih =>
    obtain ⟨p, ps, hsplit, hp, hps⟩ := ih
    by_cases hc : c = '/'
    · refine ⟨[], p :: ps, by simp [splitSlash, hc, hsplit], List.nil_prefix, ?_⟩
      intro q hq
      have hqt : q <:+: t := by
        rcases List.mem_cons.1 hq with rfl | hq
        · exact hp.isInfix
        · exact hps q hq
      exact hqt.trans (List.suffix_cons c t).isInfix
    · refine ⟨c :: p, ps, by simp [splitSlash, hc, hsplit], ?_, ?_⟩
      · exact (List.prefix_cons_inj c).2 hp
      · intro q hq
        exact (hps q hq).trans (List.suffix_cons c t).isInfix

theorem splitSlash_contiguous (s : List Char) : ∀ q ∈ splitSlash s, q <:+: s := by
  obtain ⟨p, ps, hsplit, hp, hps⟩ := splitSlash_parts s
  intro q hq
  rw [hsplit] at hq
  rcases List.mem_cons.1 hq with rfl | hq
  · exact hp.isInfix
  · exact hps q hq

theorem noDoubleSpace_joinSlash (l : List (List Char)) (h : ∀ p ∈ l, NoDoubleSpace p) :
    NoDoubleSpace (joinSlash l) := by
  induction l with
  | nil => exact noDoubleSpace_nil
  | cons x rest ih =>
    cases rest with
    | nil =>
      rw [joinSlash_singleton]
      exact h x (by simp)
    | cons y l2 =>
      rw [joinSlash_cons_cons]
      exact noDoubleSpace_join x '/' _ (by decide) (h x (by simp))
        (ih fun p hp => h p (by simp [hp]))

theorem splitSlash_append (p t : List Char) (hp : '/' ∉ p) :
    splitSlash (p ++ '/' :: t) = p :: splitSlash t := by
  induction p with
  | nil => simp [splitSlash]
  | cons c u ih =>
    have hc : c ≠ '/' := fun e => hp (by simp [e])
    have hu : '/' ∉ u := fun e => hp (by simp [e])
    simp [splitSlash, hc, ih hu]

theorem splitSlash_joinSlash (l : List (List Char)) (hne : l ≠ [])
    (h : ∀ p ∈ l, '/' ∉ p) : splitSlash (joinSlash l) = l := by
  induction l with
  | nil => exact absurd rfl hne
  | cons x rest ih =>
    cases rest with
    | nil =>
      rw [joinSlash_singleton]
      exact splitSlash_of_no_slash x (h x (by simp))
    | cons y l2 =>
      rw [joinSlash_cons_cons, splitSlash_append x _ (h x (by simp)),
        ih (by simp) fun p hp => h p (by simp [hp])]


theorem completeBaseName_contiguous (p : List Char) : QFileInfo.completeBaseName p <:+: p := by
  unfold QFileInfo.completeBaseName
  simp only
  have hf : QFileInfo.fileName p <:+: p := (List.rtakeWhile_suffix _ _).isInfix
  split
  · exact (((List.dropLast_prefix _).trans (List.rdropWhile_prefix _ _)).isInfix).trans hf
  · exact hf

theorem noDoubleSpace_path (p : List Char) (h : NoDoubleSpace p) :
    NoDoubleSpace (QFileInfo.path p) := by
  rcases path_cases p with e | e | e | e <;> rw [e]
  · exact noDoubleSpace_nil
  · exact noDoubleSpace_cons '.' [] (by decide) noDoubleSpace_nil
  · exact noDoubleSpace_cons '/' [] (by decide) noDoubleSpace_nil
  · exact noDoubleSpace_of_contiguous h
      ((List.dropLast_prefix _).trans (List.rdropWhile_prefix _ _)).isInfix

theorem finishPath_parts (self : OrganizeFormat) (p : List Char)
    (hoff : self.replace_spaces_ = false) :
    ∃ x : List Char, self.finishPath p = joinSlash ((splitSlash x).map fixPart) ∧
      (NoDoubleSpace p → NoDoubleSpace x) := by
  refine ⟨(if (!(QFileInfo.path p).isEmpty && QFileInfo.path p != ['.']) = true
      then QFileInfo.path p ++ ['/'] else []) ++ QFileInfo.completeBaseName p, ?_, ?_⟩
  · unfold OrganizeFormat.finishPath
    simp only [hoff, Bool.false_eq_true, if_false]
  · intro h
    have hb := noDoubleSpace_of_contiguous h (completeBaseName_contiguous p)
    split
    · rw [List.append_assoc, List.singleton_append]
      exact noDoubleSpace_join _ '/' _ (by decide) (noDoubleSpace_path p h) hb
    · exact hb

theorem fixedParts_facts (x : List Char) :
    (splitSlash x).map fixPart ≠ [] ∧ ∀ p ∈ (splitSlash x).map fixPart, '/' ∉ p := by
  constructor
  · intro e
    have hl := splitSlash_length x
    have : ((splitSlash x).map fixPart).length = 0 := by rw [e]; rfl
    rw [List.length_map] at this
    omega
  · intro p hp hmem
    obtain ⟨q, hq, rfl⟩ := List.mem_map.1 hp
    exact (mem_splitSlash x q hq '/' (mem_fixPart q '/' hmem)).2 rfl

theorem fixPart_ends (q : List Char) :
    (∀ c, (fixPart q).head? = some c → isSpace c = false) ∧
      (∀ c, (fixPart q).getLast? = some c → isSpace c = false) :=
  ⟨fun c h => trimmed_head_not_space _ c h, fun c h => trimmed_last_not_space _ c h⟩


/-! ## The rating with the machine values of the literals -/

theorem ConvertPOPMRatingBinary_round_trip :
    ∀ r ∈ ([0, 0.2, 0.4, 0.6, 0.8, 1] : List ℚ),
      ConvertToPOPMRatingBinary (binary32 r) = ConvertToPOPMRating r ∧
        ConvertPOPMRatingBinary (ConvertToPOPMRatingBinary (binary32 r)) = binary32 r := by
  intro r h
  simp only [List.mem_cons, List.mem_singleton, List.not_mem_nil, or_false] at h
  rcases h with h | h | h | h | h | h <;> subst h <;>
    norm_num [ConvertPOPMRatingBinary, ConvertToPOPMRatingBinary, ConvertToPOPMRating,
      binary32, binary64]


/-! ## Lemmas on the characters that the FAT class keeps -/

theorem flatMap_stripNonAscii_of_lt (ext : External) (ascii : Nat) (l : List Char)
    (h : ∀ c ∈ l, c.toNat < ascii) : l.flatMap (stripNonAscii ext ascii) = l := by
  induction l with
  | nil => rfl
  | cons c t ih =>
    have hc : c.toNat < ascii := h c (by simp)
    simp [List.flatMap_cons, stripNonAscii, hc, ih (fun x hx => h x (by simp [hx]))]

theorem sanitize_of_kept (ext : External) (self : OrganizeFormat) (s : List Char)
    (h1 : self.remove_problematic_ = true → ∀ c ∈ s, kProblematicCharacters c = false)
    (h2 : (self.remove_non_fat_ || (self.remove_non_ascii_ && !self.allow_ascii_ext_)) = true →
      ext.Transliterate s = s)
    (h3 : self.remove_non_fat_ = true → ∀ c ∈ s, isFatCharacter c = true)
    (h4 : self.remove_non_ascii_ = true →
      ∀ c ∈ s, c.toNat < (if self.allow_ascii_ext_ = true then 255 else 128))
    (h5 : simplified s = s) : self.sanitize ext s = s := by
  have e1 : (if self.remove_problematic_ = true then
      s.filter fun c => !kProblematicCharacters c else s) = s := by
    split
    · rename_i h
      rw [List.filter_eq_self]
      intro c hc
      simp [h1 h c hc]
    · rfl
  have e2 : (if (self.remove_non_fat_ ||
      (self.remove_non_ascii_ && !self.allow_ascii_ext_)) = true then
      ext.Transliterate s else s) = s := by
    split
    · rename_i h
      exact h2 h
    · rfl
  have e3 : (if self.remove_non_fat_ = true then s.filter isFatCharacter else s) = s := by
    split
    · rename_i h
      rw [List.filter_eq_self]
      exact h3 h
    · rfl
  have e4 : (if self.remove_non_ascii_ = true then
      s.flatMap (stripNonAscii ext (if self.allow_ascii_ext_ = true then 255 else 128))
      else s) = s := by
    split
    · rename_i h
      exact flatMap_stripNonAscii_of_lt ext _ s (h4 h)
    · rfl
  unfold OrganizeFormat.sanitize
  simp only [e1, e2, e3, e4, h5]

theorem fallbackPath_nil (song : Song) :
    fallbackPath [] song = fallbackPath song.basefilename song := by
  cases hb : song.basefilename with
  | nil => simp [fallbackPath, hb]
  | cons c t => simp [fallbackPath, hb]

theorem fixPart_of_trimmed (name : List Char) (hdot : ∀ c ∈ name, c ≠ '.')
    (htrim : trimmed name = name) : fixPart name = name := by
  cases name with
  | nil => rfl
  | cons c t =>
    have hc : c ≠ '.' := hdot c (by simp)
    simp [fixPart, kInvalidPrefixCharacters, hc, htrim]


/-! ## Theorems -/

/-- C1: `IsValid()` is true exactly when the brace depth, counted from left to
right, is never below 0, never above 1 and is 0 at the end, and the name of every
`%` token (the longest run of ASCII letters after a `%`) is a known tag; a `%`
that is not followed by a letter has the empty name and makes the template
invalid. -/
theorem IsValid_iff_balanced_and_known (self : OrganizeFormat) :
    (self.IsValid = true ↔
      BracesBalanced self.format_ ∧
        ∀ pre post : List Char, self.format_ = pre ++ '%' :: post →
          post.takeWhile isTagLetter ∈ kKnownTags) ∧
    (∀ pre post : List Char, self.format_ = pre ++ '%' :: post →
      (∀ c, post.head? = some c → isTagLetter c = false) → self.IsValid = false) := by
  have hiff : self.IsValid = true ↔
      BracesBalanced self.format_ ∧
        ∀ pre post : List Char, self.format_ = pre ++ '%' :: post →
          post.takeWhile isTagLetter ∈ kKnownTags := by
    unfold OrganizeFormat.IsValid
    rw [beq_iff_eq, validate_spec]
    constructor
    · rintro ⟨hb, hk⟩
      exact ⟨hb, fun pre post hs => hk _ ((mem_tagNames_iff _ _).2 ⟨pre, post, hs, rfl⟩)⟩
    · rintro ⟨hb, hk⟩
      refine ⟨hb, fun name hn => ?_⟩
      obtain ⟨pre, post, hs, rfl⟩ := (mem_tagNames_iff _ _).1 hn
      exact hk pre post hs
  refine ⟨hiff, fun pre post hs hhead => ?_⟩
  have hnil : post.takeWhile isTagLetter = [] := by
    cases post with
    | nil => rfl
    | cons c t => simp [List.takeWhile, hhead c rfl]
  have hnot : ¬ (self.IsValid = true) := by
    rw [hiff]
    rintro ⟨_, hk⟩
    have := hk pre post hs
    rw [hnil] at this
    revert this
    decide
  simpa using hnot

/-- C2: a block whose content is not empty and has no brace resolves to the empty
text as soon as one `%name` token of the content has an empty value, whatever
the other tokens and the literal text of the content are. -/
theorem ParseBlock_block_collapses (ext : External) (self : OrganizeFormat) (c : List Char)
    (song : Song) (have_tagdata : Bool) (hne : c ≠ []) (hfree : BraceFree c)
    (hempty : ∃ name ∈ tagNames c, self.TagValue ext name song = []) :
    (self.ParseBlock ext (kOpen :: (c ++ [kClose])) song have_tagdata).1 = [] := by
  have hany : (tagNames c).any (fun name => (self.TagValue ext name song).isEmpty) = true := by
    obtain ⟨name, hn, hv⟩ := hempty
    exact List.any_eq_true.2 ⟨name, hn, by simp [hv]⟩
  unfold OrganizeFormat.ParseBlock
  have hlen : (kOpen :: (c ++ [kClose])).length + 1 = (c.length + 2) + 1 := by simp
  rw [hlen, ParseBlockFuel_succ]
  have hm := matchBlock_single c hne hfree
  have hb : blockLoop (ParseBlockFuel (fun tag => self.TagValue ext tag song) (c.length + 2))
      ((kOpen :: (c ++ [kClose])).length + 1) [] (kOpen :: (c ++ [kClose])) have_tagdata
      = ([], have_tagdata || (tagNames c).any (fun name =>
            kUniqueTags.contains name && !(self.TagValue ext name song).isEmpty)) := by
    rw [hlen]
    simp only [blockLoop, hm]
    rw [ParseBlockFuel_braceFree _ (c.length + 1) c have_tagdata hfree]
    simp [hany, matchBlock]
  rw [hb]
  simp [tagLoop, matchTag]

/-- C2, at the template `{Disc %disc}` and a record without disc number. -/
theorem ParseBlock_block_collapses_witness :
    (plainFormat []).TagValue plainExternal "disc".toList emptySong = [] ∧
      ((plainFormat []).ParseBlock plainExternal
          (kOpen :: ("Disc %disc".toList ++ [kClose])) emptySong false).1 = [] :=
  ⟨by decide,
    ParseBlock_block_collapses plainExternal (plainFormat []) "Disc %disc".toList emptySong false
      (by decide) (by decide) ⟨"disc".toList, by decide, by decide⟩⟩

/-- C3: on a template without braces `ParseBlock` returns the template with every
`%name` token replaced by `TagValue(name)` and every other character unchanged. -/
theorem ParseBlock_substitutes_tags (ext : External) (self : OrganizeFormat)
    (template : List Char) (song : Song) (have_tagdata : Bool) (hfree : BraceFree template) :
    (self.ParseBlock ext template song have_tagdata).1 =
      substituteTags (fun name => self.TagValue ext name song) template := by
  rw [ParseBlock_braceFree ext self template song have_tagdata hfree]

/-- C3, at the template `Disc %disc` and a record without disc number: the
literal text stays. -/
theorem ParseBlock_substitutes_tags_witness :
    ((plainFormat []).ParseBlock plainExternal "Disc %disc".toList emptySong false).1 =
        "Disc ".toList ∧
      substituteTags (fun name => (plainFormat []).TagValue plainExternal name emptySong)
        "Disc %disc".toList = "Disc ".toList :=
  ⟨by decide,
    (ParseBlock_substitutes_tags plainExternal (plainFormat []) "Disc %disc".toList emptySong
      false (by decide)).symm.trans (by decide)⟩

/-- C4, where the code breaks it: the template `{%artist}` has no `%title` and no
`%track` token; with the artist `%title` and the title `Song` the block leaves
the text `%title`, the tag pass of the outer call resolves it, and the result
is `Song.mp3` with the flag set.  With the artist `A` the flag is not set. -/
theorem unique_flag_from_block_value :
    (plainFormat (kOpen :: ("%artist".toList ++ [kClose]))).GetFilenameForSong plainExternal
        { fileSong with artist := "%title".toList, title := "Song".toList } [] =
      { filename := "Song.mp3".toList, unique_filename := true } ∧
    ((plainFormat (kOpen :: ("%artist".toList ++ [kClose]))).ParseBlock plainExternal
        (kOpen :: ("%artist".toList ++ [kClose]))
        { fileSong with artist := "%title".toList, title := "Song".toList } false).2.1 = true ∧
    tagNames (kOpen :: ("%artist".toList ++ [kClose])) = ["artist".toList] ∧
    (∀ name ∈ tagNames (kOpen :: ("%artist".toList ++ [kClose])), name ∉ kUniqueTags) ∧
    ((plainFormat (kOpen :: ("%artist".toList ++ [kClose]))).ParseBlock plainExternal
        (kOpen :: ("%artist".toList ++ [kClose]))
        { fileSong with artist := "A".toList, title := "Song".toList } false).2.1 = false := by
  decide

/-- The flag on a template without braces: the flag computed by `ParseBlock` is
true exactly when a `%title` or `%track` token of the template has a value that
is not empty; and for every template a result with a file name carries the flag
computed by `ParseBlock` as `unique_filename`. -/
theorem unique_flag_braceFree (ext : External) (self : OrganizeFormat) (song : Song)
    (extension : List Char) :
    (BraceFree self.format_ →
      ((self.ParseBlock ext self.format_ song false).2.1 = true ↔
        ∃ name ∈ tagNames self.format_,
          name ∈ kUniqueTags ∧ self.TagValue ext name song ≠ [])) ∧
    ((self.GetFilenameForSong ext song extension).filename ≠ [] →
      (self.GetFilenameForSong ext song extension).unique_filename =
        (self.ParseBlock ext self.format_ song false).2.1) := by
  constructor
  · intro hfree
    rw [ParseBlock_braceFree ext self self.format_ song false hfree]
    simp [List.any_eq_true]
  · intro hvalid
    unfold OrganizeFormat.GetFilenameForSong at hvalid ⊢
    by_cases hr :
        rejectedPath (fallbackPath (self.ParseBlock ext self.format_ song false).1 song) = true
    · simp [hr] at hvalid
    · simp [hr, OrganizeFormat.finish]

/-- The flag at the template `%artist - %title` with the title `Song` (set), and
at the template `%artist` (not set). -/
theorem unique_flag_braceFree_witness :
    ((plainFormat "%artist - %title".toList).ParseBlock plainExternal "%artist - %title".toList
        { fileSong with title := "Song".toList } false).2.1 = true ∧
    ((plainFormat "%artist - %title".toList).GetFilenameForSong plainExternal
        { fileSong with title := "Song".toList } []).unique_filename = true ∧
    ((plainFormat "%artist".toList).ParseBlock plainExternal "%artist".toList
        { fileSong with artist := "A".toList } false).2.1 = false :=
  ⟨((unique_flag_braceFree plainExternal (plainFormat "%artist - %title".toList)
        { fileSong with title := "Song".toList } []).1 (by decide)).2
      ⟨"title".toList, by decide, by decide, by decide⟩,
    ((unique_flag_braceFree plainExternal (plainFormat "%artist - %title".toList)
        { fileSong with title := "Song".toList } []).2 (by decide)).trans (by decide),
    by decide⟩

/-- C5: for a track number of at least 1, `TagValue("track")` is `0` followed by
the digit when the number is at most 9, and the plain decimal number when it is
10 or more. -/
theorem TagValue_track_padding (ext : External) (self : OrganizeFormat) (song : Song)
    (h : 1 ≤ song.track) :
    self.TagValue ext "track".toList song =
      if song.track ≤ 9 then ['0', Char.ofNat (48 + song.track.toNat)]
      else (Nat.repr song.track.toNat).toList := by
  unfold OrganizeFormat.TagValue
  rw [TagValueDispatch_track]
  generalize self.remove_problematic_ = rp
  generalize song.track = t at h ⊢
  by_cases h9 : t ≤ 9
  · interval_cases t <;> cases rp <;> decide
  · have hneg : ¬ t < 0 := by omega
    have hn : 10 ≤ t.toNat := by omega
    have hrepr : (Nat.repr t.toNat).toList = Nat.toDigits 10 t.toNat := rfl
    have hnum : QString_number t = Nat.toDigits 10 t.toNat := by simp [QString_number, hneg]
    rw [if_neg h9, hrepr, hnum]
    generalize hv : Nat.toDigits 10 t.toNat = v
    have hlen : 2 ≤ v.length := hv ▸ toDigits_length _ hn
    have hdig : ∀ c ∈ v, c.isDigit = true := hv ▸ toDigits_isDigit _
    have h0 : v ≠ "0".toList := by
      intro e
      rw [e] at hlen
      revert hlen
      decide
    have h1 : v ≠ "-1".toList := by
      intro e
      have := (isDigit_facts '-' (hdig '-' (by rw [e]; decide))).2.2.2
      exact this rfl
    have hl1 : v.length ≠ 1 := by omega
    have hf1 : v.filter (fun c => !kInvalidDirCharacters c) = v := by
      rw [List.filter_eq_self]
      intro c hc
      simp [(isDigit_facts c (hdig c hc)).2.1]
    have hf2 : v.filter (fun c => c != '.') = v := by
      rw [List.filter_eq_self]
      intro c hc
      simp [(isDigit_facts c (hdig c hc)).2.2.1]
    have htr : trimmed v = v :=
      trimmed_of_no_space v (fun c hc => (isDigit_facts c (hdig c hc)).1)
    have h01 : ¬ (v = "0".toList ∨ v = "-1".toList) := fun e => e.elim h0 h1
    cases rp <;>
      simp only [h01, hl1, hf1, hf2, htr, if_false, and_false, Bool.false_eq_true, if_true]

/-- C5, at the track numbers 7 and 12 and the template `%track`. -/
theorem TagValue_track_padding_witness :
    (plainFormat []).TagValue plainExternal "track".toList { emptySong with track := 7 } =
        "07".toList ∧
      (plainFormat []).TagValue plainExternal "track".toList { emptySong with track := 12 } =
        "12".toList ∧
      ((plainFormat []).ParseBlock plainExternal "%track".toList
        { emptySong with track := 7 } false).1 = "07".toList ∧
      ((plainFormat []).ParseBlock plainExternal "%track".toList
        { emptySong with track := 12 } false).1 = "12".toList :=
  ⟨(TagValue_track_padding plainExternal (plainFormat []) { emptySong with track := 7 }
      (by decide)).trans (by decide),
    (TagValue_track_padding plainExternal (plainFormat []) { emptySong with track := 12 }
      (by decide)).trans (by decide),
    by decide, by decide⟩

/-- C6: when the value found by the dispatch is exactly `0` or `-1`, `TagValue`
returns the empty text, for every tag and every record. -/
theorem TagValue_sentinel_is_empty (ext : External) (self : OrganizeFormat) (tag : List Char)
    (song : Song)
    (h : TagValueDispatch ext tag song = "0".toList ∨
      TagValueDispatch ext tag song = "-1".toList) :
    self.TagValue ext tag song = [] := by
  unfold OrganizeFormat.TagValue
  simp only [h, if_true, List.length_nil, List.filter_nil]
  have h1 : ¬ (tag = "track".toList ∧ (0 : Nat) = 1) := fun e => absurd e.2 (by decide)
  simp only [h1, if_false, List.filter_nil, ite_self, trimmed_nil]

/-- C6, at a track number 0 (the value is empty, not `00`), a year -1, a disc
number 0 and a title `0`. -/
theorem TagValue_sentinel_is_empty_witness :
    (plainFormat []).TagValue plainExternal "track".toList emptySong = [] ∧
      (plainFormat []).TagValue plainExternal "year".toList { emptySong with year := -1 } = [] ∧
      (plainFormat []).TagValue plainExternal "disc".toList emptySong = [] ∧
      (plainFormat []).TagValue plainExternal "title".toList
        { emptySong with title := "0".toList } = [] :=
  ⟨TagValue_sentinel_is_empty plainExternal (plainFormat []) "track".toList emptySong
      (Or.inl (by decide)),
    TagValue_sentinel_is_empty plainExternal (plainFormat []) "year".toList
      { emptySong with year := -1 } (Or.inr (by decide)),
    TagValue_sentinel_is_empty plainExternal (plainFormat []) "disc".toList emptySong
      (Or.inl (by decide)),
    TagValue_sentinel_is_empty plainExternal (plainFormat []) "title".toList
      { emptySong with title := "0".toList } (Or.inl (by decide))⟩

/-- C7: with every option off, the format `%albumartist/%album/{%track }%title`,
a record that is not a compilation, with album artist `Pink Floyd`, album
`The Wall`, track 3 and title `Comfortably Numb`, and the extension `flac` give
the path `Pink Floyd/The Wall/03 Comfortably Numb.flac` and `unique_filename`. -/
theorem GetFilenameForSong_example (ext : External) (song : Song) :
    (plainFormat ("%albumartist/%album/".toList ++
        kOpen :: ("%track ".toList ++ kClose :: "%title".toList))).GetFilenameForSong ext
      { song with
        is_compilation := false, effective_albumartist := "Pink Floyd".toList,
        album := "The Wall".toList, track := 3, title := "Comfortably Numb".toList }
      "flac".toList =
    { filename := "Pink Floyd/The Wall/03 Comfortably Numb.flac".toList,
      unique_filename := true } := by
  generalize hs : ({ song with
        is_compilation := false, effective_albumartist := "Pink Floyd".toList,
        album := "The Wall".toList, track := 3, title := "Comfortably Numb".toList } : Song)
      = song1
  generalize hf : plainFormat ("%albumartist/%album/".toList ++
        kOpen :: ("%track ".toList ++ kClose :: "%title".toList)) = self
  have hd : ∀ tag : List Char, tag ∈ ["albumartist".toList, "album".toList, "track".toList,
      "title".toList] → TagValueDispatch ext tag song1 = TagValueDispatch plainExternal tag
        { emptySong with
          is_compilation := false, effective_albumartist := "Pink Floyd".toList,
          album := "The Wall".toList, track := 3, title := "Comfortably Numb".toList } := by
    intro tag htag
    subst hs
    simp only [List.mem_cons, List.mem_singleton, List.not_mem_nil, or_false] at htag
    rcases htag with h | h | h | h <;> subst h <;> rfl
  have hP : self.ParseBlock ext self.format_ song1 false =
      ("Pink Floyd/The Wall/03 Comfortably Numb".toList, true, false) := by
    have hfmt : self.format_ = "%albumartist/%album/".toList ++
        kOpen :: ("%track ".toList ++ kClose :: "%title".toList) := by rw [← hf]; rfl
    rw [hfmt]
    unfold OrganizeFormat.ParseBlock
    have hlen : ("%albumartist/%album/".toList ++
        kOpen :: ("%track ".toList ++ kClose :: "%title".toList)).length + 1 = 36 := by decide
    rw [hlen]
    apply example_resolution
    · exact (TagValue_congr _ _ _ _ _ _ (hd _ (by decide))).trans (by rw [← hf]; decide)
    · exact (TagValue_congr _ _ _ _ _ _ (hd _ (by decide))).trans (by rw [← hf]; decide)
    · exact (TagValue_congr _ _ _ _ _ _ (hd _ (by decide))).trans (by rw [← hf]; decide)
    · exact (TagValue_congr _ _ _ _ _ _ (hd _ (by decide))).trans (by rw [← hf]; decide)
  unfold OrganizeFormat.GetFilenameForSong
  rw [hP]
  have h1 : fallbackPath "Pink Floyd/The Wall/03 Comfortably Numb".toList song1 =
      "Pink Floyd/The Wall/03 Comfortably Numb".toList :=
    fallbackPath_of_baseName _ _ (by decide)
  have h2 : rejectedPath "Pink Floyd/The Wall/03 Comfortably Numb".toList = false := by decide
  have h3 : self.sanitize ext "Pink Floyd/The Wall/03 Comfortably Numb".toList =
      "Pink Floyd/The Wall/03 Comfortably Numb".toList := by
    rw [sanitize_plain ext self _ (by rw [← hf]; rfl) (by rw [← hf]; rfl) (by rw [← hf]; rfl)]
    decide
  simp only [h1, h2, h3, Bool.false_eq_true, if_false]
  rw [finish_of_extension _ _ _ _ _ (by decide), ← hf]
  decide

/-- C8, where the code breaks it: with `remove_problematic_` set, the template
`%title` and the title `???`, the name passes the test for an empty base name,
is emptied by the removal of characters afterwards, and the returned path is
`.mp3`. -/
theorem GetFilenameForSong_nameless :
    ({ plainFormat "%title".toList with remove_problematic_ := true }).GetFilenameForSong
        plainExternal { fileSong with title := "???".toList } [] =
      { filename := ".mp3".toList, unique_filename := true } := by
  decide

/-- C9, as the claim states it, fails: with every option off, the template
`/%album/%title`, the album `A` and the title `T`, the returned path is
`/A/T.mp3`, which begins with a slash. -/
theorem GetFilenameForSong_leading_slash :
    (plainFormat "/%album/%title".toList).GetFilenameForSong plainExternal
        { fileSong with album := "A".toList, title := "T".toList } [] =
      { filename := "/A/T.mp3".toList, unique_filename := true } := by
  decide

/-- C9, amended: when the path after the fallbacks is empty, or is a slash
followed by a name without slash (the directory before the last slash is
empty), `GetFilenameForSong` returns the empty result; so a result with a file
name comes from a path that is not empty and whose only slash is not its first
character. -/
theorem GetFilenameForSong_rejects (ext : External) (self : OrganizeFormat) (song : Song)
    (extension : List Char) :
    ((fallbackPath (self.ParseBlock ext self.format_ song false).1 song = [] ∨
        ∃ name, fallbackPath (self.ParseBlock ext self.format_ song false).1 song = '/' :: name ∧
          '/' ∉ name) →
      self.GetFilenameForSong ext song extension = { filename := [], unique_filename := false }) ∧
    ((self.GetFilenameForSong ext song extension).filename ≠ [] →
      fallbackPath (self.ParseBlock ext self.format_ song false).1 song ≠ [] ∧
        ∀ name, fallbackPath (self.ParseBlock ext self.format_ song false).1 song = '/' :: name →
          '/' ∈ name) := by
  have key : (fallbackPath (self.ParseBlock ext self.format_ song false).1 song = [] ∨
        ∃ name, fallbackPath (self.ParseBlock ext self.format_ song false).1 song = '/' :: name ∧
          '/' ∉ name) →
      self.GetFilenameForSong ext song extension =
        { filename := [], unique_filename := false } := by
    intro h
    have hr := (rejectedPath_iff _).2 h
    simp [OrganizeFormat.GetFilenameForSong, hr]
  refine ⟨key, fun hvalid => ⟨fun h => hvalid ?_, fun name h => ?_⟩⟩
  · rw [key (Or.inl h)]
  · by_contra hn
    exact hvalid (by rw [key (Or.inr ⟨name, h, hn⟩)])

/-- C9, at the template `/%title` (rejected) and the template `%title`. -/
theorem GetFilenameForSong_rejects_witness :
    (plainFormat "/%title".toList).GetFilenameForSong plainExternal
        { fileSong with title := "T".toList } [] = { filename := [], unique_filename := false } ∧
      fallbackPath ((plainFormat "%title".toList).ParseBlock plainExternal "%title".toList
        { fileSong with title := "T".toList } false).1 { fileSong with title := "T".toList } ≠ [] :=
  ⟨(GetFilenameForSong_rejects plainExternal (plainFormat "/%title".toList)
      { fileSong with title := "T".toList } []).1 (Or.inr ⟨"T".toList, by decide, by decide⟩),
    ((GetFilenameForSong_rejects plainExternal (plainFormat "%title".toList)
      { fileSong with title := "T".toList } []).2 (by decide)).1⟩

/-- C10, as the claim states it, fails: with the options of the constructor
(`replace_spaces_` set), an empty format and the base file name `My Song.mp3`,
the returned path is `My_Song.mp3`. -/
theorem GetFilenameForSong_fallback_changes_name :
    (OrganizeFormat.new []).GetFilenameForSong plainExternal
        { fileSong with basefilename := "My Song.mp3".toList } [] =
      { filename := "My_Song.mp3".toList, unique_filename := false } := by
  decide

/-- C10, amended: when the template resolves to the empty text, the function goes
on with the base file name of the record in the place of the resolved text: the
result is what the rejection test, the sanitization and the finishing steps
give for the base file name.  The returned path is the base file name `name.sfx`
when no extension is given, and `name.extension` when one is given, for every
base file name with `name` and `sfx` not empty and without `/` and `.`, and
every setting of the options under which no step has something to change: no
problematic character under `remove_problematic_`, a text that the
transliteration returns as it is where it runs, only characters that the FAT
class keeps under `remove_non_fat_`, only characters below the ceiling under
`remove_non_ascii_`, white space only as single spaces between words and not
at the end of `name`, and no white space in `name` under `replace_spaces_`.
For a base file name `name` with no dot the extension of the local file of the
song is appended when no extension is given. -/
theorem GetFilenameForSong_fallback (ext : External) (self : OrganizeFormat) (song : Song)
    (extension : List Char)
    (hres : (self.ParseBlock ext self.format_ song false).1 = []) :
    (self.GetFilenameForSong ext song extension =
      if rejectedPath (fallbackPath song.basefilename song) = true then
        { filename := [], unique_filename := false }
      else
        self.finish (self.sanitize ext (fallbackPath song.basefilename song)) song extension
          (self.ParseBlock ext self.format_ song false).2.1) ∧
    (QFileInfo.completeBaseName song.basefilename ≠ [] →
      fallbackPath song.basefilename song = song.basefilename) ∧
    (∀ name sfx : List Char,
      (song.basefilename = name ++ '.' :: sfx ∧ sfx ≠ [] ∧ (∀ c ∈ sfx, c ≠ '/' ∧ c ≠ '.')) ∨
        (song.basefilename = name ∧ sfx = []) →
      name ≠ [] → (∀ c ∈ name, c ≠ '/' ∧ c ≠ '.') → trimmed name = name →
      (self.remove_problematic_ = true →
        ∀ c ∈ song.basefilename, kProblematicCharacters c = false) →
      ((self.remove_non_fat_ || (self.remove_non_ascii_ && !self.allow_ascii_ext_)) = true →
        ext.Transliterate song.basefilename = song.basefilename) →
      (self.remove_non_fat_ = true → ∀ c ∈ song.basefilename, isFatCharacter c = true) →
      (self.remove_non_ascii_ = true → ∀ c ∈ song.basefilename,
        c.toNat < (if self.allow_ascii_ext_ = true then 255 else 128)) →
      simplified song.basefilename = song.basefilename →
      (self.replace_spaces_ = true → ∀ c ∈ name, isRegexSpace c = false) →
      (self.GetFilenameForSong ext song extension).filename =
        name ++
          (if firstNonEmpty [extension, sfx, QFileInfo.completeSuffix song.url_toLocalFile] = []
            then []
            else '.' ::
              firstNonEmpty [extension, sfx, QFileInfo.completeSuffix song.url_toLocalFile])) := by
  have hA : self.GetFilenameForSong ext song extension =
      if rejectedPath (fallbackPath song.basefilename song) = true then
        { filename := [], unique_filename := false }
      else
        self.finish (self.sanitize ext (fallbackPath song.basefilename song)) song extension
          (self.ParseBlock ext self.format_ song false).2.1 := by
    unfold OrganizeFormat.GetFilenameForSong
    simp only [hres, fallbackPath_nil]
  refine ⟨hA, fun h => fallbackPath_of_baseName _ song h, ?_⟩
  intro name sfx hform hname hn htrim h1 h2 h3 h4 h5 h6
  have hnoslash : '/' ∉ name := fun h => (hn '/' h).1 rfl
  have hnodot : ∀ c ∈ name, c ≠ '.' := fun c hc => (hn c hc).2
  have hfix : fixPart name = name := fixPart_of_trimmed name hnodot htrim
  have hmap : self.replace_spaces_ = true →
      name.map (fun c => if isRegexSpace c = true then '_' else c) = name :=
    fun h => map_replace_of_no_space name (h6 h)
  have hsan : self.sanitize ext song.basefilename = song.basefilename :=
    sanitize_of_kept ext self _ h1 h2 h3 h4 h5
  -- the parts of the base file name
  have hparts : '/' ∉ song.basefilename ∧ song.basefilename ≠ [] ∧
      QFileInfo.completeBaseName song.basefilename = name ∧
      QFileInfo.completeSuffix song.basefilename = sfx := by
    rcases hform with ⟨hb, hsfx, hs⟩ | ⟨hb, hsfx⟩
    · have hf := plainPath_facts [] name sfx (Or.inl rfl) hn hs
      simp only [List.nil_append] at hf
      rw [hb]
      refine ⟨?_, by simp, hf.1, hf.2.1⟩
      intro hm
      rcases List.mem_append.1 hm with h | h
      · exact hnoslash h
      · rcases List.mem_cons.1 h with h | h
        · revert h; decide
        · exact (hs _ h).1 rfl
    · rw [hb, hsfx]
      have hfile := fileName_of_no_slash name hnoslash
      have hc : name.contains '.' = false := by
        simpa using fun h => hnodot '.' h rfl
      refine ⟨hnoslash, hname, ?_, ?_⟩
      · unfold QFileInfo.completeBaseName
        simp only [hfile, hc, Bool.false_eq_true, if_false]
      · unfold QFileInfo.completeSuffix
        simp only [hfile, hc, Bool.false_eq_true, if_false]
  obtain ⟨hno, hne, hcb, hcs⟩ := hparts
  have hpath : QFileInfo.path song.basefilename = ['.'] := path_of_no_slash _ hne hno
  have hfb : fallbackPath song.basefilename song = song.basefilename :=
    fallbackPath_of_baseName _ song (by rw [hcb]; exact hname)
  have hrej : rejectedPath song.basefilename = false := by
    have := (rejectedPath_iff song.basefilename).not
    simp only [Bool.not_eq_true] at this
    rw [this]
    rintro (h | ⟨x, h, _⟩)
    · exact hne h
    · exact hno (by rw [h]; simp)
  have hfin : self.finishPath song.basefilename = name := by
    unfold OrganizeFormat.finishPath
    simp only [hpath, hcb]
    cases hr : self.replace_spaces_
    · simp [splitSlash_of_no_slash name hnoslash, hfix, joinSlash_singleton]
    · simp [splitSlash_of_no_slash name hnoslash, hfix, joinSlash_singleton, hmap hr]
  have hext : resolveExtension song.basefilename song extension =
      firstNonEmpty [extension, sfx, QFileInfo.completeSuffix song.url_toLocalFile] := by
    by_cases he : extension = []
    · by_cases hs : sfx = []
      · by_cases hu : QFileInfo.completeSuffix song.url_toLocalFile = []
        · simp [resolveExtension, firstNonEmpty, he, hcs, hs, hu]
        · simp [resolveExtension, firstNonEmpty, he, hcs, hs, hu]
      · simp [resolveExtension, firstNonEmpty, he, hcs, hs]
    · simp [resolveExtension, firstNonEmpty, he]
  rw [hA, hfb, hrej]
  simp only [Bool.false_eq_true, if_false, hsan, OrganizeFormat.finish, hfin, hext]
  by_cases he : firstNonEmpty [extension, sfx, QFileInfo.completeSuffix song.url_toLocalFile] = []
  · simp [he]
  · simp [he]

/-- C10, at an empty format with `remove_problematic_` set and `replace_spaces_`
off: the base file name `My Song.mp3` comes back as it is, and as `My Song.flac`
for the extension `flac`; the base file name `README` of the local file
`/music/README` comes back as it is. -/
theorem GetFilenameForSong_fallback_witness :
    (({ plainFormat [] with remove_problematic_ := true }).GetFilenameForSong plainExternal
        { fileSong with basefilename := "My Song.mp3".toList } []).filename =
        "My Song.mp3".toList ∧
      (({ plainFormat [] with remove_problematic_ := true }).GetFilenameForSong plainExternal
        { fileSong with basefilename := "My Song.mp3".toList } "flac".toList).filename =
        "My Song.flac".toList ∧
      (({ plainFormat [] with remove_problematic_ := true }).GetFilenameForSong plainExternal
        { emptySong with url_toLocalFile := "/music/README".toList,
                         basefilename := "README".toList } []).filename =
        "README".toList :=
  ⟨((GetFilenameForSong_fallback plainExternal { plainFormat [] with remove_problematic_ := true }
      { fileSong with basefilename := "My Song.mp3".toList } [] (by decide)).2.2
      "My Song".toList "mp3".toList (Or.inl ⟨rfl, by decide, by decide⟩) (by decide) (by decide)
      (by decide) (by decide) (by decide) (by decide) (by decide) (by decide)
      (by decide)).trans (by decide),
    ((GetFilenameForSong_fallback plainExternal { plainFormat [] with remove_problematic_ := true }
      { fileSong with basefilename := "My Song.mp3".toList } "flac".toList (by decide)).2.2
      "My Song".toList "mp3".toList (Or.inl ⟨rfl, by decide, by decide⟩) (by decide) (by decide)
      (by decide) (by decide) (by decide) (by decide) (by decide) (by decide)
      (by decide)).trans (by decide),
    ((GetFilenameForSong_fallback plainExternal { plainFormat [] with remove_problematic_ := true }
      { emptySong with url_toLocalFile := "/music/README".toList,
                       basefilename := "README".toList } [] (by decide)).2.2
      "README".toList [] (Or.inr ⟨rfl, rfl⟩) (by decide) (by decide)
      (by decide) (by decide) (by decide) (by decide) (by decide) (by decide)
      (by decide)).trans (by decide)⟩

/-- C11: when the path is not rejected, the returned path is the path before the
extension followed by `.` and the first text that is not empty among the
extension given by the caller, the complete suffix of the sanitized path and the
complete suffix of the local file of the song; with an extension `e` given by
the caller every result with a file name ends in `.e`; nothing is appended when
the three texts are empty. -/
theorem GetFilenameForSong_extension (ext : External) (self : OrganizeFormat) (song : Song)
    (extension : List Char) :
    (rejectedPath (fallbackPath (self.ParseBlock ext self.format_ song false).1 song) = false →
      (self.GetFilenameForSong ext song extension).filename =
        self.pathBeforeExtension ext song ++
          (if firstNonEmpty [extension,
              QFileInfo.completeSuffix (self.sanitize ext
                (fallbackPath (self.ParseBlock ext self.format_ song false).1 song)),
              QFileInfo.completeSuffix song.url_toLocalFile] = [] then []
            else '.' :: firstNonEmpty [extension,
              QFileInfo.completeSuffix (self.sanitize ext
                (fallbackPath (self.ParseBlock ext self.format_ song false).1 song)),
              QFileInfo.completeSuffix song.url_toLocalFile])) ∧
    (extension ≠ [] → (self.GetFilenameForSong ext song extension).filename ≠ [] →
      (self.GetFilenameForSong ext song extension).filename =
        self.pathBeforeExtension ext song ++ '.' :: extension) ∧
    (extension = [] →
      QFileInfo.completeSuffix (self.sanitize ext
        (fallbackPath (self.ParseBlock ext self.format_ song false).1 song)) = [] →
      QFileInfo.completeSuffix song.url_toLocalFile = [] →
      rejectedPath (fallbackPath (self.ParseBlock ext self.format_ song false).1 song) = false →
      (self.GetFilenameForSong ext song extension).filename =
        self.pathBeforeExtension ext song) := by
  generalize hp : fallbackPath (self.ParseBlock ext self.format_ song false).1 song = p
  have hfn : rejectedPath p = false →
      (self.GetFilenameForSong ext song extension).filename =
        self.finishPath (self.sanitize ext p) ++
          (if resolveExtension (self.sanitize ext p) song extension = [] then []
            else '.' :: resolveExtension (self.sanitize ext p) song extension) := by
    intro hr
    unfold OrganizeFormat.GetFilenameForSong
    simp only [hp, hr, Bool.false_eq_true, if_false, OrganizeFormat.finish]
    by_cases he : resolveExtension (self.sanitize ext p) song extension = []
    · simp [he]
    · simp [he]
  have hfirst : firstNonEmpty [extension, QFileInfo.completeSuffix (self.sanitize ext p),
      QFileInfo.completeSuffix song.url_toLocalFile] =
      resolveExtension (self.sanitize ext p) song extension := by
    unfold resolveExtension
    by_cases h1 : extension = []
    · by_cases h2 : QFileInfo.completeSuffix (self.sanitize ext p) = []
      · by_cases h3 : QFileInfo.completeSuffix song.url_toLocalFile = []
        · simp [firstNonEmpty, h1, h2, h3]
        · simp [firstNonEmpty, h1, h2, h3]
      · simp [firstNonEmpty, h1, h2]
    · simp [firstNonEmpty, h1]
  have hpath : self.pathBeforeExtension ext song = self.finishPath (self.sanitize ext p) := by
    unfold OrganizeFormat.pathBeforeExtension
    rw [hp]
  refine ⟨fun hr => ?_, fun he hvalid => ?_, fun h1 h2 h3 hr => ?_⟩
  · rw [hfn hr, hfirst, hpath]
  · have hr : rejectedPath p = false := by
      by_contra hrej
      have hrej2 : rejectedPath p = true := by simpa using hrej
      apply hvalid
      unfold OrganizeFormat.GetFilenameForSong
      simp [hp, hrej2]
    rw [hfn hr, hpath]
    simp [resolveExtension, he]
  · rw [hfn hr, hpath]
    simp [resolveExtension, h1, h2, h3]

/-- C11, at the template `%title` with the title `T`: the extension `flac` of the
caller, and without it the suffix `mp3` of the local file. -/
theorem GetFilenameForSong_extension_witness :
    ((plainFormat "%title".toList).GetFilenameForSong plainExternal
        { fileSong with title := "T".toList } "flac".toList).filename = "T.flac".toList ∧
      ((plainFormat "%title".toList).GetFilenameForSong plainExternal
        { fileSong with title := "T".toList } []).filename = "T.mp3".toList :=
  ⟨((GetFilenameForSong_extension plainExternal (plainFormat "%title".toList)
        { fileSong with title := "T".toList } "flac".toList).2.1 (by decide) (by decide)).trans
      (by decide),
    ((GetFilenameForSong_extension plainExternal (plainFormat "%title".toList)
        { fileSong with title := "T".toList } []).1 (by decide)).trans (by decide)⟩

/-- C17: the value returned by `TagValue` has no `/` and no backslash, does not
begin and does not end with white space, and has no `.` when
`remove_problematic_` is set. -/
theorem TagValue_clean (ext : External) (self : OrganizeFormat) (tag : List Char)
    (song : Song) :
    '/' ∉ self.TagValue ext tag song ∧ Char.ofNat 92 ∉ self.TagValue ext tag song ∧
      (∀ c, (self.TagValue ext tag song).head? = some c → isSpace c = false) ∧
      (∀ c, (self.TagValue ext tag song).getLast? = some c → isSpace c = false) ∧
      (self.remove_problematic_ = true → '.' ∉ self.TagValue ext tag song) := by
  obtain ⟨v1, hv⟩ := TagValue_eq_trimmed ext self tag song
  rw [hv]
  have hdir : ∀ c, c ∈ (if self.remove_problematic_ = true then
        (v1.filter fun c => !kInvalidDirCharacters c).filter fun c => c != '.'
      else v1.filter fun c => !kInvalidDirCharacters c) → kInvalidDirCharacters c = false := by
    intro c hc
    split at hc
    · have := (List.mem_filter.1 (List.mem_filter.1 hc).1).2
      simpa using this
    · have := (List.mem_filter.1 hc).2
      simpa using this
  have hslash : kInvalidDirCharacters '/' = true := by decide
  have hback : kInvalidDirCharacters (Char.ofNat 92) = true := by decide
  refine ⟨fun h => ?_, fun h => ?_, fun c h => trimmed_head_not_space _ c h,
    fun c h => trimmed_last_not_space _ c h, fun hrp h => ?_⟩
  · have := hdir _ (mem_of_mem_trimmed _ _ h)
    rw [hslash] at this
    cases this
  · have := hdir _ (mem_of_mem_trimmed _ _ h)
    rw [hback] at this
    cases this
  · have hm := mem_of_mem_trimmed _ _ h
    simp only [hrp, if_true] at hm
    have := (List.mem_filter.1 hm).2
    simp at this

/-- C18: after `set_format(v)` the stored format has the length of `v`, has `/` at
every place where `v` has a backslash and the character of `v` at every other
place, and has no backslash; the constructor stores its argument unchanged. -/
theorem set_format_replaces_backslashes (self : OrganizeFormat) (v : List Char) :
    (self.set_format v).format_.length = v.length ∧
      (∀ (i : Nat) (c : Char), v[i]? = some c →
        (self.set_format v).format_[i]? = some (if c = Char.ofNat 92 then '/' else c)) ∧
      Char.ofNat 92 ∉ (self.set_format v).format_ ∧
      (OrganizeFormat.new v).format_ = v := by
  refine ⟨by simp [OrganizeFormat.set_format], fun i c h => ?_, fun h => ?_, rfl⟩
  · simp [OrganizeFormat.set_format, List.getElem?_map, h]
  · simp only [OrganizeFormat.set_format, List.mem_map] at h
    obtain ⟨c, _, hc⟩ := h
    by_cases hb : c = Char.ofNat 92
    · rw [if_pos hb] at hc
      revert hc
      decide
    · rw [if_neg hb] at hc
      exact hb hc

/-- C13, where the code breaks it: with `remove_problematic_`, `remove_non_ascii_`
and `allow_ascii_ext_` set, the template `%title` and the title `What` followed
by U+FF1F (FULLWIDTH QUESTION MARK, whose decomposition is `?`), the question
mark is written by the loop of lines 149 to 160, after the removal of the
problematic characters at line 141, and the returned path is `What?.mp3`. -/
theorem GetFilenameForSong_problematic_returns :
    ({ plainFormat "%title".toList with
          remove_problematic_ := true, remove_non_ascii_ := true,
          allow_ascii_ext_ := true }).GetFilenameForSong foldingExternal
        { fileSong with title := "What".toList ++ [Char.ofNat 0xff1f] } [] =
      { filename := "What?.mp3".toList, unique_filename := true } := by
  decide

/-- C14: with `remove_non_ascii_` set, every character of the returned path up to
the appended extension has a code point below the ceiling (255 with
`allow_ascii_ext_`, 128 without); the removal keeps a character below the
ceiling, writes the first character of the decomposition of another character
when that one is below the ceiling, and writes nothing otherwise. -/
theorem pathBeforeExtension_ascii (ext : External) (self : OrganizeFormat) (song : Song)
    (hascii : self.remove_non_ascii_ = true) :
    (∀ c ∈ self.pathBeforeExtension ext song,
      c.toNat < (if self.allow_ascii_ext_ = true then 255 else 128)) ∧
    (∀ (ceiling : Nat) (c : Char), c.toNat < ceiling → stripNonAscii ext ceiling c = [c]) ∧
    (∀ (ceiling : Nat) (c d : Char), ceiling ≤ c.toNat → (ext.decomposition c).head? = some d →
      d.toNat < ceiling → stripNonAscii ext ceiling c = [d]) ∧
    (∀ (ceiling : Nat) (c : Char), ceiling ≤ c.toNat →
      (∀ d, (ext.decomposition c).head? = some d → ceiling ≤ d.toNat) →
      stripNonAscii ext ceiling c = []) := by
  refine ⟨fun c hc => ?_, fun ceiling c h => ?_, fun ceiling c d h hd hlt => ?_,
    fun ceiling c h hd => ?_⟩
  · unfold OrganizeFormat.pathBeforeExtension at hc
    obtain ⟨t, ht⟩ := sanitize_ascii ext self
      (fallbackPath (self.ParseBlock ext self.format_ song false).1 song) hascii
    rw [ht] at hc
    have h128 : 128 ≤ (if self.allow_ascii_ext_ = true then 255 else 128) := by
      split <;> omega
    rcases mem_finishPath self _ c hc with h | h | h
    · rcases mem_simplified _ c h with h1 | ⟨h1, _⟩
      · rw [h1]
        exact lt_of_lt_of_le (by decide) h128
      · obtain ⟨a, _, hca⟩ := List.mem_flatMap.1 h1
        exact mem_stripNonAscii ext _ a c hca
    · rw [h]
      exact lt_of_lt_of_le (by decide) h128
    · rw [h]
      exact lt_of_lt_of_le (by decide) h128
  · simp [stripNonAscii, h]
  · have hn : ¬ c.toNat < ceiling := by omega
    cases hdec : ext.decomposition c with
    | nil => rw [hdec] at hd; simp at hd
    | cons x xs =>
      rw [hdec] at hd
      have hx : x = d := by simpa using hd
      simp [stripNonAscii, hn, hdec, hx, hlt]
  · have hn : ¬ c.toNat < ceiling := by omega
    cases hdec : ext.decomposition c with
    | nil => simp [stripNonAscii, hn, hdec]
    | cons x xs =>
      have := hd x (by rw [hdec]; rfl)
      have hx : ¬ x.toNat < ceiling := by omega
      simp [stripNonAscii, hn, hdec, hx]

/-- C14, at the title `Caf`, U+00E9, U+65E5, U+FF1F with the ceiling 255: the first
is below the ceiling and kept, the second has no decomposition and is dropped,
the third is replaced by the `?` of its decomposition. -/
theorem pathBeforeExtension_ascii_witness :
    ({ plainFormat "%title".toList with
          remove_non_ascii_ := true, allow_ascii_ext_ := true }).pathBeforeExtension
        foldingExternal
        { fileSong with
          title := "Caf".toList ++ [Char.ofNat 0xe9, Char.ofNat 0x65e5, Char.ofNat 0xff1f] } =
        "Caf".toList ++ [Char.ofNat 0xe9, '?'] ∧
      ∀ c ∈ ({ plainFormat "%title".toList with
          remove_non_ascii_ := true, allow_ascii_ext_ := true }).pathBeforeExtension
        foldingExternal
        { fileSong with
          title := "Caf".toList ++ [Char.ofNat 0xe9, Char.ofNat 0x65e5, Char.ofNat 0xff1f] },
        c.toNat < 255 :=
  ⟨by decide,
    (pathBeforeExtension_ascii foldingExternal
      { plainFormat "%title".toList with remove_non_ascii_ := true, allow_ascii_ext_ := true }
      { fileSong with
        title := "Caf".toList ++ [Char.ofNat 0xe9, Char.ofNat 0x65e5, Char.ofNat 0xff1f] }
      rfl).1⟩

/-- C15, where the code breaks it: with the options of the constructor
(`replace_spaces_` set), the template `%title` and the title `Mr. Big`, the text
after the first dot is taken as the extension before the spaces are replaced and
is appended afterwards, and the returned path is `Mr. Big`, with its space. -/
theorem GetFilenameForSong_keeps_space :
    (OrganizeFormat.new "%title".toList).GetFilenameForSong plainExternal
        { fileSong with title := "Mr. Big".toList } [] =
      { filename := "Mr. Big".toList, unique_filename := true } := by
  decide

/-- C16, where the code breaks it: the dot fix-up removes one leading dot of a
part each time it runs, and the extension fix-up doubles the middle of a file
name with two dots each time it runs; with every option off the pipeline maps
`..a/x.mp3` to `.a/x.mp3`, and maps that to `a/x.mp3`; it maps `a.b.c` to
`a.b.b.c`, and maps that to `a.b.b.b.b.c`. -/
theorem pipeline_not_idempotent :
    (plainFormat []).pipeline plainExternal fileSong "..a/x.mp3".toList = ".a/x.mp3".toList ∧
      (plainFormat []).pipeline plainExternal fileSong
          ((plainFormat []).pipeline plainExternal fileSong "..a/x.mp3".toList) =
        "a/x.mp3".toList ∧
      (plainFormat []).pipeline plainExternal fileSong
          ((plainFormat []).pipeline plainExternal fileSong "..a/x.mp3".toList) ≠
        (plainFormat []).pipeline plainExternal fileSong "..a/x.mp3".toList ∧
      (plainFormat []).pipeline plainExternal fileSong "a.b.c".toList = "a.b.b.c".toList ∧
      (plainFormat []).pipeline plainExternal fileSong
          ((plainFormat []).pipeline plainExternal fileSong "a.b.c".toList) =
        "a.b.b.b.b.c".toList := by
  decide

/-- Fixed points of the pipeline: for every setting of the options, a path
`pre ++ name.sfx`, where `pre` is empty or a directory followed by a slash, made
of plain characters and slashes, and `name` and `sfx` are made of plain
characters, `sfx` not empty (and which the transliteration leaves as it is), is
returned unchanged by the pipeline; so the pipeline applied to its own output
returns that output. -/
theorem pipeline_fixed (ext : External) (self : OrganizeFormat) (song : Song)
    (pre name sfx : List Char)
    (hpre : pre = [] ∨ ∃ d, d ≠ [] ∧ pre = d ++ ['/'])
    (hprec : ∀ c ∈ pre, isPlainCharacter c = true ∨ c = '/')
    (hn : ∀ c ∈ name, isPlainCharacter c = true)
    (hs : ∀ c ∈ sfx, isPlainCharacter c = true) (hsfx : sfx ≠ [])
    (ht : ext.Transliterate (pre ++ (name ++ '.' :: sfx)) = pre ++ (name ++ '.' :: sfx)) :
    self.pipeline ext song (pre ++ (name ++ '.' :: sfx)) = pre ++ (name ++ '.' :: sfx) ∧
      self.pipeline ext song (self.pipeline ext song (pre ++ (name ++ '.' :: sfx))) =
        self.pipeline ext song (pre ++ (name ++ '.' :: sfx)) := by
  have hplain : ∀ c, isPlainCharacter c = true →
      c ≠ '/' ∧ c ≠ '.' ∧ isSpace c = false ∧ isRegexSpace c = false ∧
        kProblematicCharacters c = false ∧ isFatCharacter c = true ∧ c.toNat < 128 := by
    intro c hc
    obtain ⟨h1, h2, h3, h4⟩ := isPlainCharacter_facts c hc
    obtain ⟨h5, h6, h7, h8⟩ := isFatSafe_facts c h1
    exact ⟨h4, h3, (h8 h2).1, (h8 h2).2, h5, h6, h7⟩
  have hslash : isSpace '/' = false ∧ isRegexSpace '/' = false ∧
      kProblematicCharacters '/' = false ∧ isFatCharacter '/' = true ∧ ('/' : Char).toNat < 128 := by
    decide
  have hdotc : isSpace '.' = false ∧ isRegexSpace '.' = false ∧
      kProblematicCharacters '.' = false ∧ isFatCharacter '.' = true ∧ ('.' : Char).toNat < 128 := by
    decide
  have hpre2 : pre = [] ∨ ∃ d, d ≠ [] ∧ d ≠ ['.'] ∧ pre = d ++ ['/'] := by
    rcases hpre with h | ⟨d, hd, h⟩
    · exact Or.inl h
    · refine Or.inr ⟨d, hd, ?_, h⟩
      rintro rfl
      rcases hprec '.' (by rw [h]; simp) with h1 | h1
      · exact (hplain _ h1).2.1 rfl
      · revert h1; decide
  obtain ⟨hcb, hcs, hdir⟩ := plainPath_facts pre name sfx hpre2
    (fun c hc => ⟨(hplain c (hn c hc)).1, (hplain c (hn c hc)).2.1⟩)
    (fun c hc => ⟨(hplain c (hs c hc)).1, (hplain c (hs c hc)).2.1⟩)
  have hclean : ∀ c ∈ pre ++ (name ++ '.' :: sfx), isSpace c = false ∧
      kProblematicCharacters c = false ∧ isFatCharacter c = true ∧ c.toNat < 128 := by
    intro c hc
    have pl : isPlainCharacter c = true → isSpace c = false ∧
        kProblematicCharacters c = false ∧ isFatCharacter c = true ∧ c.toNat < 128 :=
      fun h => ⟨(hplain c h).2.2.1, (hplain c h).2.2.2.2.1, (hplain c h).2.2.2.2.2.1,
        (hplain c h).2.2.2.2.2.2⟩
    rcases List.mem_append.1 hc with h | h
    · rcases hprec c h with h1 | h1
      · exact pl h1
      · rw [h1]; exact ⟨hslash.1, hslash.2.2.1, hslash.2.2.2.1, hslash.2.2.2.2⟩
    · rcases List.mem_append.1 h with h | h
      · exact pl (hn c h)
      · rcases List.mem_cons.1 h with h | h
        · rw [h]; exact ⟨hdotc.1, hdotc.2.2.1, hdotc.2.2.2.1, hdotc.2.2.2.2⟩
        · exact pl (hs c h)
  have hsan := sanitize_of_clean ext self _ hclean ht
  have hstem : ∀ c ∈ pre ++ name, c ≠ '.' ∧ isSpace c = false ∧ isRegexSpace c = false := by
    intro c hc
    rcases List.mem_append.1 hc with h | h
    · rcases hprec c h with h1 | h1
      · exact ⟨(hplain c h1).2.1, (hplain c h1).2.2.1, (hplain c h1).2.2.2.1⟩
      · rw [h1]; exact ⟨by decide, hslash.1, hslash.2.1⟩
    · exact ⟨(hplain c (hn c h)).2.1, (hplain c (hn c h)).2.2.1, (hplain c (hn c h)).2.2.2.1⟩
  have hfin : self.finishPath (pre ++ (name ++ '.' :: sfx)) = pre ++ name := by
    unfold OrganizeFormat.finishPath
    simp only [hdir, hcb]
    rw [fixParts_of_plain (pre ++ name) (fun c hc => ⟨(hstem c hc).1, (hstem c hc).2.1⟩),
      map_replace_of_no_space (pre ++ name) (fun c hc => (hstem c hc).2.2)]
    simp
  have hext : resolveExtension (pre ++ (name ++ '.' :: sfx)) song [] = sfx := by
    simp [resolveExtension, hcs, hsfx]
  have hfix : self.pipeline ext song (pre ++ (name ++ '.' :: sfx)) =
      pre ++ (name ++ '.' :: sfx) := by
    unfold OrganizeFormat.pipeline OrganizeFormat.finish
    simp only [hsan, hfin, hext]
    simp [hsfx]
  exact ⟨hfix, by rw [hfix, hfix]⟩

/-- The path `Pink_Floyd/The_Wall/03_Song.mp3` with every option set is a fixed
point of the pipeline. -/
theorem pipeline_fixed_witness :
    ({ format_ := [], remove_problematic_ := true, remove_non_fat_ := true,
        remove_non_ascii_ := true, allow_ascii_ext_ := false,
        replace_spaces_ := true } : OrganizeFormat).pipeline plainExternal fileSong
        "Pink_Floyd/The_Wall/03_Song.mp3".toList = "Pink_Floyd/The_Wall/03_Song.mp3".toList :=
  (pipeline_fixed plainExternal _ fileSong "Pink_Floyd/The_Wall/".toList "03_Song".toList
    "mp3".toList (Or.inr ⟨"Pink_Floyd/The_Wall".toList, by decide, by decide⟩) (by decide)
    (by decide) (by decide) (by decide) rfl).1

/-- C19, as the claim states it, fails: for the album artist `007` nothing is
removed, the first character is `0`, which is no separator and no dot, and
`TagValue("artistinitial")` is empty and not `0`, because the value `0` is
taken as absent like every other value. -/
theorem TagValue_artistinitial_zero :
    (plainFormat []).TagValue plainExternal "artistinitial".toList
        { emptySong with effective_albumartist := "007".toList } = [] ∧
      (removeLeadingThe (trimmed "007".toList)).head? = some '0' ∧
      firstUnitUpper plainExternal '0' = '0' ∧ kInvalidDirCharacters '0' = false := by
  decide

/-- C19, amended: with `t` the trimmed effective album artist, the value of
`artistinitial` is empty when `t` is empty; otherwise `t` without its leading
`the` and white space has a first character `c`, and the value is made from the
first code unit of the text in upper case: it is that one unit, or empty when
the unit is `0`, a slash or backslash, a dot under `remove_problematic_`, or
white space.  For a character of the Basic Multilingual Plane the unit is the
character and the value is its upper case; for another character the unit is
the high surrogate of the character, a code unit from 0xD800 to 0xDBFF.  The
value never has more than one unit; a leading `the` in any letter case with the
white space (class `\s`) after it is what is removed. -/
theorem TagValue_artistinitial (ext : External) (self : OrganizeFormat) (song : Song) :
    (trimmed song.effective_albumartist = [] →
      self.TagValue ext "artistinitial".toList song = []) ∧
    (trimmed song.effective_albumartist ≠ [] →
      ∃ c rest, removeLeadingThe (trimmed song.effective_albumartist) = c :: rest ∧
        self.TagValue ext "artistinitial".toList song =
          if firstUnitUpper ext c = '0' ∨ kInvalidDirCharacters (firstUnitUpper ext c) = true ∨
              (self.remove_problematic_ = true ∧ firstUnitUpper ext c = '.') ∨
              isSpace (firstUnitUpper ext c) = true then []
          else [firstUnitUpper ext c]) ∧
    (∀ c : Char, c.toNat < 0x10000 → firstUnitUpper ext c = toUpper ext c) ∧
    (∀ c : Char, 0x10000 ≤ c.toNat →
      firstUnitUpper ext c = ext.unpaired (highSurrogate c) ∧
        0xd800 ≤ highSurrogate c ∧ highSurrogate c ≤ 0xdbff) ∧
    (self.TagValue ext "artistinitial".toList song).length ≤ 1 ∧
    (∀ (a b c : Char) (w rest : List Char), (a = 't' ∨ a = 'T') → (b = 'h' ∨ b = 'H') →
      (c = 'e' ∨ c = 'E') → w ≠ [] → (∀ x ∈ w, isRegexSpace x = true) →
      (∀ x, rest.head? = some x → isRegexSpace x = false) →
      removeLeadingThe (a :: b :: c :: (w ++ rest)) = rest) := by
  have hempty : trimmed song.effective_albumartist = [] →
      self.TagValue ext "artistinitial".toList song = [] := by
    intro h
    have hd : TagValueDispatch ext "artistinitial".toList song = [] := by
      rw [TagValueDispatch_artistinitial]
      simp [h]
    unfold OrganizeFormat.TagValue
    rw [hd]
    cases self.remove_problematic_ <;> simp [trimmed_nil]
  have hfull : trimmed song.effective_albumartist ≠ [] →
      ∃ c rest, removeLeadingThe (trimmed song.effective_albumartist) = c :: rest ∧
        self.TagValue ext "artistinitial".toList song =
          if firstUnitUpper ext c = '0' ∨ kInvalidDirCharacters (firstUnitUpper ext c) = true ∨
              (self.remove_problematic_ = true ∧ firstUnitUpper ext c = '.') ∨
              isSpace (firstUnitUpper ext c) = true then []
          else [firstUnitUpper ext c] := by
    intro h
    have hne := removeLeadingThe_ne_nil _ h (trimmed_getLast_not_space _ h)
    cases hr : removeLeadingThe (trimmed song.effective_albumartist) with
    | nil => exact absurd hr hne
    | cons c rest =>
      refine ⟨c, rest, rfl, ?_⟩
      apply TagValue_of_single
      rw [TagValueDispatch_artistinitial]
      simp [h, hr]
  refine ⟨hempty, hfull, (firstUnitUpper_facts ext).1,
    fun c h => ⟨(firstUnitUpper_facts ext).2 c h, highSurrogate_range c h⟩, ?_, ?_⟩
  · by_cases h : trimmed song.effective_albumartist = []
    · rw [hempty h]; simp
    · obtain ⟨c, rest, _, hv⟩ := hfull h
      rw [hv]
      split <;> simp
  · intro a b c w rest ha hb hc hw hall hrest
    cases w with
    | nil => exact absurd rfl hw
    | cons x xs =>
      have hx : isRegexSpace x = true := hall x (by simp)
      have hxs : ∀ y ∈ xs, isRegexSpace y = true := fun y hy => hall y (by simp [hy])
      have hdrop : (xs ++ rest).dropWhile isRegexSpace = rest := by
        cases rest with
        | nil => simpa using hxs
        | cons r rs => exact dropWhile_append_all isRegexSpace xs r rs hxs (hrest r rfl)
      simp [removeLeadingThe, ha, hb, hc, hx, hdrop]

/-- C19, at the album artist `the Beatles`: the value is `B`; and at a first
character outside the Basic Multilingual Plane, U+1D538, whose first code unit
is the high surrogate 0xD835. -/
theorem TagValue_artistinitial_witness :
    (plainFormat []).TagValue plainExternal "artistinitial".toList
        { emptySong with effective_albumartist := "the Beatles".toList } = "B".toList ∧
      (firstUnitUpper plainExternal (Char.ofNat 0x1d538) =
          plainExternal.unpaired (highSurrogate (Char.ofNat 0x1d538)) ∧
        0xd800 ≤ highSurrogate (Char.ofNat 0x1d538) ∧
        highSurrogate (Char.ofNat 0x1d538) ≤ 0xdbff) ∧
      highSurrogate (Char.ofNat 0x1d538) = 0xd835 := by
  refine ⟨?_, (TagValue_artistinitial plainExternal (plainFormat []) emptySong).2.2.2.1
    (Char.ofNat 0x1d538) (by decide), by decide⟩
  obtain ⟨c, rest, hr, hv⟩ := (TagValue_artistinitial plainExternal (plainFormat [])
    { emptySong with effective_albumartist := "the Beatles".toList }).2.1 (by decide)
  have hc : removeLeadingThe (trimmed "the Beatles".toList) = "Beatles".toList := by decide
  have : c = 'B' := by
    have h2 : c :: rest = "Beatles".toList := hr.symm.trans hc
    exact (List.cons.inj h2).1
  subst this
  rw [hv]
  decide

/-- C20, as the claim states it, fails: in the template `{a{%disc}b%title}` the
inner block is resolved and the scan goes on behind it, so the enclosing block
is never matched; with disc 1 and title `T` the resolved text is `{a1bT}`. -/
theorem ParseBlock_nested_keeps_braces :
    ((plainFormat []).ParseBlock plainExternal
        (kOpen :: ("a".toList ++ kOpen :: ("%disc".toList ++ kClose ::
          ("b%title".toList ++ [kClose]))))
        { emptySong with disc := 1, title := "T".toList } false).1 =
      kOpen :: ("a1bT".toList ++ [kClose]) := by
  decide

/-- C20, amended: for a template whose braces are balanced with a depth of at
most 1 (no block inside a block) and in which no block has an empty content,
and a record whose values under the known tags have no brace, the resolved text
has no brace. -/
theorem ParseBlock_resolves_flat_blocks (ext : External) (self : OrganizeFormat)
    (template : List Char) (song : Song) (have_tagdata : Bool)
    (hbal : BracesBalanced template) (hne : hasEmptyBlock template = false)
    (hval : ∀ tag ∈ kKnownTags, BraceFree (TagValueDispatch ext tag song)) :
    BraceFree (self.ParseBlock ext template song have_tagdata).1 := by
  have hval2 := TagValue_braceFree_of_known ext self song hval
  unfold OrganizeFormat.ParseBlock
  rw [ParseBlockFuel_succ]
  have hparse : ∀ c h, BraceFree c →
      BraceFree (ParseBlockFuel (fun tag => self.TagValue ext tag song) template.length c h).1 := by
    intro c h hc
    cases hl : template.length with
    | zero => exact hc
    | succ m =>
      rw [ParseBlockFuel_braceFree _ m c h hc]
      exact substituteTags_braceFree _ hval2 c.length c (le_refl _) hc
  have hb := blockLoop_flat _ hparse (template.length + 1) template (Nat.lt_succ_self _) hbal hne
    [] have_tagdata (fun c hc => absurd hc (List.not_mem_nil c))
  rw [tagLoop_spec _ _ [] _ _ false (Nat.lt_succ_self _)]
  exact substituteTags_braceFree _ hval2 _ _ (le_refl _) hb

/-- C20, at the template `{Disc %disc }{%track }%title` with disc 1 and title `T`. -/
theorem ParseBlock_resolves_flat_blocks_witness :
    BraceFree ((plainFormat []).ParseBlock plainExternal
      (kOpen :: ("Disc %disc ".toList ++ kClose :: kOpen :: ("%track ".toList ++
        kClose :: "%title".toList)))
      { emptySong with disc := 1, title := "T".toList } false).1 :=
  ParseBlock_resolves_flat_blocks plainExternal (plainFormat []) _
    { emptySong with disc := 1, title := "T".toList } false (by decide) (by decide) (by decide)

/-- C21, where the code breaks it: the tag pass of the outer call starts again at
position 0 of the text in which the block has been replaced by its value, so
the value is scanned for placeholders.  With the title `50%` the template
`{%title}` resolves to `50`, and the template `%title` to `50%`; with the title
`%artist` and the artist `A` the template `{%title}` resolves to `A`. -/
theorem ParseBlock_scans_block_value_again :
    ((plainFormat []).ParseBlock plainExternal (kOpen :: ("%title".toList ++ [kClose]))
        { emptySong with title := "50%".toList } false).1 = "50".toList ∧
      ((plainFormat []).ParseBlock plainExternal "%title".toList
        { emptySong with title := "50%".toList } false).1 = "50%".toList ∧
      ((plainFormat []).ParseBlock plainExternal (kOpen :: ("%title".toList ++ [kClose]))
        { emptySong with title := "%artist".toList, artist := "A".toList } false).1 =
        "A".toList := by
  decide

/-- C22, as the claim states it, fails: the template `{}` is accepted by
`IsValid()` (the depth goes from 0 to 1 and back to 0), and the pattern of a
block wants at least one character between the braces, so `ParseBlock` leaves
the two braces in the resolved text. -/
theorem IsValid_accepts_empty_block :
    (plainFormat [kOpen, kClose]).IsValid = true ∧
      ((plainFormat [kOpen, kClose]).ParseBlock plainExternal [kOpen, kClose] emptySong
        false).1 = [kOpen, kClose] := by
  decide

/-- C22, amended: for a template that `IsValid()` accepts and in which no block
has an empty content, and a record whose values under the known tags have no
brace, the resolved text has no brace. -/
theorem ParseBlock_consumes_valid_blocks (ext : External) (self : OrganizeFormat) (song : Song)
    (have_tagdata : Bool) (hvalid : self.IsValid = true)
    (hne : hasEmptyBlock self.format_ = false)
    (hval : ∀ tag ∈ kKnownTags, BraceFree (TagValueDispatch ext tag song)) :
    BraceFree (self.ParseBlock ext self.format_ song have_tagdata).1 := by
  unfold OrganizeFormat.IsValid at hvalid
  rw [beq_iff_eq, validate_spec] at hvalid
  exact ParseBlock_flat_braceFree ext self self.format_ song have_tagdata hvalid.1 hne hval

/-- C22, at the template `%artist/{%track }%title` with track 3 and title `T`. -/
theorem ParseBlock_consumes_valid_blocks_witness :
    BraceFree ((plainFormat ("%artist/".toList ++ kOpen :: ("%track ".toList ++
        kClose :: "%title".toList))).ParseBlock plainExternal
      ("%artist/".toList ++ kOpen :: ("%track ".toList ++ kClose :: "%title".toList))
      { emptySong with track := 3, title := "T".toList } false).1 :=
  ParseBlock_consumes_valid_blocks plainExternal
    (plainFormat ("%artist/".toList ++ kOpen :: ("%track ".toList ++ kClose :: "%title".toList)))
    { emptySong with track := 3, title := "T".toList } false (by decide) (by decide) (by decide)

/-- C23: the complete base name of a path is empty exactly when its file name is
empty (the path is empty or ends in `/`) or is a dot followed by text without a
dot; for a resolved path `d/f` with such a file name `f` the file name is
replaced by the base file name of the record, with the one `/` of the path
between `d` and the name, also when `d` is empty, and with no further `/` when
`d` ends in one; a resolved path without `/` gives `./` and the base file name;
with every option off the template `%artist/`, the artist `A` and the base file
name `x.mp3` give `A/x.mp3`. -/
theorem fallbackPath_empty_baseName (song : Song) :
    (∀ r : List Char, QFileInfo.completeBaseName r = [] ↔
        QFileInfo.fileName r = [] ∨ ∃ e, QFileInfo.fileName r = '.' :: e ∧ '.' ∉ e) ∧
      (∀ d f : List Char, '/' ∉ f → QFileInfo.completeBaseName (d ++ '/' :: f) = [] →
        d.getLast? ≠ some '/' →
          fallbackPath (d ++ '/' :: f) song = d ++ '/' :: song.basefilename) ∧
      (∀ d f : List Char, '/' ∉ f → QFileInfo.completeBaseName (d ++ '/' :: f) = [] →
        d.getLast? = some '/' → fallbackPath (d ++ '/' :: f) song = d ++ song.basefilename) ∧
      (∀ f : List Char, f ≠ [] → '/' ∉ f → QFileInfo.completeBaseName f = [] →
        fallbackPath f song = '.' :: '/' :: song.basefilename) ∧
      (plainFormat "%artist/".toList).GetFilenameForSong plainExternal
          { emptySong with artist := "A".toList, basefilename := "x.mp3".toList } [] =
        { filename := "A/x.mp3".toList, unique_filename := false } := by
  refine ⟨completeBaseName_eq_nil_iff, fun d f hf hcb hl => ?_, fun d f hf hcb hl => ?_,
    fun f hne hf hcb => fallbackPath_current song f hne hf hcb, by decide⟩
  · rw [fallbackPath_directory song d f hf hcb, if_neg hl]
    simp
  · rw [fallbackPath_directory song d f hf hcb, if_pos hl]

/-- C23, at the resolved paths `A/` and `A/.mp3`, `A//` and `.mp3` with the base
file name `x.mp3`. -/
theorem fallbackPath_empty_baseName_witness :
    fallbackPath "A/".toList fileSong = "A/x.mp3".toList ∧
      fallbackPath "A/.mp3".toList fileSong = "A/x.mp3".toList ∧
      fallbackPath "A//".toList fileSong = "A/x.mp3".toList ∧
      fallbackPath ".mp3".toList fileSong = "./x.mp3".toList :=
  ⟨(fallbackPath_empty_baseName fileSong).2.1 "A".toList [] (by decide) (by decide) (by decide),
    (fallbackPath_empty_baseName fileSong).2.1 "A".toList ".mp3".toList (by decide) (by decide)
      (by decide),
    (fallbackPath_empty_baseName fileSong).2.2.1 "A/".toList [] (by decide) (by decide)
      (by decide),
    (fallbackPath_empty_baseName fileSong).2.2.2.1 ".mp3".toList (by decide) (by decide)
      (by decide)⟩

/-- C24: with `replace_spaces_` off, the returned path up to the appended
extension has no two neighbouring characters that are both white space, its
only white space character is the space, and none of the parts between its
`/` starts or ends with white space. -/
theorem pathBeforeExtension_white_space (ext : External) (self : OrganizeFormat) (song : Song)
    (hoff : self.replace_spaces_ = false) :
    (∀ (pre post : List Char) (a b : Char),
        self.pathBeforeExtension ext song = pre ++ a :: b :: post →
          ¬ (isSpace a = true ∧ isSpace b = true)) ∧
      (∀ c ∈ self.pathBeforeExtension ext song, isSpace c = true → c = ' ') ∧
      ∀ part ∈ splitSlash (self.pathBeforeExtension ext song),
        (∀ c, part.head? = some c → isSpace c = false) ∧
          (∀ c, part.getLast? = some c → isSpace c = false) := by
  have hs : ∃ t, self.sanitize ext
      (fallbackPath (self.ParseBlock ext self.format_ song false).1 song) = simplified t :=
    ⟨_, rfl⟩
  obtain ⟨t, ht⟩ := hs
  obtain ⟨x, hx, hchain⟩ := finishPath_parts self (simplified t) hoff
  have hp : self.pathBeforeExtension ext song = joinSlash ((splitSlash x).map fixPart) := by
    unfold OrganizeFormat.pathBeforeExtension
    rw [ht, hx]
  have hxc := hchain (noDoubleSpace_simplified t)
  refine ⟨fun pre post a b he => ?_, fun c hc hsp => ?_, fun part hpart => ?_⟩
  · have hall : NoDoubleSpace (joinSlash ((splitSlash x).map fixPart)) := by
      apply noDoubleSpace_joinSlash
      intro p hp2
      obtain ⟨q, hq, rfl⟩ := List.mem_map.1 hp2
      exact noDoubleSpace_of_contiguous hxc ((fixPart_contiguous q).trans (splitSlash_contiguous x q hq))
    rw [← hp, he] at hall
    have hab : NoDoubleSpace [a, b] :=
      noDoubleSpace_of_contiguous hall ⟨pre, post, by simp⟩
    unfold NoDoubleSpace at hab
    exact List.chain'_pair.1 hab
  · have hc2 : c ∈ self.finishPath (simplified t) := by
      unfold OrganizeFormat.pathBeforeExtension at hc
      rw [ht] at hc
      exact hc
    rcases mem_finishPath self _ c hc2 with h | h | h
    · rcases mem_simplified t c h with h1 | ⟨_, h1⟩
      · exact h1
      · rw [h1] at hsp
        exact absurd hsp (by decide)
    · rw [h] at hsp
      exact absurd hsp (by decide)
    · rw [h] at hsp
      exact absurd hsp (by decide)
  · rw [hp, splitSlash_joinSlash _ (fixedParts_facts x).1 (fixedParts_facts x).2] at hpart
    obtain ⟨q, _, rfl⟩ := List.mem_map.1 hpart
    exact fixPart_ends q

/-- C24, at the template `%artist / %title` with the artist ` Pink   Floyd ` and a
title of `a`, a tab, a no-break space and `b`: the returned path up to the
extension is `Pink Floyd/a b`. -/
theorem pathBeforeExtension_white_space_witness :
    (plainFormat "%artist / %title".toList).pathBeforeExtension plainExternal
        { fileSong with artist := " Pink   Floyd ".toList,
                        title := ['a', Char.ofNat 9, Char.ofNat 0xa0, 'b'] } =
        "Pink Floyd/a b".toList ∧
      ∀ c ∈ (plainFormat "%artist / %title".toList).pathBeforeExtension plainExternal
          { fileSong with artist := " Pink   Floyd ".toList,
                          title := ['a', Char.ofNat 9, Char.ofNat 0xa0, 'b'] },
        isSpace c = true → c = ' ' :=
  ⟨by decide,
    (pathBeforeExtension_white_space plainExternal (plainFormat "%artist / %title".toList)
      { fileSong with artist := " Pink   Floyd ".toList,
                      title := ['a', Char.ofNat 9, Char.ofNat 0xa0, 'b'] } rfl).2.1⟩

/-- C25, where the code breaks it: the dot fix-up removes one leading dot of a
part; with every option off, the template `%album/%title`, the album
`...And Justice for All` and the title `One`, the first part of the returned
path is `..And Justice for All`. -/
theorem GetFilenameForSong_part_starts_with_dot :
    (plainFormat "%album/%title".toList).GetFilenameForSong plainExternal
        { fileSong with album := "...And Justice for All".toList, title := "One".toList } [] =
      { filename := "..And Justice for All/One.mp3".toList, unique_filename := true } := by
  decide

/-- C26: a match of the tag pattern and a match of the block pattern leave a
text after the match that is shorter than the text that was scanned, so the
scan moves forward over the text from `pos` by at least one character per match
in the tag loop, in the block loop and in the tag scan of the validator (what
shrinks is the text from `pos`: the index stays where it is when a match at
`pos` is replaced by the empty text); the content of a block, on
which `ParseBlock` calls itself, is shorter than the scanned text; and each of
the loops, `ParseBlock` and the tag scan of the validator gives the same result
for every bound above the length of its text, which is the result of the loop
that ends when no match is left. -/
theorem ParseBlock_and_validate_terminate (tv : List Char → List Char) :
    (∀ rest pre tag post : List Char, matchTag rest = some (pre, tag, post) →
        post.length < rest.length) ∧
      (∀ rest pre content post : List Char, matchBlock rest = some (pre, content, post) →
        post.length < rest.length ∧ content.length < rest.length) ∧
      (∀ (n : Nat) (done rest : List Char) (have_tagdata empty : Bool), rest.length < n →
        tagLoop tv n done rest have_tagdata empty =
          tagLoop tv (rest.length + 1) done rest have_tagdata empty) ∧
      (∀ (parse : List Char → Bool → List Char × Bool × Bool) (n : Nat) (done rest : List Char)
        (have_tagdata : Bool), rest.length < n →
        blockLoop parse n done rest have_tagdata =
          blockLoop parse (rest.length + 1) done rest have_tagdata) ∧
      (∀ (n : Nat) (block : List Char) (have_tagdata : Bool), block.length < n →
        ParseBlockFuel tv n block have_tagdata =
          ParseBlockFuel tv (block.length + 1) block have_tagdata) ∧
      (∀ (n : Nat) (input : List Char), input.length < n →
        validateTags n input = validateTags (input.length + 1) input) :=
  ⟨matchTag_post_length, matchBlock_lengths,
    fun n done rest have_tagdata empty h => tagLoop_fuel tv n done rest have_tagdata empty h,
    fun parse n done rest have_tagdata h =>
      blockLoop_fuel parse n (rest.length + 1) done rest have_tagdata h (Nat.lt_succ_self _),
    fun n block have_tagdata h => ParseBlockFuel_fuel tv n block have_tagdata h,
    fun n input h => validateTags_fuel n (input.length + 1) input h (Nat.lt_succ_self _)⟩

/-- C26, at the template `{%disc }%title`: the block leaves the text `%title` (6
characters of the 15), its content has 6 characters, and the bound 100 gives
the result of `ParseBlock`. -/
theorem ParseBlock_and_validate_terminate_witness :
    ("%title".toList.length < (kOpen :: ("%disc ".toList ++ kClose :: "%title".toList)).length ∧
        "%disc ".toList.length <
          (kOpen :: ("%disc ".toList ++ kClose :: "%title".toList)).length) ∧
      ParseBlockFuel (fun tag => (plainFormat []).TagValue plainExternal tag fullSong) 100
          (kOpen :: ("%disc ".toList ++ kClose :: "%title".toList)) false =
        (plainFormat []).ParseBlock plainExternal
          (kOpen :: ("%disc ".toList ++ kClose :: "%title".toList)) fullSong false :=
  ⟨(ParseBlock_and_validate_terminate
      (fun tag => (plainFormat []).TagValue plainExternal tag fullSong)).2.1
      (kOpen :: ("%disc ".toList ++ kClose :: "%title".toList)) [] "%disc ".toList
      "%title".toList (by decide),
    (ParseBlock_and_validate_terminate
      (fun tag => (plainFormat []).TagValue plainExternal tag fullSong)).2.2.2.2.1 100
      (kOpen :: ("%disc ".toList ++ kClose :: "%title".toList)) false (by decide)⟩

/-- C27: when the trimmed effective album artist is not empty, the text that is
left after the removal of a leading `the` and its white space is not empty, so
`value[0]` exists. -/
theorem artistinitial_index_in_bounds (song : Song)
    (h : trimmed song.effective_albumartist ≠ []) :
    removeLeadingThe (trimmed song.effective_albumartist) ≠ [] ∧
      ∃ c, (removeLeadingThe (trimmed song.effective_albumartist))[0]? = some c := by
  have hne := removeLeadingThe_ne_nil _ h (trimmed_getLast_not_space _ h)
  refine ⟨hne, ?_⟩
  cases hr : removeLeadingThe (trimmed song.effective_albumartist) with
  | nil => exact absurd hr hne
  | cons c rest => exact ⟨c, by simp⟩

/-- C27, at the album artists `the ` (trimmed to `the`, nothing removed) and
`The  Who`. -/
theorem artistinitial_index_in_bounds_witness :
    removeLeadingThe (trimmed "the ".toList) = "the".toList ∧
      removeLeadingThe (trimmed "The  Who".toList) = "Who".toList ∧
      removeLeadingThe (trimmed { emptySong with
        effective_albumartist := "the ".toList }.effective_albumartist) ≠ [] :=
  ⟨by decide, by decide,
    (artistinitial_index_in_bounds { emptySong with effective_albumartist := "the ".toList }
      (by decide)).1⟩

/-- C28: for a name that is not in `kKnownTags`, among them the empty name and
the names `Title` and `TITLE`, `TagValue` returns the empty text for every
record; for every name in `kKnownTags` there is a record for which `TagValue`
is not empty. -/
theorem TagValue_covers_known_tags (ext : External) (self : OrganizeFormat) :
    (∀ (name : List Char) (song : Song), name ∉ kKnownTags →
        self.TagValue ext name song = []) ∧
      (∀ name ∈ kKnownTags, ∃ song : Song, self.TagValue ext name song ≠ []) ∧
      ([] : List Char) ∉ kKnownTags ∧ "Title".toList ∉ kKnownTags ∧
      "TITLE".toList ∉ kKnownTags := by
  refine ⟨fun name song h => ?_, fun name h => ⟨fullSong, ?_⟩, by decide, by decide, by decide⟩
  · have hd := TagValueDispatch_unknown ext name song h
    have ht : name ≠ "track".toList := fun e => h (e ▸ by decide)
    obtain ⟨v0, v, hv0, hv, heq⟩ := TagValue_structure ext self name song
    rw [hd] at hv0
    have h0 : v0 = [] := by rw [hv0]; decide
    have h1 : v = [] := by rw [hv, if_neg (fun hc => ht hc.1), h0]
    rw [heq, h1]
    cases self.remove_problematic_ <;> decide
  · rw [TagValue_option,
      TagValue_congr ext plainExternal _ name fullSong fullSong
        (TagValueDispatch_fullSong ext name h)]
    exact TagValue_fullSong _ name h

/-- C28, at the names `extension` (known) and `Artist` (not known). -/
theorem TagValue_covers_known_tags_witness :
    (∃ song : Song, (plainFormat []).TagValue plainExternal "extension".toList song ≠ []) ∧
      (plainFormat []).TagValue plainExternal "Artist".toList fullSong = [] :=
  ⟨(TagValue_covers_known_tags plainExternal (plainFormat [])).2.1 _ (by decide),
    (TagValue_covers_known_tags plainExternal (plainFormat [])).1 _ fullSong (by decide)⟩

/-- C29, where the code breaks it: the path is put together from its complete
base name (up to the last dot) and its complete suffix (from the first dot);
with every option off, the template `%title` and the title `a.b.c`, the
returned path is `a.b.b.c`. -/
theorem GetFilenameForSong_doubles_middle :
    (plainFormat "%title".toList).GetFilenameForSong plainExternal
        { fileSong with title := "a.b.c".toList } [] =
      { filename := "a.b.b.c".toList, unique_filename := true } := by
  decide

/-- C30: with the ratings taken as exact values, every rating of the list 0,
0.2, 0.4, 0.6, 0.8, 1 is returned by `ConvertPOPMRating` from the byte that
`ConvertToPOPMRating` gives for it; 0.4 is written as 0x40 and read back as
0.4. -/
theorem ConvertPOPMRating_round_trip :
    (∀ r ∈ ([0, 0.2, 0.4, 0.6, 0.8, 1] : List ℚ),
        ConvertPOPMRating (ConvertToPOPMRating r) = r) ∧
      ConvertToPOPMRating 0.4 = 0x40 ∧ ConvertPOPMRating 0x40 = 0.4 ∧
      List.map ConvertToPOPMRating [0, 0.2, 0.4, 0.6, 0.8, 1] =
        [0x00, 0x01, 0x40, 0x80, 0xC0, 0xFF] := by
  refine ⟨?_, ?_, ?_, ?_⟩
  · intro r h
    simp only [List.mem_cons, List.mem_singleton, List.not_mem_nil, or_false] at h
    rcases h with h | h | h | h | h | h <;> subst h <;>
      norm_num [ConvertPOPMRating, ConvertToPOPMRating]
  all_goals norm_num [ConvertPOPMRating, ConvertToPOPMRating]

/-- C30, at the rating 0.6, written as 0x80. -/
theorem ConvertPOPMRating_round_trip_witness :
    ConvertPOPMRating (ConvertToPOPMRating 0.6) = 0.6 :=
  ConvertPOPMRating_round_trip.1 0.6 (by simp)

end Strawberry
